import Mathlib

/-!
Verification of the metadata-resolution pipeline of the Slack link harvester
(`Slack_Link_Harvester.py`).  The Python code is shallowly embedded: strings
are `List Char` (Python `str` is a sequence of Unicode scalar values; the
embedding cannot represent lone surrogates, which Lean's `Char` excludes),
the relevant parts of the Python standard library (`urllib.parse`,
`html.unescape`, `str` methods) are modelled as executable Lean functions
translated from the CPython sources, and network / HTML-parsing side effects
are supplied by an explicit environment of oracle functions.
-/

/-- Python strings are modelled as lists of Unicode scalar values. -/
abbrev Str := List Char

/-- ASCII decimal digit test (Python `str.isdigit` restricted to ASCII; the
regexes in the source use the ASCII classes `[0-9]`, `\d`). -/
def isAsciiDigit (c : Char) : Bool := 48 ≤ c.toNat && c.toNat ≤ 57

/-- ASCII letter test (the source's regexes use `[A-Za-z]`). -/
def isAsciiAlpha (c : Char) : Bool :=
  (97 ≤ c.toNat && c.toNat ≤ 122) || (65 ≤ c.toNat && c.toNat ≤ 90)

/-- ASCII uppercase letter test. -/
def isAsciiUpper (c : Char) : Bool := 65 ≤ c.toNat && c.toNat ≤ 90

/-- ASCII lowercase letter test. -/
def isAsciiLower (c : Char) : Bool := 97 ≤ c.toNat && c.toNat ≤ 122

/-- ASCII alphanumeric test (regex class `[A-Za-z0-9]`). -/
def isAsciiAlnum (c : Char) : Bool := isAsciiAlpha c || isAsciiDigit c

/-- Hexadecimal digit test (both cases), regex class `[0-9a-fA-F]`. -/
def isHexDigit (c : Char) : Bool :=
  isAsciiDigit c || (97 ≤ c.toNat && c.toNat ≤ 102) || (65 ≤ c.toNat && c.toNat ≤ 70)

/-- Value of a hexadecimal digit. -/
def hexVal (c : Char) : Nat :=
  if isAsciiDigit c then c.toNat - 48
  else if 97 ≤ c.toNat && c.toNat ≤ 102 then c.toNat - 97 + 10
  else if 65 ≤ c.toNat && c.toNat ≤ 70 then c.toNat - 65 + 10
  else 0

/-- Uppercase hexadecimal digit for a value below 16 (percent-encoding uses
`'%%%02X'`, i.e. uppercase hex). -/
def hexDigitUpper (n : Nat) : Char :=
  if n < 10 then Char.ofNat (48 + n) else Char.ofNat (65 + n - 10)

/-- Python `str.lower` restricted to ASCII.  The source lowercases URL schemes
and hosts, which are ASCII in every real input; full Unicode case mapping is
not modelled. -/
def pyLowerChar (c : Char) : Char :=
  if isAsciiUpper c then Char.ofNat (c.toNat + 32) else c

/-- Python `str.lower` (ASCII-restricted, see `pyLowerChar`). -/
def pyLower (s : Str) : Str := s.map pyLowerChar

/-- Python `str.upper` restricted to ASCII (used by `.title()`). -/
def pyUpperChar (c : Char) : Char :=
  if isAsciiLower c then Char.ofNat (c.toNat - 32) else c

/-- Unicode whitespace as recognised by Python's `str.strip` / `str.split`
(the code points for which `str.isspace` is true). -/
def pyIsSpace (c : Char) : Bool :=
  (9 ≤ c.toNat && c.toNat ≤ 13) || (28 ≤ c.toNat && c.toNat ≤ 31) ||
  c.toNat = 32 || c.toNat = 0x85 || c.toNat = 0xA0 || c.toNat = 0x1680 ||
  (0x2000 ≤ c.toNat && c.toNat ≤ 0x200A) || c.toNat = 0x2028 ||
  c.toNat = 0x2029 || c.toNat = 0x202F || c.toNat = 0x205F || c.toNat = 0x3000

/-- Python `str.lstrip()` (no argument: strips Unicode whitespace). -/
def pyLstrip (s : Str) : Str := s.dropWhile pyIsSpace

/-- Python `str.rstrip()` (no argument). -/
def pyRstrip (s : Str) : Str := (s.reverse.dropWhile pyIsSpace).reverse

/-- Python `str.strip()` (no argument). -/
def pyStrip (s : Str) : Str := pyRstrip (pyLstrip s)

/-- Python `str.lstrip(chars)`: drop leading characters in `cs`. -/
def pyLstripSet (cs : Str) (s : Str) : Str := s.dropWhile (fun c => c ∈ cs)

/-- Python `str.rstrip(chars)`: drop trailing characters in `cs`. -/
def pyRstripSet (cs : Str) (s : Str) : Str :=
  (s.reverse.dropWhile (fun c => c ∈ cs)).reverse

/-- Python `str.strip(chars)`. -/
def pyStripSet (cs : Str) (s : Str) : Str := pyRstripSet cs (pyLstripSet cs s)

/-- Helper for `pyWords`: accumulates the current word (in reverse). -/
def pyWordsAux : Str → Str → List Str
  | [], acc => if acc = [] then [] else [acc.reverse]
  | c :: rest, acc =>
    if pyIsSpace c then
      if acc = [] then pyWordsAux rest []
      else acc.reverse :: pyWordsAux rest []
    else pyWordsAux rest (c :: acc)

/-- Python `str.split()` (no argument): split on whitespace runs, dropping
empty pieces. -/
def pyWords (s : Str) : List Str := pyWordsAux s []

/-- Join a list of strings with a separator (Python `sep.join`). -/
def joinSep (sep : Str) : List Str → Str
  | [] => []
  | [x] => x
  | x :: y :: rest => x ++ sep ++ joinSep sep (y :: rest)

/-- Python `" ".join(ws)`. -/
def spaceJoin (ws : List Str) : Str := joinSep [' '] ws

/-- Helper for `pySplitSep`: split on a separator character, keeping empty
pieces (Python `str.split(sep)` semantics on a nonempty string). -/
def pySplitSepAux (sep : Char) : Str → Str → List Str
  | [], acc => [acc.reverse]
  | c :: rest, acc =>
    if c = sep then acc.reverse :: pySplitSepAux sep rest []
    else pySplitSepAux sep rest (c :: acc)

/-- Python `str.split(sep)` for a single-character separator. -/
def pySplitSep (sep : Char) (s : Str) : List Str := pySplitSepAux sep s []

/-- Python `str.split(sep, 1)`: split only at the first occurrence.  Returns
the part before the separator and, when present, the part after it. -/
def pySplitOnce (sep : Char) (s : Str) : Str × Option Str :=
  if sep ∈ s then (s.takeWhile (fun c => c ≠ sep), some ((s.dropWhile (fun c => c ≠ sep)).drop 1))
  else (s, none)

/-- Index of the first occurrence of a character, Python `str.find` (as
`Option` instead of `-1`). -/
def strFind (sep : Char) : Str → Option Nat
  | [] => none
  | c :: rest => if c = sep then some 0 else (strFind sep rest).map (· + 1)

/-- Index of the last occurrence of a character, Python `str.rfind` (as
`Option` instead of `-1`). -/
def strRfind (sep : Char) (s : Str) : Option Nat :=
  (strFind sep s.reverse).map (fun i => s.length - 1 - i)

/-- Python `str.find(sep, start)` restricted to searching from `start`. -/
def strFindFrom (sep : Char) (s : Str) (start : Nat) : Option Nat :=
  (strFind sep (s.drop start)).map (· + start)

/-- Whether `pre` is an initial segment of `s` (Python `str.startswith`). -/
def beginsWithL (pre : Str) (s : Str) : Bool := decide (s.take pre.length = pre)

/-- Whether `suf` is a suffix of `s` (Python `str.endswith`). -/
def endsWithL (suf : Str) (s : Str) : Bool := beginsWithL suf.reverse s.reverse

/-- Whether `pat` occurs as a contiguous substring of `s` (Python `in`). -/
def containsSub (pat : Str) : Str → Bool
  | [] => decide (pat = [])
  | c :: rest => beginsWithL pat (c :: rest) || containsSub pat rest

/-- Case-insensitive substring test (the source frequently lowercases and
then uses `in`). -/
def containsSubCI (pat : Str) (s : Str) : Bool := containsSub (pyLower pat) (pyLower s)

/-- Singleton string for a code point (helper for entity tables). -/
def chl (n : Nat) : Str := [Char.ofNat n]

/-- Subset of the HTML5 named-character-reference table used by
`html.unescape` (CPython `html.entities.html5`).  Keys ending in a semicolon
and legacy bare keys are separate entries, exactly as in the Python dict.
The full table has ~2200 entries; this model carries a representative subset
(all entities occurring in the proofs and witnesses below behave exactly as
in CPython). -/
def entityTable : List (Str × Str) :=
  [("amp;".data, chl 38), ("amp".data, chl 38),
   ("lt;".data, chl 60), ("lt".data, chl 60),
   ("gt;".data, chl 62), ("gt".data, chl 62),
   ("quot;".data, chl 34), ("quot".data, chl 34),
   ("nbsp;".data, chl 0xA0), ("nbsp".data, chl 0xA0),
   ("copy;".data, chl 0xA9), ("copy".data, chl 0xA9),
   ("reg;".data, chl 0xAE), ("reg".data, chl 0xAE),
   ("deg;".data, chl 0xB0), ("deg".data, chl 0xB0),
   ("micro;".data, chl 0xB5), ("micro".data, chl 0xB5),
   ("middot;".data, chl 0xB7), ("middot".data, chl 0xB7),
   ("plusmn;".data, chl 0xB1), ("plusmn".data, chl 0xB1),
   ("sect;".data, chl 0xA7), ("sect".data, chl 0xA7),
   ("para;".data, chl 0xB6), ("para".data, chl 0xB6),
   ("times;".data, chl 0xD7), ("times".data, chl 0xD7),
   ("laquo;".data, chl 0xAB), ("laquo".data, chl 0xAB),
   ("raquo;".data, chl 0xBB), ("raquo".data, chl 0xBB),
   ("apos;".data, chl 39),
   ("hellip;".data, chl 0x2026), ("mdash;".data, chl 0x2014),
   ("ndash;".data, chl 0x2013), ("rsquo;".data, chl 0x2019),
   ("lsquo;".data, chl 0x2018), ("ldquo;".data, chl 0x201C),
   ("rdquo;".data, chl 0x201D), ("trade;".data, chl 0x2122),
   ("bull;".data, chl 0x2022), ("minus;".data, chl 0x2212),
   ("dagger;".data, chl 0x2020), ("permil;".data, chl 0x2030),
   ("euro;".data, chl 0x20AC), ("infin;".data, chl 0x221E),
   ("ne;".data, chl 0x2260), ("le;".data, chl 0x2264),
   ("ge;".data, chl 0x2265), ("alpha;".data, chl 0x3B1),
   ("beta;".data, chl 0x3B2), ("gamma;".data, chl 0x3B3),
   ("delta;".data, chl 0x3B4)]

/-- Lookup in the entity table (Python `s in html5` / `html5[s]`). -/
def lookupEntity (k : Str) : Option Str :=
  (entityTable.find? (fun p => decide (p.1 = k))).map (·.2)

/-- CPython `html._invalid_charrefs`: numeric references mapped to
Windows-1252-style replacements. -/
def invalidCharrefs : List (Nat × Nat) :=
  [(0x00, 0xFFFD), (0x0d, 0x0D), (0x80, 0x20AC), (0x81, 0x81),
   (0x82, 0x201A), (0x83, 0x0192), (0x84, 0x201E), (0x85, 0x2026),
   (0x86, 0x2020), (0x87, 0x2021), (0x88, 0x02C6), (0x89, 0x2030),
   (0x8a, 0x0160), (0x8b, 0x2039), (0x8c, 0x0152), (0x8d, 0x8d),
   (0x8e, 0x017D), (0x8f, 0x8f), (0x90, 0x90), (0x91, 0x2018),
   (0x92, 0x2019), (0x93, 0x201C), (0x94, 0x201D), (0x95, 0x2022),
   (0x96, 0x2013), (0x97, 0x2014), (0x98, 0x02DC), (0x99, 0x2122),
   (0x9a, 0x0161), (0x9b, 0x203A), (0x9c, 0x0153), (0x9d, 0x9d),
   (0x9e, 0x017E), (0x9f, 0x0178)]

/-- CPython `html._invalid_codepoints` membership (control characters and
noncharacters, dropped by `unescape`). -/
def invalidCodepoint (n : Nat) : Bool :=
  (1 ≤ n && n ≤ 8) || (0xe ≤ n && n ≤ 0x1f) || (0x7f ≤ n && n ≤ 0x9f) ||
  (0xfdd0 ≤ n && n ≤ 0xfdef) || n % 0x10000 = 0xfffe || n % 0x10000 = 0xffff

/-- CPython `_replace_charref` on a numeric reference value. -/
def numCharref (n : Nat) : Str :=
  match invalidCharrefs.find? (fun p => decide (p.1 = n)) with
  | some p => [Char.ofNat p.2]
  | none =>
    if (0xD800 ≤ n && n ≤ 0xDFFF) || n > 0x10FFFF then [Char.ofNat 0xFFFD]
    else if invalidCodepoint n then []
    else [Char.ofNat n]

/-- CPython `_replace_charref` on a named reference group `s` (which carries a
trailing semicolon when one was matched): exact lookup, then longest matching
prefix of length ≥ 2, else the text is left as-is. -/
def namedPrefixAux : Nat → Str → Option (Str × Str)
  | 0, _ => none
  | x + 1, s =>
    if x + 1 < 2 then none
    else
      match lookupEntity (s.take (x + 1)) with
      | some r => some (r, s.drop (x + 1))
      | none => namedPrefixAux x s

/-- CPython `_replace_charref`, named branch. -/
def replaceNamed (s : Str) : Str :=
  match lookupEntity s with
  | some r => r
  | none =>
    match namedPrefixAux (s.length - 1) s with
    | some (r, rest) => r ++ rest
    | none => '&' :: s

/-- Character class of the named-reference regex: `[^\t\n\f <&#;]`. -/
def charrefNameChar (c : Char) : Bool :=
  !(c = '\t' || c = '\n' || c.toNat = 12 || c = ' ' || c = '<' || c = '&' ||
    c = '#' || c = ';')

/-- Digit-string to number (for numeric character references). -/
def digitsToNat (ds : Str) : Nat := ds.foldl (fun acc c => 10 * acc + (c.toNat - 48)) 0

/-- Hex-digit string to number. -/
def hexToNat (ds : Str) : Nat := ds.foldl (fun acc c => 16 * acc + hexVal c) 0

/-- Fuel-driven scanner of `html.unescape` (CPython `_charref.sub` with
`_replace_charref`): at each `&` the regex
`&(#[0-9]+;?|#[xX][0-9a-fA-F]+;?|[^\t\n\f <&#;]{1,32};?)` is attempted and
the replacement emitted; the scan resumes after the match.  The fuel is an
upper bound on the number of scanner steps (each step consumes at least one
input character). -/
def pyUnescapeGo : Nat → Str → Str
  | 0, s => s
  | _ + 1, [] => []
  | fuel + 1, c :: rest =>
    if c = '&' then
      match rest with
      | '#' :: tail =>
        let hexCase := tail.head? = some 'x' || tail.head? = some 'X'
        if hexCase then
          let ds := (tail.drop 1).takeWhile isHexDigit
          if ds = [] then '&' :: pyUnescapeGo fuel rest
          else
            let after := (tail.drop 1).drop ds.length
            let after2 := if after.head? = some ';' then after.drop 1 else after
            numCharref (hexToNat ds) ++ pyUnescapeGo fuel after2
        else
          let ds := tail.takeWhile isAsciiDigit
          if ds = [] then '&' :: pyUnescapeGo fuel rest
          else
            let after := tail.drop ds.length
            let after2 := if after.head? = some ';' then after.drop 1 else after
            numCharref (digitsToNat ds) ++ pyUnescapeGo fuel after2
      | _ =>
        let name := (rest.takeWhile charrefNameChar).take 32
        if name = [] then '&' :: pyUnescapeGo fuel rest
        else
          let after := rest.drop name.length
          if after.head? = some ';' then
            replaceNamed (name ++ [';']) ++ pyUnescapeGo fuel (after.drop 1)
          else
            replaceNamed name ++ pyUnescapeGo fuel after
    else c :: pyUnescapeGo fuel rest

/-- Python `html.unescape`. -/
def pyUnescape (s : Str) : Str := pyUnescapeGo (s.length + 1) s

/-- UTF-8 encoding of a Unicode scalar value (list of byte values). -/
def utf8EncodeChar (n : Nat) : List Nat :=
  if n < 0x80 then [n]
  else if n < 0x800 then [0xC0 + n / 64, 0x80 + n % 64]
  else if n < 0x10000 then [0xE0 + n / 4096, 0x80 + n / 64 % 64, 0x80 + n % 64]
  else [0xF0 + n / 262144, 0x80 + n / 4096 % 64, 0x80 + n / 64 % 64, 0x80 + n % 64]

/-- Continuation-byte test. -/
def utf8Cont (b : Nat) : Bool := 0x80 ≤ b && b < 0xC0

/-- Classification of a UTF-8 lead byte: either it decodes alone (ASCII or
invalid, producing output directly), or it opens a multi-byte sequence with a
decoder state `(accumulator, continuation bytes still needed, lower and upper
bound for the next byte)`.  The bounds encode the rejection of overlong
encodings, surrogates, and values above `0x10FFFF`. -/
def utf8Lead (b : Nat) : Str × Option (Nat × Nat × Nat × Nat) :=
  if b < 0x80 then ([Char.ofNat b], none)
  else if 0xC2 ≤ b ∧ b ≤ 0xDF then ([], some (b - 0xC0, 1, 0x80, 0xBF))
  else if b = 0xE0 then ([], some (0, 2, 0xA0, 0xBF))
  else if b = 0xED then ([], some (13, 2, 0x80, 0x9F))
  else if 0xE0 ≤ b ∧ b ≤ 0xEF then ([], some (b - 0xE0, 2, 0x80, 0xBF))
  else if b = 0xF0 then ([], some (0, 3, 0x90, 0xBF))
  else if b = 0xF4 then ([], some (4, 3, 0x80, 0x8F))
  else if 0xF0 ≤ b ∧ b ≤ 0xF3 then ([], some (b - 0xF0, 3, 0x80, 0xBF))
  else ([Char.ofNat 0xFFFD], none)

/-- Streaming UTF-8 decoder with replacement of invalid sequences
(`errors='replace'`): a byte failing its continuation bounds terminates the
pending sequence with one replacement character and is reprocessed as a lead
byte, matching CPython's maximal-subpart replacement behaviour. -/
def utf8DecodeAux : List Nat → Option (Nat × Nat × Nat × Nat) → Str
  | [], none => []
  | [], some _ => [Char.ofNat 0xFFFD]
  | b :: rest, none =>
    match utf8Lead b with
    | (e, st) => e ++ utf8DecodeAux rest st
  | b :: rest, some (acc, need, lo, hi) =>
    if lo ≤ b ∧ b ≤ hi then
      if need = 1 then Char.ofNat (acc * 64 + (b - 0x80)) :: utf8DecodeAux rest none
      else utf8DecodeAux rest (some (acc * 64 + (b - 0x80), need - 1, 0x80, 0xBF))
    else
      match utf8Lead b with
      | (e, st) => Char.ofNat 0xFFFD :: (e ++ utf8DecodeAux rest st)

/-- UTF-8 decoding with replacement (`bytes.decode('utf-8', 'replace')`). -/
def utf8Decode (bs : List Nat) : Str := utf8DecodeAux bs none

/-- The always-safe bytes of `urllib.parse.quote`: ASCII alphanumerics and
`_.-~`. -/
def alwaysSafeByte (b : Nat) : Bool :=
  (48 ≤ b && b ≤ 57) || (65 ≤ b && b ≤ 90) || (97 ≤ b && b ≤ 122) ||
  b = 95 || b = 46 || b = 45 || b = 126

/-- Percent-escape of one byte, uppercase hex (`'%%%02X'`). -/
def pctHex (b : Nat) : Str := ['%', hexDigitUpper (b / 16), hexDigitUpper (b % 16)]

/-- Quote-plus encoding of one byte: space maps to `+`, always-safe bytes to
themselves, anything else is percent-escaped. -/
def quoteByte (b : Nat) : Str :=
  if b = 32 then ['+'] else if alwaysSafeByte b then [Char.ofNat b] else pctHex b

/-- `urllib.parse.quote_plus(s, safe='')` on one character: UTF-8 bytes, each
encoded by `quoteByte`. -/
def quotePlusChar (c : Char) : Str := (utf8EncodeChar c.toNat).flatMap quoteByte

/-- `urllib.parse.quote_plus(s, safe='')`. -/
def pyQuotePlus (s : Str) : Str := s.flatMap quotePlusChar

/-- `str.replace('+', ' ')` as applied by `parse_qsl` before unquoting. -/
def plusToSpace (s : Str) : Str := s.map (fun c => if c = '+' then ' ' else c)

/-- `urllib.parse.unquote` with UTF-8/`replace` decoding: percent-escapes with
two hex digits accumulate bytes, any other character flushes the byte buffer
through the UTF-8 decoder. -/
def pyUnquoteAux : Str → List Nat → Str
  | [], buf => utf8Decode buf
  | [c], buf => utf8Decode buf ++ [c]
  | [c, d], buf => utf8Decode buf ++ c :: pyUnquoteAux [d] []
  | c :: d :: e :: rest, buf =>
    if c = '%' ∧ isHexDigit d = true ∧ isHexDigit e = true then
      pyUnquoteAux rest (buf ++ [16 * hexVal d + hexVal e])
    else utf8Decode buf ++ c :: pyUnquoteAux (d :: e :: rest) []

/-- `urllib.parse.unquote`. -/
def pyUnquote (s : Str) : Str := pyUnquoteAux s []

/-- Result of `urllib.parse.urlsplit`. -/
structure SplitParts where
  scheme : Str
  netloc : Str
  path : Str
  query : Str
  fragment : Str
deriving DecidableEq, Repr

/-- Result of `urllib.parse.urlparse` (adds `params`). -/
structure UrlParts where
  scheme : Str
  netloc : Str
  path : Str
  params : Str
  query : Str
  fragment : Str
deriving DecidableEq, Repr

/-- CPython `scheme_chars`: letters, digits and `+-.`. -/
def schemeChar (c : Char) : Bool := isAsciiAlnum c || c = '+' || c = '-' || c = '.'

/-- CPython `uses_params`. -/
def usesParams : List Str :=
  [[], "ftp".data, "hdl".data, "prospero".data, "http".data, "imap".data,
   "https".data, "shttp".data, "rtsp".data, "rtspu".data, "sip".data,
   "sips".data, "mms".data, "sftp".data, "tel".data]

/-- CPython `uses_netloc`. -/
def usesNetloc : List Str :=
  [[], "ftp".data, "http".data, "gopher".data, "nntp".data, "telnet".data,
   "imap".data, "wais".data, "file".data, "mms".data, "https".data,
   "shttp".data, "snews".data, "prospero".data, "rtsp".data, "rtspu".data,
   "rsync".data, "svn".data, "svn+ssh".data, "sftp".data, "nfs".data,
   "git".data, "git+ssh".data, "ws".data, "wss".data]

/-- Netloc delimiters for `_splitnetloc`. -/
def netlocDelim (c : Char) : Bool := c = '/' || c = '?' || c = '#'

/-- The unsafe-byte filter applied by `urlsplit` (removal of `\t\r\n`). -/
def stripUnsafe (url0 : Str) : Str :=
  url0.filter (fun c => !(c = '\t' || c = '\r' || c = '\n'))

/-- Scheme extraction of `urlsplit`: when the text before the first `:` is a
nonempty run of scheme characters starting with an ASCII letter, it is split
off and lowercased. -/
def splitScheme (url1 : Str) : Str × Str :=
  match strFind ':' url1 with
  | some i =>
    if 0 < i && (url1.headD ' ' |> isAsciiAlpha) && (url1.take i).all schemeChar then
      (pyLower (url1.take i), url1.drop (i + 1))
    else ([], url1)
  | none => ([], url1)

/-- Netloc extraction of `urlsplit` (`_splitnetloc`): after a leading `//`,
the netloc runs up to the first of `/?#`. -/
def splitNetloc (rest : Str) : Str × Str :=
  if beginsWithL "//".data rest then
    ((rest.drop 2).takeWhile (fun c => !netlocDelim c),
     (rest.drop 2).dropWhile (fun c => !netlocDelim c))
  else ([], rest)

/-- CPython `urlsplit` (Python 3.11 line): strip the unsafe bytes `\t\r\n`,
split off the scheme and the netloc (failing, like the Python `ValueError`,
on an unbalanced square bracket), then the fragment at the first `#`, then
the query at the first `?`. -/
def pyUrlsplit (url0 : Str) : Option SplitParts :=
  let sp := splitScheme (stripUnsafe url0)
  let np := splitNetloc sp.2
  if (('[' ∈ np.1) && !(']' ∈ np.1)) || ((']' ∈ np.1) && !('[' ∈ np.1)) then none
  else
    let fp := pySplitOnce '#' np.2
    let qp := pySplitOnce '?' fp.1
    some ⟨sp.1, np.1, qp.1, qp.2.getD [], fp.2.getD []⟩

/-- CPython `_splitparams`: split parameters from the last path segment. -/
def pySplitparams (url : Str) : Str × Str :=
  if '/' ∈ url then
    match strFindFrom ';' url ((strRfind '/' url).getD 0) with
    | none => (url, [])
    | some i => (url.take i, url.drop (i + 1))
  else
    match strFind ';' url with
    | none => (url, [])
    | some i => (url.take i, url.drop (i + 1))

/-- CPython `urlparse`. -/
def pyUrlparse (url : Str) : Option UrlParts :=
  (pyUrlsplit url).map fun s =>
    if s.scheme ∈ usesParams && ';' ∈ s.path then
      let pr := pySplitparams s.path
      ⟨s.scheme, s.netloc, pr.1, pr.2, s.query, s.fragment⟩
    else ⟨s.scheme, s.netloc, s.path, [], s.query, s.fragment⟩

/-- CPython `urlunsplit` restricted to empty fragment (the source always
passes an empty fragment and empty params through `urlunparse`). -/
def pyUrlunsplit (scheme netloc path query : Str) : Str :=
  let u :=
    if netloc ≠ [] || (scheme ≠ [] && scheme ∈ usesNetloc && !beginsWithL "//".data path) then
      '/' :: '/' :: netloc ++ (if path ≠ [] && path.headD ' ' ≠ '/' then '/' :: path else path)
    else path
  let u2 := if scheme ≠ [] then scheme ++ ':' :: u else u
  if query ≠ [] then u2 ++ '?' :: query else u2

/-- CPython `parse_qsl(qs, keep_blank_values=True)` with the default `&`
separator: split on `&`, drop empty chunks, split each chunk at the first
`=` (a chunk without `=` keeps a blank value), then `+`-to-space and
percent-decode names and values. -/
def parse_qsl (qs : Str) : List (Str × Str) :=
  if qs = [] then []
  else
    (pySplitSep '&' qs).filterMap fun chunk =>
      if chunk = [] then none
      else
        let nv := pySplitOnce '=' chunk
        some (pyUnquote (plusToSpace nv.1), pyUnquote (plusToSpace (nv.2.getD [])))

/-- CPython `urlencode(pairs, doseq=True)` on string pairs: quote-plus each
name and value and join with `&`. -/
def pyUrlencode (pairs : List (Str × Str)) : Str :=
  joinSep ['&'] (pairs.map fun p => pyQuotePlus p.1 ++ '=' :: pyQuotePlus p.2)

/-- Python `<` on strings: lexicographic in code-point order, a strict prefix
being smaller. -/
def strLt : Str → Str → Bool
  | [], [] => false
  | [], _ :: _ => true
  | _ :: _, [] => false
  | a :: as, b :: bs => if a < b then true else if b < a then false else strLt as bs

/-- Python `<` on pairs of strings (tuple comparison). -/
def pairLt (a b : Str × Str) : Bool :=
  strLt a.1 b.1 || (a.1 = b.1 && strLt a.2 b.2)

/-- Insertion into a sorted list, stable (equal keys go after). -/
def sortInsert (x : Str × Str) : List (Str × Str) → List (Str × Str)
  | [] => [x]
  | y :: rest => if pairLt x y then x :: y :: rest else y :: sortInsert x rest

/-- Python `sorted` on a list of string pairs (stable, ascending). -/
def sortPairs : List (Str × Str) → List (Str × Str)
  | [] => []
  | x :: rest => sortInsert x (sortPairs rest)

/-- `TRACKING_KEYS` from the source: query keys dropped during
canonicalization. -/
def TRACKING_KEYS : List Str :=
  ["utm_source".data, "utm_medium".data, "utm_campaign".data, "utm_term".data,
   "utm_content".data, "utm_name".data, "utm_cid".data, "utm_reader".data,
   "utm_viz_id".data, "utm_pubreferrer".data, "utm_swu".data,
   "ga_source".data, "ga_medium".data, "ga_campaign".data, "ga_content".data,
   "fbclid".data, "gclid".data, "mc_cid".data, "mc_eid".data, "igshid".data,
   "mkt_tok".data, "uuid".data, "via".data, "src".data, "si".data, "s".data,
   "login".data, "returnurl".data, "redirect".data, "ref".data]

/-- The punctuation stripped from the end of a pasted URL:
`u.rstrip(").,]}>\"'")`. -/
def stripPunct : Str := [')', '.', ',', ']', '}', '>', '"', Char.ofNat 39]

/-- Pre-parse cleanup of `canonicalize_url` (source lines 152–158): HTML
unescape and whitespace strip, unwrap Slack `<url|label>` markup, keep only
the segment before a bare `|`, and strip trailing pasted punctuation. -/
def canonClean (u : Str) : Str :=
  let u1 := pyStrip (pyUnescape u)
  let u2 :=
    if u1.headD ' ' = '<' && '>' ∈ u1 then
      let inner := (u1.drop 1).takeWhile (fun c => c ≠ '>')
      if '|' ∈ inner then inner.takeWhile (fun c => c ≠ '|') else inner
    else u1
  let u3 := if '|' ∈ u2 then pyStrip (u2.takeWhile (fun c => c ≠ '|')) else u2
  pyRstripSet stripPunct u3

/-- Trailing-slash normalization of the path (source line 166): strip the
trailing slashes of a non-root path. -/
def slashStripPath (path : Str) : Str :=
  if endsWithL "/".data path && path.length > 1 then pyRstripSet "/".data path else path

/-- Post-parse normalization and reassembly of `canonicalize_url` (source
lines 161–169): reject a URL without scheme or host, lowercase both, strip a
default port, strip a trailing slash, drop tracking query keys, sort and
re-encode the remaining query pairs, and rebuild without params or
fragment. -/
def canonFromParts (p : UrlParts) : Option Str :=
  if p.scheme = [] || p.netloc = [] then none
  else
    let scheme := pyLower p.scheme
    let netloc0 := pyLower p.netloc
    let netloc1 :=
      if endsWithL ":80".data netloc0 && scheme = "http".data then
        netloc0.take (netloc0.length - 3)
      else netloc0
    let netloc :=
      if endsWithL ":443".data netloc1 && scheme = "https".data then
        netloc1.take (netloc1.length - 4)
      else netloc1
    let path := slashStripPath p.path
    let qpairs := (parse_qsl p.query).filter (fun kv => !decide (kv.1 ∈ TRACKING_KEYS))
    let query := if qpairs = [] then [] else pyUrlencode (sortPairs qpairs)
    some (pyUrlunsplit scheme netloc path query)

/-- `canonicalize_url` from the source (lines 150–169). -/
def canonicalize_url (u : Str) : Option Str :=
  if u = [] then none
  else
    match pyUrlparse (canonClean u) with
    | none => none
    | some p => canonFromParts p

/-- `canonicalize_url` on Lean strings (convenience wrapper). -/
def canonStr (s : String) : Option String :=
  (canonicalize_url s.data).map fun l => String.mk l

/-- `Char.ofNat` of a valid scalar value evaluates back to it. -/
theorem charToNat_ofNat (n : Nat) (h : n.isValidChar) : (Char.ofNat n).toNat = n := by
  simp [Char.ofNat, Char.toNat, h, Char.ofNatAux, UInt32.toNat, BitVec.toNat_ofNatLt]

/-- Every `Char` is a valid Unicode scalar value. -/
theorem char_toNat_valid (c : Char) : c.toNat.isValidChar := c.valid

/-- Characters with equal scalar values are equal. -/
theorem char_toNat_inj {c d : Char} (h : c.toNat = d.toNat) : c = d := by
  apply Char.eq_of_val_eq
  apply UInt32.eq_of_toBitVec_eq
  apply BitVec.eq_of_toNat_eq
  exact h

/-- ASCII lowercasing is idempotent, character-wise. -/
theorem pyLowerChar_idem (c : Char) : pyLowerChar (pyLowerChar c) = pyLowerChar c := by
  unfold pyLowerChar isAsciiUpper
  by_cases hb : (decide (65 ≤ c.toNat) && decide (c.toNat ≤ 90)) = true
  · have hrange : 65 ≤ c.toNat ∧ c.toNat ≤ 90 := by
      simpa using hb
    have hv : (c.toNat + 32).isValidChar := by
      left
      omega
    have ht := charToNat_ofNat (c.toNat + 32) hv
    rw [if_pos hb, ht, if_neg]
    simp only [Bool.and_eq_true, decide_eq_true_eq, not_and]
    intro
    omega
  · rw [if_neg hb, if_neg hb]

/-- ASCII lowercasing of a string is idempotent. -/
theorem pyLower_idem (s : Str) : pyLower (pyLower s) = pyLower s := by
  unfold pyLower
  rw [List.map_map]
  apply List.map_congr_left
  intro c _
  exact pyLowerChar_idem c

/-- A non-uppercase character is fixed by `pyLowerChar`. -/
theorem pyLowerChar_eq_self {c : Char} (h : isAsciiUpper c = false) : pyLowerChar c = c := by
  unfold pyLowerChar
  rw [h]
  simp

/-- For a character `d` that is not an ASCII letter, `pyLowerChar c = d` holds
exactly when `c = d`, so membership of `d` is preserved by lowercasing. -/
theorem pyLowerChar_eq_iff_of_not_letter {d : Char} (hd : isAsciiAlpha d = false) (c : Char) :
    pyLowerChar c = d ↔ c = d := by
  unfold isAsciiAlpha at hd
  simp only [Bool.or_eq_false_iff, Bool.and_eq_false_iff, decide_eq_false_iff_not] at hd
  constructor
  · intro h
    unfold pyLowerChar at h
    by_cases hu : isAsciiUpper c = true
    · rw [if_pos hu] at h
      exfalso
      unfold isAsciiUpper at hu
      simp only [Bool.and_eq_true, decide_eq_true_eq] at hu
      have hv : (c.toNat + 32).isValidChar := by
        left
        omega
      have ht := charToNat_ofNat (c.toNat + 32) hv
      rw [← h] at hd
      rw [ht] at hd
      omega
    · rw [if_neg hu] at h
      exact h
  · intro h
    subst h
    apply pyLowerChar_eq_self
    unfold isAsciiUpper
    simp only [Bool.and_eq_false_iff, decide_eq_false_iff_not]
    omega

/-- Membership of a non-letter character is preserved by `pyLower`. -/
theorem mem_pyLower_iff_of_not_letter {d : Char} (hd : isAsciiAlpha d = false) (s : Str) :
    d ∈ pyLower s ↔ d ∈ s := by
  unfold pyLower
  rw [List.mem_map]
  constructor
  · rintro ⟨c, hc, hcd⟩
    rwa [(pyLowerChar_eq_iff_of_not_letter hd c).mp hcd] at hc
  · intro h
    exact ⟨d, h, (pyLowerChar_eq_iff_of_not_letter hd d).mpr rfl⟩

/-- Totality of the string order: two strings are equal or one is smaller. -/
theorem strLt_total : ∀ a b : Str, strLt a b = true ∨ strLt b a = true ∨ a = b := by
  intro a
  induction a with
  | nil =>
    intro b
    cases b with
    | nil => right; right; rfl
    | cons y ys => left; rfl
  | cons x xs ih =>
    intro b
    cases b with
    | nil => right; left; rfl
    | cons y ys =>
      by_cases hxy : x < y
      · left
        unfold strLt
        rw [if_pos hxy]
      · by_cases hyx : y < x
        · right; left
          unfold strLt
          rw [if_pos hyx]
        · have hxyeq : x = y := le_antisymm (not_lt.mp hyx) (not_lt.mp hxy)
          subst hxyeq
          rcases ih ys with h | h | h
          · left
            unfold strLt
            rw [if_neg hxy, if_neg hxy]
            exact h
          · right; left
            unfold strLt
            rw [if_neg hxy, if_neg hxy]
            exact h
          · right; right
            rw [h]

/-- Irreflexivity of the string order. -/
theorem strLt_irrefl : ∀ a : Str, strLt a a = false := by
  intro a
  induction a with
  | nil => rfl
  | cons x xs ih =>
    unfold strLt
    rw [if_neg (lt_irrefl x), if_neg (lt_irrefl x)]
    exact ih

/-- Asymmetry of the string order. -/
theorem strLt_asymm : ∀ a b : Str, strLt a b = true → strLt b a = false := by
  intro a
  induction a with
  | nil =>
    intro b h
    cases b with
    | nil => rfl
    | cons y ys => rfl
  | cons x xs ih =>
    intro b h
    cases b with
    | nil => exact absurd h (by simp [strLt])
    | cons y ys =>
      unfold strLt at h ⊢
      by_cases hxy : x < y
      · rw [if_neg (asymm hxy), if_pos hxy]
      · rw [if_neg hxy] at h
        by_cases hyx : y < x
        · rw [if_pos hyx] at h
          exact absurd h (by simp)
        · rw [if_neg hyx] at h ⊢
          rw [if_neg hxy]
          exact ih ys h

/-- Transitivity of the string order. -/
theorem strLt_trans : ∀ a b c : Str, strLt a b = true → strLt b c = true → strLt a c = true := by
  intro a
  induction a with
  | nil =>
    intro b c hab hbc
    cases c with
    | nil =>
      cases b with
      | nil => exact hab
      | cons y ys => exact absurd hbc (by simp [strLt])
    | cons z zs => rfl
  | cons x xs ih =>
    intro b c hab hbc
    cases b with
    | nil => exact absurd hab (by simp [strLt])
    | cons y ys =>
      cases c with
      | nil => exact absurd hbc (by simp [strLt])
      | cons z zs =>
        unfold strLt at hab hbc ⊢
        by_cases hxy : x < y
        · by_cases hyz : y < z
          · rw [if_pos (lt_trans hxy hyz)]
          · rw [if_neg hyz] at hbc
            by_cases hzy : z < y
            · rw [if_pos hzy] at hbc
              exact absurd hbc (by simp)
            · have : y = z := le_antisymm (not_lt.mp hzy) (not_lt.mp hyz)
              subst this
              rw [if_pos hxy]
        · rw [if_neg hxy] at hab
          by_cases hyx : y < x
          · rw [if_pos hyx] at hab
            exact absurd hab (by simp)
          · have hxyeq : x = y := le_antisymm (not_lt.mp hyx) (not_lt.mp hxy)
            subst hxyeq
            rw [if_neg hxy] at hab
            by_cases hyz : x < z
            · rw [if_pos hyz]
            · rw [if_neg hyz] at hbc ⊢
              by_cases hzy : z < x
              · rw [if_pos hzy] at hbc
                exact absurd hbc (by simp)
              · rw [if_neg hzy] at hbc ⊢
                exact ih ys zs hab hbc

/-- Totality of the pair order. -/
theorem pairLt_total (a b : Str × Str) : pairLt a b = true ∨ pairLt b a = true ∨ a = b := by
  unfold pairLt
  rcases strLt_total a.1 b.1 with h | h | h
  · left
    rw [h]
    simp
  · right; left
    rw [h]
    simp
  · rcases strLt_total a.2 b.2 with h2 | h2 | h2
    · left
      rw [h, h2]
      simp [strLt_irrefl]
    · right; left
      rw [← h, h2]
      simp [strLt_irrefl]
    · right; right
      exact Prod.ext h h2

/-- Asymmetry of the pair order. -/
theorem pairLt_asymm (a b : Str × Str) (h : pairLt a b = true) : pairLt b a = false := by
  unfold pairLt at h ⊢
  simp only [Bool.or_eq_true, Bool.and_eq_true, decide_eq_true_eq] at h
  rcases h with h | ⟨heq, h2⟩
  · rw [strLt_asymm _ _ h]
    simp only [Bool.false_or, Bool.and_eq_false_iff]
    by_cases hba : b.1 = a.1
    · left
      rw [decide_eq_false]
      intro hfst
      rw [hba] at h
      rw [strLt_irrefl] at h
      exact absurd h (by simp)
    · left
      exact decide_eq_false hba
  · rw [heq]
    rw [strLt_irrefl]
    simp only [Bool.false_or, Bool.and_eq_false_iff]
    right
    exact strLt_asymm _ _ h2

/-- Transitivity of the pair order. -/
theorem pairLt_trans (a b c : Str × Str) (hab : pairLt a b = true) (hbc : pairLt b c = true) :
    pairLt a c = true := by
  unfold pairLt at hab hbc ⊢
  simp only [Bool.or_eq_true, Bool.and_eq_true, decide_eq_true_eq] at hab hbc ⊢
  rcases hab with h1 | ⟨he1, h1⟩
  · rcases hbc with h2 | ⟨he2, h2⟩
    · left
      exact strLt_trans _ _ _ h1 h2
    · left
      rwa [← he2]
  · rcases hbc with h2 | ⟨he2, h2⟩
    · left
      rwa [he1]
    · right
      exact ⟨he1.trans he2, strLt_trans _ _ _ h1 h2⟩

/-- The sortedness predicate maintained by `sortPairs`: no later element is
smaller than an earlier one. -/
def PairsSorted (l : List (Str × Str)) : Prop :=
  List.Pairwise (fun a b => pairLt b a = false) l

/-- Membership in `sortInsert`. -/
theorem mem_sortInsert (z x : Str × Str) (l : List (Str × Str)) :
    z ∈ sortInsert x l ↔ z = x ∨ z ∈ l := by
  induction l with
  | nil => simp [sortInsert]
  | cons y rest ih =>
    unfold sortInsert
    by_cases hxy : pairLt x y = true
    · rw [if_pos hxy]
      simp
    · rw [if_neg hxy]
      simp only [List.mem_cons, ih]
      tauto

/-- `sortInsert` preserves sortedness. -/
theorem sortInsert_sorted (x : Str × Str) (l : List (Str × Str)) (h : PairsSorted l) :
    PairsSorted (sortInsert x l) := by
  induction l with
  | nil => exact List.pairwise_singleton _ x
  | cons y rest ih =>
    unfold sortInsert
    rcases List.pairwise_cons.mp h with ⟨hy, hrest⟩
    by_cases hxy : pairLt x y = true
    · rw [if_pos hxy]
      apply List.pairwise_cons.mpr
      refine ⟨?_, h⟩
      intro z hz
      rcases List.mem_cons.mp hz with hz | hz
      · rw [hz]
        exact pairLt_asymm _ _ hxy
      · have hzy := hy z hz
        by_cases hzx : pairLt z x = true
        · exfalso
          have := pairLt_trans z x y hzx hxy
          rw [hzy] at this
          exact absurd this (by simp)
        · simpa using hzx
    · rw [if_neg hxy]
      apply List.pairwise_cons.mpr
      refine ⟨?_, ih hrest⟩
      intro z hz
      rcases (mem_sortInsert z x rest).mp hz with hz | hz
      · rw [hz]
        simpa using hxy
      · exact hy z hz

/-- The output of `sortPairs` is sorted. -/
theorem sortPairs_sorted (l : List (Str × Str)) : PairsSorted (sortPairs l) := by
  induction l with
  | nil => exact List.Pairwise.nil
  | cons x rest ih => exact sortInsert_sorted x (sortPairs rest) ih

/-- Inserting the head of an already-sorted list returns the list itself. -/
theorem sortInsert_of_sorted_cons (x : Str × Str) (l : List (Str × Str))
    (h : PairsSorted (x :: l)) : sortInsert x l = x :: l := by
  induction l with
  | nil => rfl
  | cons y rest ih =>
    unfold sortInsert
    rcases List.pairwise_cons.mp h with ⟨hle, htail⟩
    have hyx : pairLt y x = false := hle y (List.mem_cons_self y rest)
    by_cases hxy : pairLt x y = true
    · rw [if_pos hxy]
    · rw [if_neg hxy]
      have hxyeq : x = y := by
        rcases pairLt_total x y with ht | ht | ht
        · exact absurd ht hxy
        · rw [ht] at hyx
          exact absurd hyx (by simp)
        · exact ht
      subst hxyeq
      have hxrest : PairsSorted (x :: rest) := by
        apply List.pairwise_cons.mpr
        rcases List.pairwise_cons.mp htail with ⟨h2, h3⟩
        exact ⟨h2, h3⟩
      rw [ih hxrest]

/-- Sorting a sorted list is the identity. -/
theorem sortPairs_of_sorted (l : List (Str × Str)) (h : PairsSorted l) : sortPairs l = l := by
  induction l with
  | nil => rfl
  | cons x rest ih =>
    unfold sortPairs
    rcases List.pairwise_cons.mp h with ⟨_, htail⟩
    rw [ih htail]
    exact sortInsert_of_sorted_cons x rest h

/-- `sortPairs` is idempotent. -/
theorem sortPairs_idem (l : List (Str × Str)) : sortPairs (sortPairs l) = sortPairs l :=
  sortPairs_of_sorted (sortPairs l) (sortPairs_sorted l)

/-- The members of `sortPairs l` are the members of `l`. -/
theorem mem_sortPairs (z : Str × Str) (l : List (Str × Str)) :
    z ∈ sortPairs l ↔ z ∈ l := by
  induction l with
  | nil => simp [sortPairs]
  | cons x rest ih =>
    unfold sortPairs
    rw [mem_sortInsert]
    simp only [List.mem_cons, ih]

/-- The head of a `dropWhile` result fails the predicate. -/
theorem dropWhile_head_not {p : Char → Bool} :
    ∀ {l : Str} {c : Char}, (l.dropWhile p).head? = some c → p c = false := by
  intro l
  induction l with
  | nil => intro c h; exact absurd h (by simp)
  | cons x xs ih =>
    intro c h
    rw [List.dropWhile_cons] at h
    by_cases hx : p x = true
    · rw [if_pos hx] at h
      exact ih h
    · rw [if_neg hx] at h
      simp only [List.head?_cons, Option.some.injEq] at h
      rw [← h]
      simpa using hx

/-- The last element of `pyRstripSet cs s` is not in `cs`. -/
theorem pyRstripSet_getLast_not_mem {cs s : Str} {c : Char}
    (h : (pyRstripSet cs s).getLast? = some c) : c ∉ cs := by
  unfold pyRstripSet at h
  rw [List.getLast?_reverse] at h
  have := dropWhile_head_not h
  simpa using this

/-- `endsWithL` with a one-character suffix tests the last element. -/
theorem endsWithL_single_iff (c : Char) (s : Str) :
    endsWithL [c] s = true ↔ s.getLast? = some c := by
  unfold endsWithL beginsWithL
  rw [List.reverse_singleton]
  cases hs : s.reverse with
  | nil =>
    simp only [List.take_nil, decide_eq_true_eq]
    rw [← List.head?_reverse, hs]
    simp
  | cons x xs =>
    simp only [List.take_succ_cons, List.take_zero, decide_eq_true_eq]
    rw [← List.head?_reverse, hs]
    simp [List.cons.injEq, eq_comm]

/-- Trailing-slash stripping is idempotent. -/
theorem slashStrip_idem (s : Str) : slashStripPath (slashStripPath s) = slashStripPath s := by
  unfold slashStripPath
  by_cases h : (endsWithL "/".data s && decide (s.length > 1)) = true
  · rw [if_pos h, if_neg]
    intro h2
    rw [Bool.and_eq_true] at h2
    have hlast := (endsWithL_single_iff '/' (pyRstripSet "/".data s)).mp (by
      have : "/".data = ['/'] := rfl
      rw [this] at h2
      exact h2.1)
    have := pyRstripSet_getLast_not_mem hlast
    simp at this
  · rw [if_neg h, if_neg h]

/-- Members of `pyRstripSet cs s` are members of `s`. -/
theorem mem_pyRstripSet {cs s : Str} {c : Char} (h : c ∈ pyRstripSet cs s) : c ∈ s := by
  unfold pyRstripSet at h
  rw [List.mem_reverse] at h
  have := (List.dropWhile_sublist _).subset h
  rwa [List.mem_reverse] at this

/-- `takeWhile` over an append whose first part satisfies the predicate. -/
theorem takeWhile_append_all {p : Char → Bool} {xs : Str} (ys : Str)
    (h : ∀ c ∈ xs, p c = true) :
    (xs ++ ys).takeWhile p = xs ++ ys.takeWhile p := by
  induction xs with
  | nil => simp
  | cons x rest ih =>
    rw [List.cons_append, List.takeWhile_cons, if_pos (h x (by simp))]
    rw [ih (fun c hc => h c (by simp [hc])), List.cons_append]

/-- `dropWhile` over an append whose first part satisfies the predicate. -/
theorem dropWhile_append_all {p : Char → Bool} {xs : Str} (ys : Str)
    (h : ∀ c ∈ xs, p c = true) :
    (xs ++ ys).dropWhile p = ys.dropWhile p := by
  induction xs with
  | nil => simp
  | cons x rest ih =>
    rw [List.cons_append, List.dropWhile_cons, if_pos (h x (by simp))]
    exact ih (fun c hc => h c (by simp [hc]))

/-- Unfolding equation of `strFind` on a cons cell. -/
theorem strFind_cons (sep x : Char) (l : Str) :
    strFind sep (x :: l) = if x = sep then some 0 else (strFind sep l).map (· + 1) := rfl

/-- `strFind` over an append whose first part avoids the character. -/
theorem strFind_append_not_mem {sep : Char} {xs : Str} (ys : Str)
    (h : ∀ c ∈ xs, c ≠ sep) :
    strFind sep (xs ++ ys) = (strFind sep ys).map (· + xs.length) := by
  induction xs with
  | nil =>
    simp only [List.nil_append, List.length_nil]
    rcases hfind : strFind sep ys with _ | v
    · simp
    · simp
  | cons x rest ih =>
    rw [List.cons_append, strFind_cons]
    rw [if_neg (by
      intro he
      exact h x (by simp) he)]
    rw [ih (fun c hc => h c (by simp [hc]))]
    rcases hfind : strFind sep ys with _ | v
    · simp
    · simp [Nat.add_assoc]

/-- `pySplitOnce` when the separator does not occur. -/
theorem pySplitOnce_not_mem {sep : Char} {s : Str} (h : sep ∉ s) :
    pySplitOnce sep s = (s, none) := by
  unfold pySplitOnce
  rw [if_neg h]

/-- `pySplitOnce` at the first separator occurrence. -/
theorem pySplitOnce_append {sep : Char} {xs : Str} (ys : Str) (h : sep ∉ xs) :
    pySplitOnce sep (xs ++ sep :: ys) = (xs, some ys) := by
  unfold pySplitOnce
  rw [if_pos (by simp)]
  have hall : ∀ c ∈ xs, (fun c => decide (c ≠ sep)) c = true := by
    intro c hc
    simp only [decide_eq_true_eq]
    intro he
    exact h (he ▸ hc)
  have ht : List.takeWhile (fun c => decide (c ≠ sep)) (xs ++ sep :: ys) = xs := by
    rw [takeWhile_append_all (sep :: ys) hall, List.takeWhile_cons, if_neg (by simp)]
    simp
  have hd : List.drop 1 (List.dropWhile (fun c => decide (c ≠ sep)) (xs ++ sep :: ys)) = ys := by
    rw [dropWhile_append_all (sep :: ys) hall, List.dropWhile_cons, if_neg (by simp)]
    simp
  rw [ht, hd]

/-- Unfolding equation of the UTF-8 decoder on a lead byte. -/
theorem utf8DecodeAux_cons_none (b : Nat) (rest : List Nat) :
    utf8DecodeAux (b :: rest) none = (utf8Lead b).1 ++ utf8DecodeAux rest (utf8Lead b).2 := rfl

/-- Unfolding equation of the UTF-8 decoder on a continuation byte. -/
theorem utf8DecodeAux_cons_some (b : Nat) (rest : List Nat) (acc need lo hi : Nat) :
    utf8DecodeAux (b :: rest) (some (acc, need, lo, hi)) =
      if lo ≤ b ∧ b ≤ hi then
        if need = 1 then Char.ofNat (acc * 64 + (b - 0x80)) :: utf8DecodeAux rest none
        else utf8DecodeAux rest (some (acc * 64 + (b - 0x80), need - 1, 0x80, 0xBF))
      else Char.ofNat 0xFFFD :: ((utf8Lead b).1 ++ utf8DecodeAux rest (utf8Lead b).2) := rfl

/-- Decoding an encoded valid scalar value prepended to any byte tail yields
that character followed by the decoding of the tail. -/
theorem utf8DecodeAux_encode (n : Nat) (h : n.isValidChar) (rest : List Nat) :
    utf8DecodeAux (utf8EncodeChar n ++ rest) none = Char.ofNat n :: utf8DecodeAux rest none := by
  rcases h with h | h
  all_goals unfold utf8EncodeChar
  case inr =>
    -- 0xE000 ≤ n < 0x110000
    rw [if_neg (by omega)]
    by_cases h3 : n < 0x10000
    · rw [if_neg (by omega), if_pos h3]
      have hb0 : utf8Lead (0xE0 + n / 4096) = ([], some (n / 4096, 2, 0x80, 0xBF)) := by
        unfold utf8Lead
        repeat rw [if_neg (by omega)]
        rw [if_pos (by omega)]
        have he : 0xE0 + n / 4096 - 0xE0 = n / 4096 := by omega
        rw [he]
      show utf8DecodeAux ((0xE0 + n / 4096) :: (0x80 + n / 64 % 64) :: (0x80 + n % 64) :: rest)
          none = _
      rw [utf8DecodeAux_cons_none, hb0]
      simp only [List.nil_append]
      rw [utf8DecodeAux_cons_some, if_pos (by omega), if_neg (by omega)]
      have ha : n / 4096 * 64 + (0x80 + n / 64 % 64 - 0x80) = n / 64 := by omega
      rw [ha]
      rw [utf8DecodeAux_cons_some, if_pos (by omega), if_pos rfl]
      have hb : n / 64 * 64 + (0x80 + n % 64 - 0x80) = n := by omega
      rw [hb]
    · rw [if_neg (by omega), if_neg h3]
      by_cases hF0 : n / 262144 = 0
      · have hb0 : utf8Lead (0xF0 + n / 262144) = ([], some (0, 3, 0x90, 0xBF)) := by
          unfold utf8Lead
          repeat rw [if_neg (by omega)]
          rw [if_pos (by omega)]
        show utf8DecodeAux ((0xF0 + n / 262144) :: (0x80 + n / 4096 % 64) ::
            (0x80 + n / 64 % 64) :: (0x80 + n % 64) :: rest) none = _
        rw [utf8DecodeAux_cons_none, hb0]
        simp only [List.nil_append]
        rw [utf8DecodeAux_cons_some, if_pos (by omega), if_neg (by omega)]
        have ha : (0 : Nat) * 64 + (0x80 + n / 4096 % 64 - 0x80) = n / 4096 := by omega
        rw [ha]
        rw [utf8DecodeAux_cons_some, if_pos (by omega), if_neg (by omega)]
        have hb : n / 4096 * 64 + (0x80 + n / 64 % 64 - 0x80) = n / 64 := by omega
        rw [hb]
        rw [utf8DecodeAux_cons_some, if_pos (by omega), if_pos rfl]
        have hc : n / 64 * 64 + (0x80 + n % 64 - 0x80) = n := by omega
        rw [hc]
      · by_cases hF4 : n / 262144 = 4
        · have hb0 : utf8Lead (0xF0 + n / 262144) = ([], some (4, 3, 0x80, 0x8F)) := by
            unfold utf8Lead
            repeat rw [if_neg (by omega)]
            rw [if_pos (by omega)]
          show utf8DecodeAux ((0xF0 + n / 262144) :: (0x80 + n / 4096 % 64) ::
              (0x80 + n / 64 % 64) :: (0x80 + n % 64) :: rest) none = _
          rw [utf8DecodeAux_cons_none, hb0]
          simp only [List.nil_append]
          rw [utf8DecodeAux_cons_some, if_pos (by omega), if_neg (by omega)]
          have ha : (4 : Nat) * 64 + (0x80 + n / 4096 % 64 - 0x80) = n / 4096 := by omega
          rw [ha]
          rw [utf8DecodeAux_cons_some, if_pos (by omega), if_neg (by omega)]
          have hb : n / 4096 * 64 + (0x80 + n / 64 % 64 - 0x80) = n / 64 := by omega
          rw [hb]
          rw [utf8DecodeAux_cons_some, if_pos (by omega), if_pos rfl]
          have hc : n / 64 * 64 + (0x80 + n % 64 - 0x80) = n := by omega
          rw [hc]
        · have hb0 : utf8Lead (0xF0 + n / 262144) = ([], some (n / 262144, 3, 0x80, 0xBF)) := by
            unfold utf8Lead
            repeat rw [if_neg (by omega)]
            rw [if_pos (by omega)]
            have he : 0xF0 + n / 262144 - 0xF0 = n / 262144 := by omega
            rw [he]
          show utf8DecodeAux ((0xF0 + n / 262144) :: (0x80 + n / 4096 % 64) ::
              (0x80 + n / 64 % 64) :: (0x80 + n % 64) :: rest) none = _
          rw [utf8DecodeAux_cons_none, hb0]
          simp only [List.nil_append]
          rw [utf8DecodeAux_cons_some, if_pos (by omega), if_neg (by omega)]
          have ha : n / 262144 * 64 + (0x80 + n / 4096 % 64 - 0x80) = n / 4096 := by omega
          rw [ha]
          rw [utf8DecodeAux_cons_some, if_pos (by omega), if_neg (by omega)]
          have hb : n / 4096 * 64 + (0x80 + n / 64 % 64 - 0x80) = n / 64 := by omega
          rw [hb]
          rw [utf8DecodeAux_cons_some, if_pos (by omega), if_pos rfl]
          have hc : n / 64 * 64 + (0x80 + n % 64 - 0x80) = n := by omega
          rw [hc]
  case inl =>
    -- n < 0xD800
    by_cases h1 : n < 0x80
    · rw [if_pos h1]
      have hb0 : utf8Lead n = ([Char.ofNat n], none) := by
        unfold utf8Lead
        rw [if_pos h1]
      show utf8DecodeAux (n :: rest) none = _
      rw [utf8DecodeAux_cons_none, hb0]
      rfl
    · rw [if_neg h1]
      by_cases h2 : n < 0x800
      · rw [if_pos h2]
        have hb0 : utf8Lead (0xC0 + n / 64) = ([], some (n / 64, 1, 0x80, 0xBF)) := by
          unfold utf8Lead
          rw [if_neg (by omega), if_pos (by omega)]
          have he : 0xC0 + n / 64 - 0xC0 = n / 64 := by omega
          rw [he]
        show utf8DecodeAux ((0xC0 + n / 64) :: (0x80 + n % 64) :: rest) none = _
        rw [utf8DecodeAux_cons_none, hb0]
        simp only [List.nil_append]
        rw [utf8DecodeAux_cons_some, if_pos (by omega), if_pos rfl]
        have hb : n / 64 * 64 + (0x80 + n % 64 - 0x80) = n := by omega
        rw [hb]
      · rw [if_neg h2, if_pos (by omega)]
        by_cases hE0 : n / 4096 = 0
        · have hb0 : utf8Lead (0xE0 + n / 4096) = ([], some (0, 2, 0xA0, 0xBF)) := by
            unfold utf8Lead
            rw [if_neg (by omega), if_neg (by omega), if_pos (by omega)]
          show utf8DecodeAux ((0xE0 + n / 4096) :: (0x80 + n / 64 % 64) ::
              (0x80 + n % 64) :: rest) none = _
          rw [utf8DecodeAux_cons_none, hb0]
          simp only [List.nil_append]
          rw [utf8DecodeAux_cons_some, if_pos (by omega), if_neg (by omega)]
          have ha : (0 : Nat) * 64 + (0x80 + n / 64 % 64 - 0x80) = n / 64 := by omega
          rw [ha]
          rw [utf8DecodeAux_cons_some, if_pos (by omega), if_pos rfl]
          have hb : n / 64 * 64 + (0x80 + n % 64 - 0x80) = n := by omega
          rw [hb]
        · by_cases hED : n / 4096 = 13
          · have hb0 : utf8Lead (0xE0 + n / 4096) = ([], some (13, 2, 0x80, 0x9F)) := by
              unfold utf8Lead
              repeat rw [if_neg (by omega)]
              rw [if_pos (by omega)]
            show utf8DecodeAux ((0xE0 + n / 4096) :: (0x80 + n / 64 % 64) ::
                (0x80 + n % 64) :: rest) none = _
            rw [utf8DecodeAux_cons_none, hb0]
            simp only [List.nil_append]
            rw [utf8DecodeAux_cons_some, if_pos (by omega), if_neg (by omega)]
            have ha : (13 : Nat) * 64 + (0x80 + n / 64 % 64 - 0x80) = n / 64 := by omega
            rw [ha]
            rw [utf8DecodeAux_cons_some, if_pos (by omega), if_pos rfl]
            have hb : n / 64 * 64 + (0x80 + n % 64 - 0x80) = n := by omega
            rw [hb]
          · have hb0 : utf8Lead (0xE0 + n / 4096) = ([], some (n / 4096, 2, 0x80, 0xBF)) := by
              unfold utf8Lead
              repeat rw [if_neg (by omega)]
              rw [if_pos (by omega)]
              have he : 0xE0 + n / 4096 - 0xE0 = n / 4096 := by omega
              rw [he]
            show utf8DecodeAux ((0xE0 + n / 4096) :: (0x80 + n / 64 % 64) ::
                (0x80 + n % 64) :: rest) none = _
            rw [utf8DecodeAux_cons_none, hb0]
            simp only [List.nil_append]
            rw [utf8DecodeAux_cons_some, if_pos (by omega), if_neg (by omega)]
            have ha : n / 4096 * 64 + (0x80 + n / 64 % 64 - 0x80) = n / 64 := by omega
            rw [ha]
            rw [utf8DecodeAux_cons_some, if_pos (by omega), if_pos rfl]
            have hb : n / 64 * 64 + (0x80 + n % 64 - 0x80) = n := by omega
            rw [hb]

/-- `Char.ofNat` inverts `Char.toNat`. -/
theorem char_ofNat_toNat (c : Char) : Char.ofNat c.toNat = c :=
  char_toNat_inj (charToNat_ofNat _ (char_toNat_valid c))

/-- UTF-8 encoding of a string (byte list). -/
def encodeChars (cs : Str) : List Nat := cs.flatMap (fun c => utf8EncodeChar c.toNat)

/-- Decoding the encoding of a string gives the string back. -/
theorem utf8Decode_encodeChars (cs : Str) : utf8Decode (encodeChars cs) = cs := by
  induction cs with
  | nil => rfl
  | cons c rest ih =>
    show utf8DecodeAux (utf8EncodeChar c.toNat ++ encodeChars rest) none = c :: rest
    rw [utf8DecodeAux_encode c.toNat (char_toNat_valid c) (encodeChars rest), char_ofNat_toNat]
    exact congrArg (c :: ·) ih

/-- `hexDigitUpper` produces hexadecimal digits. -/
theorem hexDigitUpper_isHex (m : Nat) (h : m < 16) : isHexDigit (hexDigitUpper m) = true := by
  unfold hexDigitUpper isHexDigit isAsciiDigit
  by_cases h10 : m < 10
  · rw [if_pos h10]
    rw [charToNat_ofNat _ (by left; omega)]
    simp only [Bool.or_eq_true, Bool.and_eq_true, decide_eq_true_eq]
    omega
  · rw [if_neg h10]
    rw [charToNat_ofNat _ (by left; omega)]
    simp only [Bool.or_eq_true, Bool.and_eq_true, decide_eq_true_eq]
    omega

/-- `hexVal` inverts `hexDigitUpper`. -/
theorem hexVal_hexDigitUpper (m : Nat) (h : m < 16) : hexVal (hexDigitUpper m) = m := by
  unfold hexDigitUpper hexVal isAsciiDigit
  by_cases h10 : m < 10
  · rw [if_pos h10]
    rw [charToNat_ofNat _ (by left; omega)]
    rw [if_pos (by simp only [Bool.and_eq_true, decide_eq_true_eq]; omega)]
    omega
  · rw [if_neg h10]
    rw [charToNat_ofNat _ (by left; omega)]
    rw [if_neg (by simp only [Bool.and_eq_true, decide_eq_true_eq]; omega)]
    rw [if_neg (by simp only [Bool.and_eq_true, decide_eq_true_eq]; omega)]
    rw [if_pos (by simp only [Bool.and_eq_true, decide_eq_true_eq]; omega)]
    omega

/-- The scalar value of `hexDigitUpper m` for `m < 16`. -/
theorem hexDigitUpper_toNat (m : Nat) (h : m < 16) :
    (hexDigitUpper m).toNat = if m < 10 then 48 + m else 65 + m - 10 := by
  unfold hexDigitUpper
  by_cases h10 : m < 10
  · rw [if_pos h10, if_pos h10, charToNat_ofNat _ (by left; omega)]
  · rw [if_neg h10, if_neg h10, charToNat_ofNat _ (by left; omega)]

/-- Unfolding equation of `pyUnquoteAux` with at least three characters. -/
theorem pyUnquoteAux_cons3 (c d e : Char) (rest : Str) (buf : List Nat) :
    pyUnquoteAux (c :: d :: e :: rest) buf =
      if c = '%' ∧ isHexDigit d = true ∧ isHexDigit e = true then
        pyUnquoteAux rest (buf ++ [16 * hexVal d + hexVal e])
      else utf8Decode buf ++ c :: pyUnquoteAux (d :: e :: rest) [] := rfl

/-- A non-`%` head character is emitted literally, flushing the buffer. -/
theorem pyUnquoteAux_literal (c : Char) (hc : c ≠ '%') (tail : Str) (buf : List Nat) :
    pyUnquoteAux (c :: tail) buf = utf8Decode buf ++ c :: pyUnquoteAux tail [] := by
  match tail with
  | [] =>
    show utf8Decode buf ++ [c] = _
    rfl
  | [d] => rfl
  | [d, e] =>
    rw [pyUnquoteAux_cons3, if_neg]
    intro hcon
    exact hc hcon.1
  | d :: e :: f :: rest =>
    rw [pyUnquoteAux_cons3, if_neg]
    intro hcon
    exact hc hcon.1

/-- A percent-escape at the head appends its byte to the buffer. -/
theorem pyUnquoteAux_pctHex (b : Nat) (hb : b < 256) (tail : Str) (buf : List Nat) :
    pyUnquoteAux (pctHex b ++ tail) buf = pyUnquoteAux tail (buf ++ [b]) := by
  show pyUnquoteAux ('%' :: hexDigitUpper (b / 16) :: hexDigitUpper (b % 16) :: tail) buf = _
  rw [pyUnquoteAux_cons3, if_pos]
  · rw [hexVal_hexDigitUpper _ (by omega), hexVal_hexDigitUpper _ (by omega)]
    have hbb : 16 * (b / 16) + b % 16 = b := by omega
    rw [hbb]
  · exact ⟨rfl, hexDigitUpper_isHex _ (by omega), hexDigitUpper_isHex _ (by omega)⟩

/-- `plusToSpace` leaves a percent-escape unchanged. -/
theorem plusToSpace_pctHex (b : Nat) (hb : b < 256) :
    plusToSpace (pctHex b) = pctHex b := by
  unfold plusToSpace pctHex
  simp only [List.map_cons, List.map_nil]
  have hpct : ('%' : Char) ≠ '+' := by decide
  rw [if_neg hpct]
  have hd1 : hexDigitUpper (b / 16) ≠ '+' := by
    intro he
    have := hexDigitUpper_toNat (b / 16) (by omega)
    rw [he] at this
    have hplus : ('+' : Char).toNat = 43 := by decide
    rw [hplus] at this
    by_cases h10 : b / 16 < 10
    · rw [if_pos h10] at this
      omega
    · rw [if_neg h10] at this
      omega
  have hd2 : hexDigitUpper (b % 16) ≠ '+' := by
    intro he
    have := hexDigitUpper_toNat (b % 16) (by omega)
    rw [he] at this
    have hplus : ('+' : Char).toNat = 43 := by decide
    rw [hplus] at this
    by_cases h10 : b % 16 < 10
    · rw [if_pos h10] at this
      omega
    · rw [if_neg h10] at this
      omega
  rw [if_neg hd1, if_neg hd2]

/-- Bytes of a UTF-8 encoding are below 256. -/
theorem utf8EncodeChar_lt_256 {n : Nat} (h : n.isValidChar) :
    ∀ b ∈ utf8EncodeChar n, b < 256 := by
  intro b hb
  unfold utf8EncodeChar at hb
  have hn : n < 0x110000 := by
    rcases h with h | h
    · omega
    · omega
  by_cases h1 : n < 0x80
  · rw [if_pos h1] at hb
    simp only [List.mem_singleton] at hb
    omega
  · rw [if_neg h1] at hb
    by_cases h2 : n < 0x800
    · rw [if_pos h2] at hb
      simp only [List.mem_cons, List.not_mem_nil, or_false] at hb
      rcases hb with hb | hb
      all_goals omega
    · rw [if_neg h2] at hb
      by_cases h3 : n < 0x10000
      · rw [if_pos h3] at hb
        simp only [List.mem_cons, List.not_mem_nil, or_false] at hb
        rcases hb with hb | hb | hb
        all_goals omega
      · rw [if_neg h3] at hb
        simp only [List.mem_cons, List.not_mem_nil, or_false] at hb
        rcases hb with hb | hb | hb | hb
        all_goals omega

/-- A byte of at least `0x80` is percent-escaped by `quoteByte`. -/
theorem quoteByte_high {b : Nat} (h : 0x80 ≤ b) : quoteByte b = pctHex b := by
  unfold quoteByte
  rw [if_neg (by omega), if_neg]
  unfold alwaysSafeByte
  simp only [Bool.or_eq_true, Bool.and_eq_true, decide_eq_true_eq]
  omega

/-- All bytes of a multi-byte UTF-8 encoding are at least `0x80` ... or the
character was a single (ASCII) byte.  Specifically, for `0x80 ≤ n`, every
encoded byte is at least `0x80`. -/
theorem utf8EncodeChar_high {n : Nat} (hn : 0x80 ≤ n) :
    ∀ b ∈ utf8EncodeChar n, 0x80 ≤ b := by
  intro b hb
  unfold utf8EncodeChar at hb
  rw [if_neg (by omega)] at hb
  by_cases h2 : n < 0x800
  · rw [if_pos h2] at hb
    simp only [List.mem_cons, List.mem_singleton, List.not_mem_nil, or_false] at hb
    rcases hb with hb | hb
    all_goals omega
  · rw [if_neg h2] at hb
    by_cases h3 : n < 0x10000
    · rw [if_pos h3] at hb
      simp only [List.mem_cons, List.mem_singleton, List.not_mem_nil, or_false] at hb
      rcases hb with hb | hb | hb
      all_goals omega
    · rw [if_neg h3] at hb
      simp only [List.mem_cons, List.mem_singleton, List.not_mem_nil, or_false] at hb
      rcases hb with hb | hb | hb | hb
      all_goals omega

/-- `quoteByte` agrees with `pctHex` across a list of high bytes. -/
theorem flatMap_quoteByte_high {bs : List Nat} (h : ∀ b ∈ bs, 0x80 ≤ b) :
    bs.flatMap quoteByte = bs.flatMap pctHex := by
  induction bs with
  | nil => rfl
  | cons b rest ih =>
    rw [List.flatMap_cons, List.flatMap_cons]
    rw [quoteByte_high (h b (by simp))]
    rw [ih (fun x hx => h x (by simp [hx]))]

/-- `plusToSpace` fixes a concatenation of percent-escapes. -/
theorem plusToSpace_flatMap_pctHex {bs : List Nat} (h : ∀ b ∈ bs, b < 256) :
    plusToSpace (bs.flatMap pctHex) = bs.flatMap pctHex := by
  induction bs with
  | nil => rfl
  | cons b rest ih =>
    rw [List.flatMap_cons]
    unfold plusToSpace
    rw [List.map_append]
    have h1 := plusToSpace_pctHex b (h b (by simp))
    unfold plusToSpace at h1
    rw [h1]
    have h2 := ih (fun x hx => h x (by simp [hx]))
    unfold plusToSpace at h2
    rw [h2]

/-- Scanning a concatenation of percent-escapes appends the bytes to the
decode buffer. -/
theorem pyUnquoteAux_flatMap_pctHex {bs : List Nat} (h : ∀ b ∈ bs, b < 256)
    (tail : Str) : ∀ buf : List Nat,
    pyUnquoteAux (bs.flatMap pctHex ++ tail) buf = pyUnquoteAux tail (buf ++ bs) := by
  induction bs with
  | nil => simp
  | cons b rest ih =>
    intro buf
    rw [List.flatMap_cons, List.append_assoc]
    rw [pyUnquoteAux_pctHex b (h b (by simp)) _ buf]
    rw [ih (fun x hx => h x (by simp [hx])) (buf ++ [b])]
    simp

/-- Decoding the `+`-translated quote-plus encoding of a string, on top of a
buffer holding the encoding of previously decoded characters, appends the
string to those characters: the key inversion property behind
`parse_qsl ∘ urlencode`. -/
theorem pyUnquoteAux_quotePlus (s : Str) :
    ∀ buf : Str, pyUnquoteAux (plusToSpace (pyQuotePlus s)) (encodeChars buf) = buf ++ s := by
  induction s with
  | nil =>
    intro buf
    show utf8Decode (encodeChars buf) = buf ++ []
    rw [utf8Decode_encodeChars, List.append_nil]
  | cons c rest ih =>
    intro buf
    show pyUnquoteAux (plusToSpace (quotePlusChar c ++ pyQuotePlus rest)) (encodeChars buf) = _
    unfold plusToSpace
    rw [List.map_append]
    have hvalid := char_toNat_valid c
    by_cases hA : c.toNat < 0x80
    · -- single-byte character
      have henc : utf8EncodeChar c.toNat = [c.toNat] := by
        unfold utf8EncodeChar
        rw [if_pos hA]
      by_cases hsp : c.toNat = 32
      · -- space encodes to '+', translated back to ' '
        have hq : quotePlusChar c = ['+'] := by
          unfold quotePlusChar
          rw [henc, hsp]
          rfl
        rw [hq]
        have hmap : List.map (fun c => if c = '+' then ' ' else c) ['+'] = [' '] := by
          simp
        rw [hmap, List.singleton_append]
        rw [pyUnquoteAux_literal ' ' (by decide) _ (encodeChars buf)]
        rw [utf8Decode_encodeChars]
        have hc : c = ' ' := char_toNat_inj (by rw [hsp]; decide)
        rw [hc]
        have ih0 := ih []
        unfold plusToSpace at ih0
        rw [show encodeChars [] = ([] : List Nat) from rfl] at ih0
        rw [ih0]
        simp
      · by_cases hsafe : alwaysSafeByte c.toNat = true
        · -- safe byte: emitted literally
          have hq : quotePlusChar c = [c] := by
            unfold quotePlusChar
            rw [henc]
            show quoteByte c.toNat ++ [] = [c]
            unfold quoteByte
            rw [if_neg hsp, if_pos hsafe, char_ofNat_toNat]
            rfl
          rw [hq]
          have hplus : c ≠ '+' := by
            intro he
            rw [he] at hsafe
            have hpn : ('+' : Char).toNat = 43 := by decide
            rw [hpn] at hsafe
            unfold alwaysSafeByte at hsafe
            simp only [Bool.or_eq_true, Bool.and_eq_true, decide_eq_true_eq] at hsafe
            omega
          have hmap : List.map (fun x => if x = '+' then ' ' else x) [c] = [c] := by
            simp only [List.map_cons, List.map_nil, if_neg hplus]
          rw [hmap, List.singleton_append]
          have hpct : c ≠ '%' := by
            intro he
            rw [he] at hsafe
            have hpn : ('%' : Char).toNat = 37 := by decide
            rw [hpn] at hsafe
            unfold alwaysSafeByte at hsafe
            simp only [Bool.or_eq_true, Bool.and_eq_true, decide_eq_true_eq] at hsafe
            omega
          rw [pyUnquoteAux_literal c hpct _ (encodeChars buf)]
          rw [utf8Decode_encodeChars]
          have ih0 := ih []
          unfold plusToSpace at ih0
          rw [show encodeChars [] = ([] : List Nat) from rfl] at ih0
          rw [ih0]
          simp
        · -- unsafe single byte: percent-escaped
          have hq : quotePlusChar c = pctHex c.toNat := by
            unfold quotePlusChar
            rw [henc]
            show quoteByte c.toNat ++ [] = _
            unfold quoteByte
            rw [if_neg hsp, if_neg hsafe]
            rfl
          rw [hq]
          have h256 : c.toNat < 256 := by omega
          have hmap := plusToSpace_pctHex c.toNat h256
          unfold plusToSpace at hmap
          rw [hmap]
          rw [pyUnquoteAux_pctHex c.toNat h256 _ (encodeChars buf)]
          have hext : encodeChars buf ++ [c.toNat] = encodeChars (buf ++ [c]) := by
            unfold encodeChars
            rw [List.flatMap_append]
            simp [henc]
          rw [hext]
          have ih1 := ih (buf ++ [c])
          unfold plusToSpace at ih1
          rw [ih1]
          simp
    · -- multi-byte character: every byte is high, hence percent-escaped
      have hhigh := @utf8EncodeChar_high c.toNat (by omega)
      have h256 := utf8EncodeChar_lt_256 hvalid
      have hq : quotePlusChar c = (utf8EncodeChar c.toNat).flatMap pctHex := by
        unfold quotePlusChar
        exact flatMap_quoteByte_high hhigh
      rw [hq]
      have hmap := plusToSpace_flatMap_pctHex h256
      unfold plusToSpace at hmap
      rw [hmap]
      rw [pyUnquoteAux_flatMap_pctHex h256 _ (encodeChars buf)]
      have hext : encodeChars buf ++ utf8EncodeChar c.toNat = encodeChars (buf ++ [c]) := by
        unfold encodeChars
        rw [List.flatMap_append]
        simp
      rw [hext]
      have ih1 := ih (buf ++ [c])
      unfold plusToSpace at ih1
      rw [ih1]
      simp

/-- `unquote` inverts the `+`-translated `quote_plus` encoding. -/
theorem pyUnquote_quotePlus (s : Str) : pyUnquote (plusToSpace (pyQuotePlus s)) = s := by
  unfold pyUnquote
  have := pyUnquoteAux_quotePlus s []
  rw [show encodeChars [] = ([] : List Nat) from rfl] at this
  rw [this]
  simp

/-- Characters produced by `quotePlusChar` are never `&` or `=`. -/
theorem mem_quotePlusChar_ne {c : Char} {x : Char} (hc : c ∈ quotePlusChar x) :
    c ≠ '&' ∧ c ≠ '=' := by
  unfold quotePlusChar at hc
  rw [List.mem_flatMap] at hc
  rcases hc with ⟨b, hb, hcb⟩
  have hb256 : b < 256 := utf8EncodeChar_lt_256 (char_toNat_valid x) b hb
  unfold quoteByte at hcb
  by_cases h32 : b = 32
  · rw [if_pos h32] at hcb
    simp only [List.mem_singleton] at hcb
    subst hcb
    exact ⟨by decide, by decide⟩
  · rw [if_neg h32] at hcb
    by_cases hsafe : alwaysSafeByte b = true
    · rw [if_pos hsafe] at hcb
      simp only [List.mem_singleton] at hcb
      subst hcb
      unfold alwaysSafeByte at hsafe
      simp only [Bool.or_eq_true, Bool.and_eq_true, decide_eq_true_eq] at hsafe
      have hv : (Char.ofNat b).toNat = b := charToNat_ofNat b (by left; omega)
      constructor
      · intro he
        rw [he] at hv
        have : ('&' : Char).toNat = 38 := by decide
        omega
      · intro he
        rw [he] at hv
        have : ('=' : Char).toNat = 61 := by decide
        omega
    · rw [if_neg hsafe] at hcb
      unfold pctHex at hcb
      simp only [List.mem_cons, List.not_mem_nil, or_false] at hcb
      rcases hcb with hcb | hcb | hcb
      · subst hcb
        exact ⟨by decide, by decide⟩
      · subst hcb
        have ht := hexDigitUpper_toNat (b / 16) (by omega)
        constructor
        · intro he
          rw [he] at ht
          have : ('&' : Char).toNat = 38 := by decide
          rw [this] at ht
          by_cases h10 : b / 16 < 10
          · rw [if_pos h10] at ht; omega
          · rw [if_neg h10] at ht; omega
        · intro he
          rw [he] at ht
          have : ('=' : Char).toNat = 61 := by decide
          rw [this] at ht
          by_cases h10 : b / 16 < 10
          · rw [if_pos h10] at ht; omega
          · rw [if_neg h10] at ht; omega
      · subst hcb
        have ht := hexDigitUpper_toNat (b % 16) (by omega)
        constructor
        · intro he
          rw [he] at ht
          have : ('&' : Char).toNat = 38 := by decide
          rw [this] at ht
          by_cases h10 : b % 16 < 10
          · rw [if_pos h10] at ht; omega
          · rw [if_neg h10] at ht; omega
        · intro he
          rw [he] at ht
          have : ('=' : Char).toNat = 61 := by decide
          rw [this] at ht
          by_cases h10 : b % 16 < 10
          · rw [if_pos h10] at ht; omega
          · rw [if_neg h10] at ht; omega

/-- Characters of a `pyQuotePlus` output are never `&` or `=`. -/
theorem mem_pyQuotePlus_ne {c : Char} {s : Str} (hc : c ∈ pyQuotePlus s) :
    c ≠ '&' ∧ c ≠ '=' := by
  unfold pyQuotePlus at hc
  rw [List.mem_flatMap] at hc
  rcases hc with ⟨x, _, hcx⟩
  exact mem_quotePlusChar_ne hcx

/-- Unfolding equation of the splitter on a cons cell. -/
theorem pySplitSepAux_cons (sep c : Char) (rest acc : Str) :
    pySplitSepAux sep (c :: rest) acc =
      if c = sep then acc.reverse :: pySplitSepAux sep rest []
      else pySplitSepAux sep rest (c :: acc) := rfl

/-- Consuming a separator-free prefix in the splitter accumulates it. -/
theorem pySplitSepAux_no_sep {sep : Char} {chunk : Str} (s : Str) (acc : Str)
    (h : ∀ c ∈ chunk, c ≠ sep) :
    pySplitSepAux sep (chunk ++ s) acc = pySplitSepAux sep s (chunk.reverse ++ acc) := by
  induction chunk generalizing acc with
  | nil => simp
  | cons c rest ih =>
    rw [List.cons_append, pySplitSepAux_cons, if_neg (h c (by simp))]
    rw [ih (c :: acc) (fun x hx => h x (by simp [hx]))]
    congr 1
    simp

/-- Splitting a separator-join of separator-free chunks recovers the
chunks. -/
theorem pySplitSep_joinSep {sep : Char} :
    ∀ chunks : List Str, chunks ≠ [] → (∀ ch ∈ chunks, ∀ c ∈ ch, c ≠ sep) →
    pySplitSep sep (joinSep [sep] chunks) = chunks := by
  intro chunks
  induction chunks with
  | nil => intro h; exact absurd rfl h
  | cons x rest ih =>
    intro _ hfree
    cases rest with
    | nil =>
      show pySplitSepAux sep x [] = [x]
      have h2 := @pySplitSepAux_no_sep sep x [] [] (hfree x (by simp))
      rw [List.append_nil] at h2
      rw [h2]
      simp [pySplitSepAux]
    | cons y rest2 =>
      show pySplitSepAux sep (x ++ [sep] ++ joinSep [sep] (y :: rest2)) [] = x :: y :: rest2
      rw [List.append_assoc, List.singleton_append]
      rw [pySplitSepAux_no_sep (sep :: joinSep [sep] (y :: rest2)) [] (hfree x (by simp))]
      rw [pySplitSepAux_cons, if_pos rfl]
      have hrest := ih (by simp) (fun ch hch => hfree ch (by simp [hch]))
      unfold pySplitSep at hrest
      rw [hrest]
      simp

/-- `parse_qsl` inverts `urlencode` on string pairs. -/
theorem parse_qsl_urlencode (ps : List (Str × Str)) : parse_qsl (pyUrlencode ps) = ps := by
  cases hps : ps with
  | nil => rfl
  | cons p0 rest0 =>
    unfold pyUrlencode parse_qsl
    set chunks := (p0 :: rest0).map (fun p => pyQuotePlus p.1 ++ '=' :: pyQuotePlus p.2) with hchunks
    have hchunkfree : ∀ ch ∈ chunks, ∀ c ∈ ch, c ≠ '&' := by
      intro ch hch c hc
      rw [hchunks] at hch
      rcases List.mem_map.mp hch with ⟨p, _, hpe⟩
      rw [← hpe] at hc
      rcases List.mem_append.mp hc with hc | hc
      · exact (mem_pyQuotePlus_ne hc).1
      · rcases List.mem_cons.mp hc with hc | hc
        · subst hc; decide
        · exact (mem_pyQuotePlus_ne hc).1
    have hnonempty : joinSep ['&'] chunks ≠ [] := by
      rw [hchunks]
      cases rest0 with
      | nil => simp [joinSep]
      | cons q rest1 => simp [joinSep]
    rw [if_neg hnonempty]
    rw [pySplitSep_joinSep chunks (by rw [hchunks]; simp) hchunkfree]
    rw [hchunks]
    rw [List.filterMap_map]
    have : ∀ p : Str × Str,
        (fun chunk => if chunk = [] then none
          else
            let nv := pySplitOnce '=' chunk
            some (pyUnquote (plusToSpace nv.1), pyUnquote (plusToSpace (nv.2.getD []))))
          ((fun p => pyQuotePlus p.1 ++ '=' :: pyQuotePlus p.2) p) = some p := by
      intro p
      simp only
      rw [if_neg (by
        intro he
        exact absurd (List.append_eq_nil.mp he).2 (by simp))]
      rw [pySplitOnce_append (pyQuotePlus p.2) (fun hmem => (mem_pyQuotePlus_ne hmem).2 rfl)]
      simp only [Option.getD_some]
      rw [pyUnquote_quotePlus, pyUnquote_quotePlus]
    rw [List.filterMap_eq_map_iff_forall_eq_some.mpr ?hall]
    case hall =>
      intro p _
      exact this p
    simp

/-- Lowercasing preserves the ASCII-letter property. -/
theorem isAsciiAlpha_pyLowerChar (c : Char) : isAsciiAlpha (pyLowerChar c) = isAsciiAlpha c := by
  unfold pyLowerChar
  by_cases hu : isAsciiUpper c = true
  · rw [if_pos hu]
    unfold isAsciiUpper at hu
    simp only [Bool.and_eq_true, decide_eq_true_eq] at hu
    have ht := charToNat_ofNat (c.toNat + 32) (by left; omega)
    unfold isAsciiAlpha
    rw [ht, Bool.eq_iff_iff]
    simp only [Bool.or_eq_true, Bool.and_eq_true, decide_eq_true_eq]
    constructor
    · intro
      omega
    · intro
      omega
  · rw [if_neg hu]

/-- Lowercasing preserves scheme characters. -/
theorem schemeChar_pyLowerChar (c : Char) (h : schemeChar c = true) :
    schemeChar (pyLowerChar c) = true := by
  unfold schemeChar at h ⊢
  rw [isAsciiAlnum, isAsciiAlpha] at h ⊢
  unfold pyLowerChar
  by_cases hu : isAsciiUpper c = true
  · rw [if_pos hu]
    unfold isAsciiUpper at hu
    simp only [Bool.and_eq_true, decide_eq_true_eq] at hu
    have ht := charToNat_ofNat (c.toNat + 32) (by left; omega)
    simp only [Bool.or_eq_true, Bool.and_eq_true, decide_eq_true_eq, isAsciiDigit, ht] at h ⊢
    left
    left
    omega
  · rw [if_neg hu]
    exact h

/-- A nonempty `take` of a nonempty list. -/
theorem take_ne_nil {l : Str} {i : Nat} (hl : l ≠ []) (hi : 0 < i) : l.take i ≠ [] := by
  cases l with
  | nil => exact absurd rfl hl
  | cons x xs =>
    cases i with
    | zero => omega
    | succ j => simp

/-- Head of `pyLower`. -/
theorem headD_pyLower (l : Str) (d : Char) (hl : l ≠ []) :
    (pyLower l).headD d = pyLowerChar (l.headD d) := by
  cases l with
  | nil => exact absurd rfl hl
  | cons x xs => rfl

/-- The scheme produced by `splitScheme` is empty or a valid lowercase
scheme. -/
theorem splitScheme_fst_facts (url1 : Str) :
    (splitScheme url1).1 = [] ∨
    ((splitScheme url1).1 ≠ [] ∧ isAsciiAlpha ((splitScheme url1).1.headD ' ') = true ∧
     (splitScheme url1).1.all schemeChar = true ∧ pyLower (splitScheme url1).1 = (splitScheme url1).1) := by
  unfold splitScheme
  cases hf : strFind ':' url1 with
  | none => left; rfl
  | some i =>
    dsimp only
    by_cases hg : (0 < i && (url1.headD ' ' |> isAsciiAlpha) && (url1.take i).all schemeChar) = true
    · rw [if_pos hg]
      right
      simp only [Bool.and_eq_true, decide_eq_true_eq] at hg
      have hne : url1 ≠ [] := by
        intro he
        rw [he] at hf
        exact absurd hf (by simp [strFind])
      have htake : url1.take i ≠ [] := take_ne_nil hne hg.1.1
      refine ⟨?_, ?_, ?_, pyLower_idem _⟩
      · simp only [pyLower]
        intro he
        exact htake (List.map_eq_nil_iff.mp he)
      · rw [headD_pyLower _ _ htake, isAsciiAlpha_pyLowerChar]
        have hh : (url1.take i).headD ' ' = url1.headD ' ' := by
          cases url1 with
          | nil => exact absurd rfl hne
          | cons x xs =>
            cases i with
            | zero => omega
            | succ j => rfl
        rw [hh]
        exact hg.1.2
      · rw [List.all_eq_true] at hg ⊢
        intro c hc
        simp only [pyLower, List.mem_map] at hc
        rcases hc with ⟨x, hx, hxc⟩
        rw [← hxc]
        exact schemeChar_pyLowerChar x (hg.2 x hx)
    · rw [if_neg hg]
      left
      rfl

/-- Computation of `splitScheme` on a well-formed lowercase scheme followed by
a colon. -/
theorem splitScheme_append {S rest : Str} (hS : S ≠ [])
    (halpha : isAsciiAlpha (S.headD ' ') = true)
    (hall : S.all schemeChar = true) (hlow : pyLower S = S) :
    splitScheme (S ++ ':' :: rest) = (S, rest) := by
  have hnc : ∀ c ∈ S, c ≠ ':' := by
    intro c hc he
    rw [List.all_eq_true] at hall
    have := hall c hc
    rw [he] at this
    exact absurd this (by decide)
  unfold splitScheme
  rw [strFind_append_not_mem (':' :: rest) hnc]
  rw [strFind_cons, if_pos rfl]
  simp only [Option.map_some', Nat.zero_add]
  rw [if_pos]
  · rw [List.take_left]
    have hdrop : (S ++ ':' :: rest).drop (S.length + 1) = rest := by
      have : S ++ ':' :: rest = (S ++ [':']) ++ rest := by simp
      rw [this]
      have hlen : S.length + 1 = (S ++ [':']).length := by simp
      rw [hlen, List.drop_left]
    rw [hdrop, hlow]
  · simp only [Bool.and_eq_true, decide_eq_true_eq]
    refine ⟨⟨?_, ?_⟩, ?_⟩
    · cases S with
      | nil => exact absurd rfl hS
      | cons x xs => simp
    · cases S with
      | nil => exact absurd rfl hS
      | cons x xs => exact halpha
    · rw [List.take_left]
      exact hall

/-- The netloc produced by `splitNetloc` contains no delimiter. -/
theorem splitNetloc_fst_facts (rest : Str) :
    ∀ c ∈ (splitNetloc rest).1, netlocDelim c = false := by
  unfold splitNetloc
  by_cases hb : beginsWithL "//".data rest = true
  · rw [if_pos hb]
    intro c hc
    have := List.mem_takeWhile_imp hc
    simpa using this
  · rw [if_neg hb]
    intro c hc
    exact absurd hc (List.not_mem_nil c)

/-- Case analysis of `splitNetloc`: either no netloc was taken and the rest is
returned unchanged, or the remainder is empty or begins with a delimiter. -/
theorem splitNetloc_cases (rest : Str) :
    ((splitNetloc rest).1 = [] ∧ (splitNetloc rest).2 = rest) ∨
    ((splitNetloc rest).2 = [] ∨ netlocDelim ((splitNetloc rest).2.headD ' ') = true) := by
  unfold splitNetloc
  by_cases hb : beginsWithL "//".data rest = true
  · rw [if_pos hb]
    right
    cases hd : (rest.drop 2).dropWhile (fun c => !netlocDelim c) with
    | nil => left; rfl
    | cons x xs =>
      right
      have : ((rest.drop 2).dropWhile (fun c => !netlocDelim c)).head? = some x := by
        rw [hd]
        rfl
      have hx := dropWhile_head_not this
      simp only [Bool.not_eq_true'] at hx
      simp only [hd, List.headD_cons]
      simpa using hx
  · rw [if_neg hb]
    left
    exact ⟨rfl, rfl⟩

/-- Computation of `splitNetloc` on `//` followed by a delimiter-free netloc
and a rest that is empty or starts with a delimiter. -/
theorem splitNetloc_append {N rest : Str} (hN : ∀ c ∈ N, netlocDelim c = false)
    (hrest : rest = [] ∨ netlocDelim (rest.headD ' ') = true) :
    splitNetloc ('/' :: '/' :: N ++ rest) = (N, rest) := by
  unfold splitNetloc
  rw [if_pos (by rfl)]
  have hdrop : (('/' :: '/' :: N ++ rest) : Str).drop 2 = N ++ rest := rfl
  rw [hdrop]
  have hNall : ∀ c ∈ N, (fun c => !netlocDelim c) c = true := by
    intro c hc
    simp [hN c hc]
  have h1 : List.takeWhile (fun c => !netlocDelim c) (N ++ rest) = N := by
    rw [takeWhile_append_all rest hNall]
    rcases hrest with hrest | hrest
    · rw [hrest]
      simp
    · cases rest with
      | nil => simp
      | cons x xs =>
        rw [List.takeWhile_cons, if_neg (by simp_all)]
        simp
  have h2 : List.dropWhile (fun c => !netlocDelim c) (N ++ rest) = rest := by
    rw [dropWhile_append_all rest hNall]
    rcases hrest with hrest | hrest
    · rw [hrest]
      rfl
    · cases rest with
      | nil => rfl
      | cons x xs =>
        rw [List.dropWhile_cons, if_neg (by simp_all)]
  rw [h1, h2]

/-- The first component of `pySplitOnce` never contains the separator. -/
theorem pySplitOnce_fst_not_mem (sep : Char) (s : Str) : sep ∉ (pySplitOnce sep s).1 := by
  unfold pySplitOnce
  by_cases hm : sep ∈ s
  · rw [if_pos hm]
    intro hc
    have := List.mem_takeWhile_imp hc
    simp at this
  · rw [if_neg hm]
    exact hm

/-- The first component of `pySplitOnce` is a subset of the input. -/
theorem pySplitOnce_fst_subset (sep : Char) (s : Str) {c : Char}
    (hc : c ∈ (pySplitOnce sep s).1) : c ∈ s := by
  unfold pySplitOnce at hc
  by_cases hm : sep ∈ s
  · rw [if_pos hm] at hc
    exact (List.takeWhile_sublist _).subset hc
  · rw [if_neg hm] at hc
    exact hc

/-- The second component of `pySplitOnce` is a subset of the input. -/
theorem pySplitOnce_snd_subset (sep : Char) (s : Str) {c : Char} {t : Str}
    (ht : (pySplitOnce sep s).2 = some t) (hc : c ∈ t) : c ∈ s := by
  unfold pySplitOnce at ht
  by_cases hm : sep ∈ s
  · rw [if_pos hm] at ht
    simp only [Option.some.injEq] at ht
    rw [← ht] at hc
    exact (List.dropWhile_sublist _).subset (List.drop_subset _ _ hc)
  · rw [if_neg hm] at ht
    exact absurd ht (by simp)

/-- Decomposition of a successful `pyUrlsplit`. -/
theorem pyUrlsplit_some_eq {w : Str} {p : SplitParts} (h : pyUrlsplit w = some p) :
    p = ⟨(splitScheme (stripUnsafe w)).1,
         (splitNetloc (splitScheme (stripUnsafe w)).2).1,
         (pySplitOnce '?' (pySplitOnce '#' (splitNetloc (splitScheme (stripUnsafe w)).2).2).1).1,
         (pySplitOnce '?' (pySplitOnce '#' (splitNetloc (splitScheme (stripUnsafe w)).2).2).1).2.getD [],
         (pySplitOnce '#' (splitNetloc (splitScheme (stripUnsafe w)).2).2).2.getD []⟩ := by
  unfold pyUrlsplit at h
  by_cases hbr : ((('[' ∈ (splitNetloc (splitScheme (stripUnsafe w)).2).1) &&
      !(']' ∈ (splitNetloc (splitScheme (stripUnsafe w)).2).1)) ||
      (((']' ∈ (splitNetloc (splitScheme (stripUnsafe w)).2).1)) &&
      !('[' ∈ (splitNetloc (splitScheme (stripUnsafe w)).2).1))) = true
  · rw [if_pos hbr] at h
    exact absurd h (by simp)
  · rw [if_neg hbr] at h
    simp only [Option.some.injEq] at h
    exact h.symm

/-- Bracket balance of the netloc of a successful `pyUrlsplit`. -/
theorem pyUrlsplit_some_bracket {w : Str} {p : SplitParts} (h : pyUrlsplit w = some p) :
    ('[' ∈ p.netloc) ↔ (']' ∈ p.netloc) := by
  unfold pyUrlsplit at h
  by_cases hbr : ((('[' ∈ (splitNetloc (splitScheme (stripUnsafe w)).2).1) &&
      !(']' ∈ (splitNetloc (splitScheme (stripUnsafe w)).2).1)) ||
      (((']' ∈ (splitNetloc (splitScheme (stripUnsafe w)).2).1)) &&
      !('[' ∈ (splitNetloc (splitScheme (stripUnsafe w)).2).1))) = true
  · rw [if_pos hbr] at h
    exact absurd h (by simp)
  · rw [if_neg hbr] at h
    simp only [Option.some.injEq] at h
    simp only [Bool.not_eq_true] at hbr
    simp at hbr
    rw [← h]
    show ('[' ∈ (splitNetloc (splitScheme (stripUnsafe w)).2).1) ↔
      (']' ∈ (splitNetloc (splitScheme (stripUnsafe w)).2).1)
    tauto

/-- Members of the scheme remainder are members of the input. -/
theorem mem_splitScheme_snd {w : Str} {c : Char} (hc : c ∈ (splitScheme w).2) : c ∈ w := by
  unfold splitScheme at hc
  cases hf : strFind ':' w with
  | none =>
    rw [hf] at hc
    exact hc
  | some i =>
    rw [hf] at hc
    dsimp only at hc
    by_cases hg : (0 < i && (w.headD ' ' |> isAsciiAlpha) && (w.take i).all schemeChar) = true
    · rw [if_pos hg] at hc
      exact List.drop_subset _ _ hc
    · rw [if_neg hg] at hc
      exact hc

/-- Members of the netloc are members of the input remainder. -/
theorem mem_splitNetloc_fst {r : Str} {c : Char} (hc : c ∈ (splitNetloc r).1) : c ∈ r := by
  unfold splitNetloc at hc
  by_cases hb : beginsWithL "//".data r = true
  · rw [if_pos hb] at hc
    exact List.drop_subset _ _ ((List.takeWhile_sublist _).subset hc)
  · rw [if_neg hb] at hc
    exact absurd hc (List.not_mem_nil c)

/-- Members of the netloc remainder are members of the input remainder. -/
theorem mem_splitNetloc_snd {r : Str} {c : Char} (hc : c ∈ (splitNetloc r).2) : c ∈ r := by
  unfold splitNetloc at hc
  by_cases hb : beginsWithL "//".data r = true
  · rw [if_pos hb] at hc
    exact List.drop_subset _ _ ((List.dropWhile_sublist _).subset hc)
  · rw [if_neg hb] at hc
    exact hc

/-- Members of a `stripUnsafe` output are not tab, CR or LF. -/
theorem mem_stripUnsafe {w : Str} {c : Char} (hc : c ∈ stripUnsafe w) :
    ¬(c = '\t' ∨ c = '\r' ∨ c = '\n') := by
  unfold stripUnsafe at hc
  have := List.of_mem_filter hc
  simp at this
  tauto

/-- Scheme characters are never tab, CR or LF. -/
theorem schemeChar_no_tab {c : Char} (h : schemeChar c = true) :
    ¬(c = '\t' ∨ c = '\r' ∨ c = '\n') := by
  intro hc
  have hval : c.toNat = 9 ∨ c.toNat = 13 ∨ c.toNat = 10 := by
    rcases hc with hc | hc | hc
    all_goals (subst hc; simp)
  unfold schemeChar isAsciiAlnum isAsciiAlpha isAsciiDigit at h
  simp only [Bool.or_eq_true, Bool.and_eq_true, decide_eq_true_eq] at h
  rcases h with ((((h | h) | h) | h) | h) | h
  · omega
  · omega
  · omega
  · subst h
    revert hval
    decide
  · subst h
    revert hval
    decide
  · subst h
    revert hval
    decide

/-- `pyLowerChar` never produces tab, CR or LF from a character that is not
one. -/
theorem pyLowerChar_no_tab {c : Char} (h : ¬(c = '\t' ∨ c = '\r' ∨ c = '\n')) :
    ¬(pyLowerChar c = '\t' ∨ pyLowerChar c = '\r' ∨ pyLowerChar c = '\n') := by
  unfold pyLowerChar
  by_cases hu : isAsciiUpper c = true
  · rw [if_pos hu]
    unfold isAsciiUpper at hu
    simp only [Bool.and_eq_true, decide_eq_true_eq] at hu
    have ht := charToNat_ofNat (c.toNat + 32) (by left; omega)
    intro hc
    have h9 : ('\t' : Char).toNat = 9 := by decide
    have h13 : ('\r' : Char).toNat = 13 := by decide
    have h10 : ('\n' : Char).toNat = 10 := by decide
    rcases hc with hc | hc | hc
    · rw [hc] at ht; rw [h9] at ht; omega
    · rw [hc] at ht; rw [h13] at ht; omega
    · rw [hc] at ht; rw [h10] at ht; omega
  · rw [if_neg hu]
    exact h

/-- Range of characters produced by `quotePlusChar`. -/
theorem mem_quotePlusChar_range {c x : Char} (hc : c ∈ quotePlusChar x) :
    c.toNat = 43 ∨ c.toNat = 37 ∨ (48 ≤ c.toNat ∧ c.toNat ≤ 57) ∨
    (65 ≤ c.toNat ∧ c.toNat ≤ 90) ∨ (97 ≤ c.toNat ∧ c.toNat ≤ 122) ∨
    c.toNat = 95 ∨ c.toNat = 46 ∨ c.toNat = 45 ∨ c.toNat = 126 := by
  unfold quotePlusChar at hc
  rw [List.mem_flatMap] at hc
  rcases hc with ⟨b, hb, hcb⟩
  have hb256 : b < 256 := utf8EncodeChar_lt_256 (char_toNat_valid x) b hb
  unfold quoteByte at hcb
  by_cases h32 : b = 32
  · rw [if_pos h32] at hcb
    simp only [List.mem_singleton] at hcb
    subst hcb
    left
    decide
  · rw [if_neg h32] at hcb
    by_cases hsafe : alwaysSafeByte b = true
    · rw [if_pos hsafe] at hcb
      simp only [List.mem_singleton] at hcb
      subst hcb
      unfold alwaysSafeByte at hsafe
      simp only [Bool.or_eq_true, Bool.and_eq_true, decide_eq_true_eq] at hsafe
      have hv : (Char.ofNat b).toNat = b := charToNat_ofNat b (by left; omega)
      rw [hv]
      tauto
    · rw [if_neg hsafe] at hcb
      unfold pctHex at hcb
      simp only [List.mem_cons, List.not_mem_nil, or_false] at hcb
      rcases hcb with hcb | hcb | hcb
      · subst hcb
        right; left
        decide
      · subst hcb
        have ht := hexDigitUpper_toNat (b / 16) (by omega)
        by_cases h10 : b / 16 < 10
        · rw [if_pos h10] at ht
          right; right; left
          omega
        · rw [if_neg h10] at ht
          right; right; right; left
          omega
      · subst hcb
        have ht := hexDigitUpper_toNat (b % 16) (by omega)
        by_cases h10 : b % 16 < 10
        · rw [if_pos h10] at ht
          right; right; left
          omega
        · rw [if_neg h10] at ht
          right; right; right; left
          omega

/-- Membership in a separator-join. -/
theorem mem_joinSep {sep : Str} {c : Char} :
    ∀ {ls : List Str}, c ∈ joinSep sep ls → c ∈ sep ∨ ∃ l ∈ ls, c ∈ l := by
  intro ls
  induction ls with
  | nil =>
    intro hc
    exact absurd hc (List.not_mem_nil c)
  | cons x rest ih =>
    intro hc
    cases rest with
    | nil =>
      right
      exact ⟨x, by simp, hc⟩
    | cons y rest2 =>
      have hc2 : c ∈ x ++ sep ++ joinSep sep (y :: rest2) := hc
      rcases List.mem_append.mp hc2 with hc | hc
      · rcases List.mem_append.mp hc with hc | hc
        · right
          exact ⟨x, by simp, hc⟩
        · left
          exact hc
      · rcases ih hc with hc | ⟨l, hl, hcl⟩
        · left
          exact hc
        · right
          exact ⟨l, by simp [hl], hcl⟩

/-- Range of characters produced by `pyUrlencode`. -/
theorem mem_pyUrlencode_range {c : Char} {ps : List (Str × Str)}
    (hc : c ∈ pyUrlencode ps) :
    c.toNat = 43 ∨ c.toNat = 37 ∨ (48 ≤ c.toNat ∧ c.toNat ≤ 57) ∨
    (65 ≤ c.toNat ∧ c.toNat ≤ 90) ∨ (97 ≤ c.toNat ∧ c.toNat ≤ 122) ∨
    c.toNat = 95 ∨ c.toNat = 46 ∨ c.toNat = 45 ∨ c.toNat = 126 ∨
    c.toNat = 38 ∨ c.toNat = 61 := by
  unfold pyUrlencode at hc
  rcases mem_joinSep hc with hc | ⟨l, hl, hcl⟩
  · simp only [List.mem_singleton] at hc
    subst hc
    right; right; right; right; right; right; right; right; right; left
    decide
  · rcases List.mem_map.mp hl with ⟨p, _, hpe⟩
    rw [← hpe] at hcl
    rcases List.mem_append.mp hcl with hcl | hcl
    · unfold pyQuotePlus at hcl
      rw [List.mem_flatMap] at hcl
      rcases hcl with ⟨x, _, hcl⟩
      rcases mem_quotePlusChar_range hcl with h | h | h | h | h | h | h | h | h
      all_goals omega
    · rcases List.mem_cons.mp hcl with hcl | hcl
      · subst hcl
        right; right; right; right; right; right; right; right; right; right
        rfl
      · unfold pyQuotePlus at hcl
        rw [List.mem_flatMap] at hcl
        rcases hcl with ⟨x, _, hcl⟩
        rcases mem_quotePlusChar_range hcl with h | h | h | h | h | h | h | h | h
        all_goals omega


/-- The canonical reassembly reparses to its own components: `pyUrlsplit` on
`S://N P (?Q)` returns exactly `⟨S, N, P, Q, ""⟩` under the character-class
facts that hold of every canonical form. -/
theorem pyUrlsplit_canonical {S N P Q : Str}
    (hS : S ≠ []) (halpha : isAsciiAlpha (S.headD ' ') = true)
    (hall : S.all schemeChar = true) (hlow : pyLower S = S)
    (hN : ∀ c ∈ N, netlocDelim c = false)
    (hbr : (('[' ∈ N) ↔ (']' ∈ N)))
    (hNtab : ∀ c ∈ N, ¬(c = '\t' ∨ c = '\r' ∨ c = '\n'))
    (hP : P = [] ∨ P.headD ' ' = '/')
    (hPq : '?' ∉ P) (hPh : '#' ∉ P)
    (hPtab : ∀ c ∈ P, ¬(c = '\t' ∨ c = '\r' ∨ c = '\n'))
    (hQh : '#' ∉ Q)
    (hQtab : ∀ c ∈ Q, ¬(c = '\t' ∨ c = '\r' ∨ c = '\n')) :
    pyUrlsplit (S ++ ':' :: '/' :: '/' :: N ++ P ++ (if Q = [] then [] else '?' :: Q)) =
      some ⟨S, N, P, Q, []⟩ := by
  set v := S ++ ':' :: '/' :: '/' :: N ++ P ++ (if Q = [] then [] else '?' :: Q) with hv
  have htab : ∀ c ∈ v, ¬(c = '\t' ∨ c = '\r' ∨ c = '\n') := by
    intro c hc
    rw [hv] at hc
    simp only [List.append_assoc, List.cons_append, List.nil_append,
      List.mem_append, List.mem_cons] at hc
    rcases hc with hc | hc | hc | hc | hc | hc | hc
    · rw [List.all_eq_true] at hall
      exact schemeChar_no_tab (hall c hc)
    · subst hc; decide
    · subst hc; decide
    · subst hc; decide
    · exact hNtab c hc
    · exact hPtab c hc
    · by_cases hq : Q = []
      · rw [if_pos hq] at hc
        exact absurd hc (List.not_mem_nil c)
      · rw [if_neg hq] at hc
        rcases List.mem_cons.mp hc with hc | hc
        · subst hc; decide
        · exact hQtab c hc
  have hstrip : stripUnsafe v = v := by
    unfold stripUnsafe
    apply List.filter_eq_self.mpr
    intro c hc
    have := htab c hc
    simp only [Bool.not_eq_true', Bool.or_eq_false_iff, decide_eq_false_iff_not]
    tauto
  have hassoc : v = S ++ ':' :: ('/' :: '/' :: N ++ (P ++ (if Q = [] then [] else '?' :: Q))) := by
    rw [hv]
    simp
  have hrest : P ++ (if Q = [] then [] else '?' :: Q) = [] ∨
      netlocDelim ((P ++ (if Q = [] then [] else '?' :: Q)).headD ' ') = true := by
    rcases hP with hP | hP
    · rw [hP, List.nil_append]
      by_cases hq : Q = []
      · rw [if_pos hq]
        left
        rfl
      · rw [if_neg hq]
        right
        rfl
    · right
      cases P with
      | nil => simp at hP
      | cons x xs =>
        rw [List.cons_append]
        simp only [List.headD_cons] at hP ⊢
        rw [hP]
        rfl
  have hbrF : ((decide ('[' ∈ N) && !decide (']' ∈ N)) ||
      (decide (']' ∈ N) && !decide ('[' ∈ N))) = false := by
    by_cases h1 : '[' ∈ N
    · have h2 := hbr.mp h1
      simp [h1, h2]
    · have h2 : ']' ∉ N := fun h => h1 (hbr.mpr h)
      simp [h1, h2]
  have hfrag : pySplitOnce '#' (P ++ (if Q = [] then [] else '?' :: Q)) =
      (P ++ (if Q = [] then [] else '?' :: Q), none) := by
    apply pySplitOnce_not_mem
    intro hc
    rcases List.mem_append.mp hc with hc | hc
    · exact hPh hc
    · by_cases hq : Q = []
      · rw [if_pos hq] at hc
        exact absurd hc (List.not_mem_nil _)
      · rw [if_neg hq] at hc
        rcases List.mem_cons.mp hc with hc | hc
        · exact absurd hc (by decide)
        · exact hQh hc
  simp only [pyUrlsplit]
  rw [hstrip, hassoc]
  rw [splitScheme_append hS halpha hall hlow]
  dsimp only
  rw [splitNetloc_append hN hrest]
  dsimp only
  rw [hbrF]
  rw [if_neg Bool.false_ne_true]
  rw [hfrag]
  dsimp only
  by_cases hq : Q = []
  · rw [if_pos hq, List.append_nil, pySplitOnce_not_mem hPq]
    simp only [Option.getD_none]
    rw [hq]
  · rw [if_neg hq, pySplitOnce_append Q hPq]
    simp only [Option.getD_some, Option.getD_none]

/-- The part before the separator does not contain the separator. -/
theorem pySplitOnce_fst_no_sep (sep : Char) (s : Str) : sep ∉ (pySplitOnce sep s).1 := by
  unfold pySplitOnce
  by_cases h : sep ∈ s
  · rw [if_pos h]
    intro hc
    have := List.mem_takeWhile_imp hc
    simp at this
  · rw [if_neg h]
    exact h

/-- Members of the part before the separator are members of the input. -/
theorem mem_pySplitOnce_fst {sep c : Char} {s : Str} (h : c ∈ (pySplitOnce sep s).1) :
    c ∈ s := by
  unfold pySplitOnce at h
  by_cases hs : sep ∈ s
  · rw [if_pos hs] at h
    exact (List.takeWhile_sublist _).subset h
  · rw [if_neg hs] at h
    exact h

/-- Members of the part after the separator are members of the input. -/
theorem mem_pySplitOnce_snd {sep c : Char} {s : Str}
    (h : c ∈ (pySplitOnce sep s).2.getD []) : c ∈ s := by
  unfold pySplitOnce at h
  by_cases hs : sep ∈ s
  · rw [if_pos hs] at h
    simp only [Option.getD_some] at h
    exact (List.dropWhile_sublist _).subset (List.drop_subset _ _ h)
  · rw [if_neg hs] at h
    simp only [Option.getD_none] at h
    exact absurd h (List.not_mem_nil c)

/-- The head of the part before the separator is the head of the input. -/
theorem pySplitOnce_fst_head {sep c : Char} {s : Str}
    (h : (pySplitOnce sep s).1.head? = some c) : s.head? = some c := by
  unfold pySplitOnce at h
  by_cases hs : sep ∈ s
  · rw [if_pos hs] at h
    cases s with
    | nil => simp at h
    | cons x xs =>
      rw [List.takeWhile_cons] at h
      by_cases hx : (decide ¬(x = sep)) = true
      · rw [if_pos hx] at h
        simp only [List.head?_cons, Option.some.injEq] at h ⊢
        exact h
      · rw [if_neg hx] at h
        simp at h
  · rw [if_neg hs] at h
    exact h

/-- A head survives appending. -/
theorem head_eq_of_append {l t : Str} {c : Char} (h : l.head? = some c) :
    (l ++ t).head? = some c := by
  cases l with
  | nil => simp at h
  | cons x xs => simpa using h

/-- The head of a `take` is the head of the input. -/
theorem head_of_take {n : Nat} {l : Str} {c : Char} (h : (l.take n).head? = some c) :
    l.head? = some c := by
  cases n with
  | zero => simp at h
  | succ m =>
    cases l with
    | nil => simp at h
    | cons x xs => simpa using h

/-- Facts about the path and query of a successful `pyUrlsplit` with a
nonempty netloc: the path is empty or begins with `/`, and path and query
avoid the reserved delimiters. -/
theorem pyUrlsplit_path_facts {w : Str} {s : SplitParts} (h : pyUrlsplit w = some s)
    (hn : s.netloc ≠ []) :
    (s.path = [] ∨ s.path.headD ' ' = '/') ∧ '?' ∉ s.path ∧ '#' ∉ s.path ∧ '#' ∉ s.query := by
  have he := pyUrlsplit_some_eq h
  set r2 := (splitNetloc (splitScheme (stripUnsafe w)).2).2 with hr2
  have hq_path : '?' ∉ s.path := by
    rw [he]
    exact pySplitOnce_fst_no_sep '?' _
  have hh_mid : '#' ∉ (pySplitOnce '#' r2).1 := pySplitOnce_fst_no_sep '#' r2
  have hh_path : '#' ∉ s.path := by
    rw [he]
    intro hc
    exact hh_mid (mem_pySplitOnce_fst hc)
  have hh_query : '#' ∉ s.query := by
    rw [he]
    intro hc
    exact hh_mid (mem_pySplitOnce_snd hc)
  refine ⟨?_, hq_path, hh_path, hh_query⟩
  rcases splitNetloc_cases (splitScheme (stripUnsafe w)).2 with hcase | hcase
  · rw [he] at hn
    exact absurd hcase.1 hn
  · rw [← hr2] at hcase
    cases hp : s.path with
    | nil => left; rfl
    | cons x xs =>
      right
      have hx0 : s.path.head? = some x := by rw [hp]; rfl
      have hx1 : r2.head? = some x := by
        rw [he] at hx0
        dsimp only at hx0
        exact pySplitOnce_fst_head (pySplitOnce_fst_head hx0)
      have hr2ne : r2 ≠ [] := by
        intro hnil
        rw [hnil] at hx1
        simp at hx1
      have hdelim : netlocDelim x = true := by
        rcases hcase with hcase | hcase
        · exact absurd hcase hr2ne
        · cases hrr : r2 with
          | nil => exact absurd hrr hr2ne
          | cons y ys =>
            rw [hrr] at hx1 hcase
            simp only [List.head?_cons, Option.some.injEq] at hx1
            simp only [List.headD_cons] at hcase
            rw [hx1] at hcase
            exact hcase
      have hxmem : x ∈ s.path := by rw [hp]; exact List.mem_cons_self x xs
      unfold netlocDelim at hdelim
      simp only [Bool.or_eq_true, decide_eq_true_eq] at hdelim
      rcases hdelim with (hx | hx) | hx
      · rw [List.headD_cons]
        exact hx
      · rw [hx] at hxmem
        exact absurd hxmem hq_path
      · rw [hx] at hxmem
        exact absurd hxmem hh_path

/-- The path part of `pySplitparams` is the whole path or a prefix of it. -/
theorem pySplitparams_fst (url : Str) :
    (pySplitparams url).1 = url ∨ ∃ n, (pySplitparams url).1 = url.take n := by
  unfold pySplitparams
  by_cases hs : '/' ∈ url
  · rw [if_pos hs]
    cases hf : strFindFrom ';' url ((strRfind '/' url).getD 0) with
    | none => left; rfl
    | some i =>
      right
      exact ⟨i, rfl⟩
  · rw [if_neg hs]
    cases hf : strFind ';' url with
    | none => left; rfl
    | some i =>
      right
      exact ⟨i, rfl⟩

/-- Decomposition of `pyUrlparse`: the result reuses the `pyUrlsplit`
components, with the parsed path equal to the split path or a prefix of it. -/
theorem pyUrlparse_some {w : Str} {p : UrlParts} (h : pyUrlparse w = some p) :
    ∃ s, pyUrlsplit w = some s ∧ p.scheme = s.scheme ∧ p.netloc = s.netloc ∧
      p.query = s.query ∧ p.fragment = s.fragment ∧
      (p.path = s.path ∨ ∃ n, p.path = s.path.take n) := by
  unfold pyUrlparse at h
  cases hs : pyUrlsplit w with
  | none =>
    rw [hs] at h
    exact absurd h (by simp)
  | some s =>
    rw [hs] at h
    simp only [Option.map_some', Option.some.injEq] at h
    refine ⟨s, rfl, ?_⟩
    by_cases hc : (decide (s.scheme ∈ usesParams) && decide (';' ∈ s.path)) = true
    · rw [if_pos hc] at h
      rw [← h]
      refine ⟨rfl, rfl, rfl, rfl, ?_⟩
      exact pySplitparams_fst s.path
    · rw [if_neg hc] at h
      rw [← h]
      exact ⟨rfl, rfl, rfl, rfl, Or.inl rfl⟩

/-- Lowercasing never introduces a netloc delimiter. -/
theorem netlocDelim_lowerChar {c : Char} (h : netlocDelim c = false) :
    netlocDelim (pyLowerChar c) = false := by
  unfold pyLowerChar
  by_cases hu : isAsciiUpper c = true
  · rw [if_pos hu]
    unfold isAsciiUpper at hu
    simp only [Bool.and_eq_true, decide_eq_true_eq] at hu
    have hval : (Char.ofNat (c.toNat + 32)).toNat = c.toNat + 32 := by
      apply charToNat_ofNat
      exact Or.inl (by omega)
    unfold netlocDelim
    simp only [Bool.or_eq_false_iff, decide_eq_false_iff_not]
    refine ⟨⟨?_, ?_⟩, ?_⟩ <;> intro he <;> rw [he] at hval
    · have h47 : ('/').toNat = 47 := by decide
      rw [h47] at hval
      omega
    · have h63 : ('?').toNat = 63 := by decide
      rw [h63] at hval
      omega
    · have h35 : ('#').toNat = 35 := by decide
      rw [h35] at hval
      omega
  · rw [if_neg hu]
    exact h

/-- The lowercased netloc of a delimiter-free netloc is delimiter-free. -/
theorem netlocDelim_pyLower {N : Str} (h : ∀ c ∈ N, netlocDelim c = false) :
    ∀ c ∈ pyLower N, netlocDelim c = false := by
  intro c hc
  rcases List.mem_map.mp hc with ⟨d, hd, hde⟩
  rw [← hde]
  exact netlocDelim_lowerChar (h d hd)

/-- Members of a lowercased string come from members of the original. -/
theorem mem_pyLower {c : Char} {s : Str} (hc : c ∈ pyLower s) :
    ∃ d ∈ s, c = pyLowerChar d := by
  rcases List.mem_map.mp hc with ⟨d, hd, hde⟩
  exact ⟨d, hd, hde.symm⟩

/-- Members of `slashStripPath l` are members of `l`. -/
theorem mem_slashStrip {c : Char} {l : Str} (h : c ∈ slashStripPath l) : c ∈ l := by
  unfold slashStripPath at h
  by_cases hl : (endsWithL "/".data l && decide (l.length > 1)) = true
  · rw [if_pos hl] at h
    exact mem_pyRstripSet h
  · rw [if_neg hl] at h
    exact h

/-- `slashStripPath l` is a prefix of `l`. -/
theorem slashStrip_prefix (l : Str) : ∃ t, slashStripPath l ++ t = l := by
  unfold slashStripPath
  by_cases hl : (endsWithL "/".data l && decide (l.length > 1)) = true
  · rw [if_pos hl]
    unfold pyRstripSet
    rcases (show List.dropWhile (fun c => decide (c ∈ "/".data)) l.reverse <:+ l.reverse from
      List.dropWhile_suffix _) with ⟨t, ht⟩
    refine ⟨t.reverse, ?_⟩
    have := congrArg List.reverse ht
    simpa using this
  · rw [if_neg hl]
    exact ⟨[], List.append_nil _⟩

/-- `slashStripPath` preserves an absolute-or-empty path shape. -/
theorem slashStrip_headD {l : Str} (h : l = [] ∨ l.headD ' ' = '/') :
    slashStripPath l = [] ∨ (slashStripPath l).headD ' ' = '/' := by
  rcases slashStrip_prefix l with ⟨t, ht⟩
  cases hsp : slashStripPath l with
  | nil => exact Or.inl rfl
  | cons x xs =>
    right
    rw [hsp] at ht
    rcases h with h | h
    · rw [h] at ht
      exact absurd ht (by simp)
    · rw [← ht] at h
      simpa using h

/-- A `take` preserves an absolute-or-empty path shape. -/
theorem take_headD {l : Str} (n : Nat) (h : l = [] ∨ l.headD ' ' = '/') :
    l.take n = [] ∨ (l.take n).headD ' ' = '/' := by
  rcases h with h | h
  · rw [h]
    exact Or.inl (by simp)
  · cases l with
    | nil => exact Or.inl (by simp)
    | cons x xs =>
      cases n with
      | zero => exact Or.inl rfl
      | succ m =>
        right
        simpa using h

/-- `sortPairs` of a nonempty list is nonempty. -/
theorem sortPairs_ne_nil {l : List (Str × Str)} (h : l ≠ []) : sortPairs l ≠ [] := by
  cases l with
  | nil => exact absurd rfl h
  | cons x rest =>
    intro hnil
    have hx : x ∈ sortPairs (x :: rest) := (mem_sortPairs x _).mpr (List.mem_cons_self x rest)
    rw [hnil] at hx
    exact absurd hx (List.not_mem_nil x)

/-- Characters of the path of a successful `pyUrlsplit` are never tab, CR or
LF. -/
theorem pyUrlsplit_path_no_tab {w : Str} {s : SplitParts} (h : pyUrlsplit w = some s) :
    ∀ c ∈ s.path, ¬(c = '\t' ∨ c = '\r' ∨ c = '\n') := by
  intro c hc
  have he := pyUrlsplit_some_eq h
  rw [he] at hc
  dsimp only at hc
  exact mem_stripUnsafe
    (mem_splitScheme_snd (mem_splitNetloc_snd (mem_pySplitOnce_fst (mem_pySplitOnce_fst hc))))

/-- Characters of the netloc of a successful `pyUrlsplit` are never tab, CR
or LF. -/
theorem pyUrlsplit_netloc_no_tab {w : Str} {s : SplitParts} (h : pyUrlsplit w = some s) :
    ∀ c ∈ s.netloc, ¬(c = '\t' ∨ c = '\r' ∨ c = '\n') := by
  intro c hc
  have he := pyUrlsplit_some_eq h
  rw [he] at hc
  dsimp only at hc
  exact mem_stripUnsafe (mem_splitScheme_snd (mem_splitNetloc_fst hc))

/-- C1 (amended): `canonicalize_url` applied to one of its own outputs `v`
returns `some v` unchanged, provided the output needs no further pre-parse
cleanup (`canonClean v = v`) and the first parse left no residual default
port and no parameter segment in the normalized path. (The unamended claim
is refuted by `canon_not_idempotent`.) -/
theorem canon_idempotent_amended (u v : Str)
    (h : canonicalize_url u = some v)
    (hclean : canonClean v = v)
    (hcond : ∀ p, pyUrlparse (canonClean u) = some p →
      ¬(endsWithL ":80".data (pyLower p.netloc) = true ∧ pyLower p.scheme = "http".data) ∧
      ¬(endsWithL ":443".data (pyLower p.netloc) = true ∧ pyLower p.scheme = "https".data) ∧
      (pyLower p.scheme ∈ usesParams → ';' ∉ slashStripPath p.path)) :
    canonicalize_url v = some v := by
  unfold canonicalize_url at h
  by_cases hu : u = []
  · rw [if_pos hu] at h
    exact absurd h (by simp)
  rw [if_neg hu] at h
  cases hp0 : pyUrlparse (canonClean u) with
  | none =>
    rw [hp0] at h
    exact absurd h (by simp)
  | some p =>
  rw [hp0] at h
  dsimp only at h
  obtain ⟨hc80, hc443, hcparams⟩ := hcond p hp0
  obtain ⟨s0, hs0, hpsch, hpnet, hpq, hpfr, hppath⟩ := pyUrlparse_some hp0
  unfold canonFromParts at h
  by_cases hguard : (decide (p.scheme = []) || decide (p.netloc = [])) = true
  · rw [if_pos hguard] at h
    exact absurd h (by simp)
  rw [if_neg hguard] at h
  simp only [Bool.or_eq_true, decide_eq_true_eq, not_or] at hguard
  obtain ⟨hS_ne, hN_ne⟩ := hguard
  dsimp only at h
  -- facts about the scheme
  have hsch_eq : p.scheme = (splitScheme (stripUnsafe (canonClean u))).1 := by
    rw [hpsch, pyUrlsplit_some_eq hs0]
  rcases splitScheme_fst_facts (stripUnsafe (canonClean u)) with hnil | hfacts
  · rw [hsch_eq] at hS_ne
    exact absurd hnil hS_ne
  rw [← hsch_eq] at hfacts
  obtain ⟨-, halpha, hallsch, hSlow⟩ := hfacts
  -- facts about the netloc
  have hnet_eq : p.netloc = (splitNetloc (splitScheme (stripUnsafe (canonClean u))).2).1 := by
    rw [hpnet, pyUrlsplit_some_eq hs0]
  have hNdelim : ∀ c ∈ p.netloc, netlocDelim c = false := by
    rw [hnet_eq]
    exact splitNetloc_fst_facts _
  have hNbr : ('[' ∈ p.netloc) ↔ (']' ∈ p.netloc) := by
    rw [hpnet]
    exact pyUrlsplit_some_bracket hs0
  have hNtab0 : ∀ c ∈ p.netloc, ¬(c = '\t' ∨ c = '\r' ∨ c = '\n') := by
    rw [hpnet]
    exact pyUrlsplit_netloc_no_tab hs0
  have hN2delim := netlocDelim_pyLower hNdelim
  have hN2br : ('[' ∈ pyLower p.netloc) ↔ (']' ∈ pyLower p.netloc) := by
    rw [mem_pyLower_iff_of_not_letter (by decide) _, mem_pyLower_iff_of_not_letter (by decide) _]
    exact hNbr
  have hN2tab : ∀ c ∈ pyLower p.netloc, ¬(c = '\t' ∨ c = '\r' ∨ c = '\n') := by
    intro c hc
    rcases mem_pyLower hc with ⟨d, hd, hde⟩
    rw [hde]
    exact pyLowerChar_no_tab (hNtab0 d hd)
  have hN2ne : pyLower p.netloc ≠ [] := by
    unfold pyLower
    simp only [ne_eq, List.map_eq_nil_iff]
    exact hN_ne
  -- facts about the path
  have hs0net_ne : s0.netloc ≠ [] := by
    rw [← hpnet]
    exact hN_ne
  obtain ⟨hhead0, hq0, hh0, hhq0⟩ := pyUrlsplit_path_facts hs0 hs0net_ne
  have hPhead : p.path = [] ∨ p.path.headD ' ' = '/' := by
    rcases hppath with he | ⟨n, he⟩
    · rw [he]
      exact hhead0
    · rw [he]
      exact take_headD n hhead0
  have hmemP : ∀ c ∈ p.path, c ∈ s0.path := by
    rcases hppath with he | ⟨n, he⟩
    · rw [he]
      exact fun c hc => hc
    · rw [he]
      exact fun c hc => List.take_subset n _ hc
  have hP2head := slashStrip_headD hPhead
  have hP2q : '?' ∉ slashStripPath p.path := fun hc => hq0 (hmemP _ (mem_slashStrip hc))
  have hP2h : '#' ∉ slashStripPath p.path := fun hc => hh0 (hmemP _ (mem_slashStrip hc))
  have hP2tab : ∀ c ∈ slashStripPath p.path, ¬(c = '\t' ∨ c = '\r' ∨ c = '\n') :=
    fun c hc => pyUrlsplit_path_no_tab hs0 c (hmemP c (mem_slashStrip hc))
  -- the port-strip conditions are false
  rw [hSlow] at hc80 hc443 hcparams
  have h80F : (endsWithL ":80".data (pyLower p.netloc) && decide (p.scheme = "http".data)) = false := by
    by_cases h1 : endsWithL ":80".data (pyLower p.netloc) = true
    · by_cases h2 : p.scheme = "http".data
      · exact absurd ⟨h1, h2⟩ hc80
      · simp [h2]
    · simp only [Bool.not_eq_true] at h1
      simp [h1]
  have h443F : (endsWithL ":443".data (pyLower p.netloc) && decide (p.scheme = "https".data)) = false := by
    by_cases h1 : endsWithL ":443".data (pyLower p.netloc) = true
    · by_cases h2 : p.scheme = "https".data
      · exact absurd ⟨h1, h2⟩ hc443
      · simp [h2]
    · simp only [Bool.not_eq_true] at h1
      simp [h1]
  rw [hSlow, h80F, if_neg Bool.false_ne_true, h443F, if_neg Bool.false_ne_true] at h
  set P1 := slashStripPath p.path with hP1
  set qp := (parse_qsl p.query).filter (fun kv => !decide (kv.1 ∈ TRACKING_KEYS)) with hqp
  set Q1 := (if qp = [] then [] else pyUrlencode (sortPairs qp)) with hQ1
  have hveq : pyUrlunsplit p.scheme (pyLower p.netloc) P1 Q1 = v := Option.some.inj h
  -- facts about the rebuilt query
  have hQranges : ∀ c ∈ Q1, c.toNat ≠ 35 ∧ c.toNat ≠ 9 ∧ c.toNat ≠ 13 ∧ c.toNat ≠ 10 := by
    intro c hc
    rw [hQ1] at hc
    by_cases hq : qp = []
    · rw [if_pos hq] at hc
      exact absurd hc (List.not_mem_nil c)
    · rw [if_neg hq] at hc
      rcases mem_pyUrlencode_range hc with h | h | h | h | h | h | h | h | h | h | h <;> omega
  have hQ1h : '#' ∉ Q1 := by
    intro hc
    exact (hQranges _ hc).1 (by decide)
  have hQ1tab : ∀ c ∈ Q1, ¬(c = '\t' ∨ c = '\r' ∨ c = '\n') := by
    intro c hc hor
    obtain ⟨-, h9, h13, h10⟩ := hQranges c hc
    rcases hor with he | he | he
    · subst he
      exact h9 (by decide)
    · subst he
      exact h13 (by decide)
    · subst he
      exact h10 (by decide)
  -- the shape of the canonical output
  have hif2 : (if P1 ≠ [] && P1.headD ' ' ≠ '/' then '/' :: P1 else P1) = P1 := by
    rcases hP2head with hp1 | hp1
    · rw [hp1]
      simp
    · rw [if_neg ?_]
      simp only [Bool.and_eq_true, decide_eq_true_eq, ne_eq]
      intro hc
      exact hc.2 hp1
  have hcond1 : (decide (pyLower p.netloc ≠ []) ||
      (decide (p.scheme ≠ []) && decide (p.scheme ∈ usesNetloc) && !beginsWithL "//".data P1)) = true := by
    simp [hN2ne]
  have hvshape : v = p.scheme ++ ':' :: '/' :: '/' :: pyLower p.netloc ++ P1 ++
      (if Q1 = [] then [] else '?' :: Q1) := by
    rw [← hveq]
    unfold pyUrlunsplit
    rw [hif2, if_pos hcond1]
    dsimp only
    rw [if_pos (show p.scheme ≠ [] from hS_ne)]
    by_cases hq1 : Q1 = []
    · rw [if_neg (show ¬(Q1 ≠ []) from fun hh => hh hq1), if_pos hq1]
      simp
    · rw [if_pos (show Q1 ≠ [] from hq1), if_neg hq1]
      simp [List.append_assoc]
  -- the second parse
  have hsplit2 : pyUrlsplit v = some ⟨p.scheme, pyLower p.netloc, P1, Q1, []⟩ := by
    rw [hvshape]
    exact pyUrlsplit_canonical hS_ne halpha hallsch hSlow hN2delim hN2br hN2tab
      hP2head hP2q hP2h hP2tab hQ1h hQ1tab
  have hparamsF : (decide (p.scheme ∈ usesParams) && decide (';' ∈ P1)) = false := by
    by_cases h1 : p.scheme ∈ usesParams
    · have h2 := hcparams h1
      simp [h2]
    · simp [h1]
  have hparse2 : pyUrlparse v = some ⟨p.scheme, pyLower p.netloc, P1, [], Q1, []⟩ := by
    unfold pyUrlparse
    rw [hsplit2]
    simp only [Option.map_some', Option.some.injEq]
    rw [if_neg (by rw [hparamsF]; exact Bool.false_ne_true)]
  -- the second canonicalization
  have hvne : v ≠ [] := by
    rw [hvshape]
    intro hnil
    have hlen := congrArg List.length hnil
    simp only [List.length_append, List.length_cons, List.length_nil] at hlen
    omega
  unfold canonicalize_url
  rw [if_neg hvne, hclean, hparse2]
  show canonFromParts ⟨p.scheme, pyLower p.netloc, P1, [], Q1, []⟩ = some v
  unfold canonFromParts
  rw [if_neg (by simp [hS_ne, hN2ne] :
    ¬((decide (p.scheme = []) || decide (pyLower p.netloc = [])) = true))]
  dsimp only
  rw [hSlow, pyLower_idem, h80F, if_neg Bool.false_ne_true, h443F, if_neg Bool.false_ne_true]
  have hP1idem : slashStripPath P1 = P1 := by
    rw [hP1]
    exact slashStrip_idem p.path
  rw [hP1idem]
  by_cases hq : qp = []
  · have hQnil : Q1 = [] := by
      rw [hQ1, if_pos hq]
    rw [hQnil]
    have hpe : parse_qsl ([] : Str) = [] := rfl
    rw [hpe]
    simp only [List.filter_nil, if_pos rfl]
    rw [hQnil] at hveq
    exact congrArg some hveq
  · have hQe : Q1 = pyUrlencode (sortPairs qp) := by
      rw [hQ1, if_neg hq]
    have hpqe : parse_qsl Q1 = sortPairs qp := by
      rw [hQe]
      exact parse_qsl_urlencode _
    rw [hpqe]
    have hfilt : (sortPairs qp).filter (fun kv => !decide (kv.1 ∈ TRACKING_KEYS)) = sortPairs qp := by
      apply List.filter_eq_self.mpr
      intro a ha
      have ha2 : a ∈ qp := (mem_sortPairs a qp).mp ha
      rw [hqp] at ha2
      exact (List.mem_filter.mp ha2).2
    rw [hfilt, if_neg (sortPairs_ne_nil hq), sortPairs_idem, ← hQe]
    exact congrArg some hveq

/-- C1: the unamended idempotence claim is false: `https://example.com/foo.#frag`
canonicalizes successfully to `https://example.com/foo.`, but canonicalizing
that result strips the now-trailing `.` as pasted punctuation and returns a
different string. -/
theorem canon_not_idempotent :
    canonicalize_url ("https://example.com/foo.#frag".data) =
      some ("https://example.com/foo.".data) ∧
    canonicalize_url ("https://example.com/foo.".data) =
      some ("https://example.com/foo".data) := by
  constructor <;> decide

/-- Witness for `canon_idempotent_amended`: a concrete canonicalization
(uppercase host, trailing slash) whose output is a fixed point. -/
theorem canon_idempotent_amended_witness :
    canonicalize_url ("http://EXAMPLE.com/a/".data) = some ("http://example.com/a".data) ∧
    canonicalize_url ("http://example.com/a".data) = some ("http://example.com/a".data) :=
  ⟨by decide,
   canon_idempotent_amended ("http://EXAMPLE.com/a/".data) ("http://example.com/a".data)
    (by decide) (by decide)
    (fun p hp => by
      have h0 : pyUrlparse (canonClean ("http://EXAMPLE.com/a/".data)) =
          some ⟨"http".data, "EXAMPLE.com".data, "/a/".data, [], [], []⟩ := by decide
      rw [h0] at hp
      have he := Option.some.inj hp
      rw [← he]
      refine ⟨by decide, by decide, by decide⟩)⟩

/-- `pyLower` of a string is empty exactly when the string is. -/
theorem pyLower_eq_nil {s : Str} : pyLower s = [] ↔ s = [] := by
  unfold pyLower
  exact List.map_eq_nil_iff

/-- The unamended string-level version of the equivalence claim is false:
`https://e.com/a.` and `https://e.com/a./` differ only by a trailing slash
on a non-root path, yet the first canonicalizes to `https://e.com/a` (the
pre-parse rstrip of pasted punctuation drops the exposed `.`) while the
second canonicalizes to `https://e.com/a.` (the trailing `/` shields the
`.` from the rstrip and is itself stripped only post-parse). -/
theorem canon_trailing_slash_divergence :
    canonicalize_url ("https://e.com/a.".data) = some ("https://e.com/a".data) ∧
    canonicalize_url ("https://e.com/a./".data) = some ("https://e.com/a.".data) := by
  constructor <;> decide

/-- C2 (amended): canonicalization is determined by the cleaned parse — two
URLs whose cleaned parses agree up to letter case of scheme and host, a
trailing slash on the path, and tracking query parameters canonicalize
identically; and the scenario
`https://example.com/article?utm_source=slack&utm_campaign=x#frag`
canonicalizes to `https://example.com/article`, with no query and no
fragment. (The claim over raw URL strings is refuted by
`canon_trailing_slash_divergence`: a trailing slash can shield pasted
punctuation from the pre-parse cleanup, so string pairs differing only by a
trailing slash need not canonicalize identically.) -/
theorem canon_equiv_classes :
    (∀ u1 u2 p1 p2, u1 ≠ [] → u2 ≠ [] →
      pyUrlparse (canonClean u1) = some p1 → pyUrlparse (canonClean u2) = some p2 →
      pyLower p1.scheme = pyLower p2.scheme → pyLower p1.netloc = pyLower p2.netloc →
      slashStripPath p1.path = slashStripPath p2.path →
      (parse_qsl p1.query).filter (fun kv => !decide (kv.1 ∈ TRACKING_KEYS)) =
        (parse_qsl p2.query).filter (fun kv => !decide (kv.1 ∈ TRACKING_KEYS)) →
      canonicalize_url u1 = canonicalize_url u2) ∧
    canonStr "https://example.com/article?utm_source=slack&utm_campaign=x#frag" =
      some "https://example.com/article" := by
  constructor
  · intro u1 u2 p1 p2 hu1 hu2 h1 h2 hs hn hp hq
    unfold canonicalize_url
    rw [if_neg hu1, if_neg hu2, h1, h2]
    dsimp only
    unfold canonFromParts
    have hgs : (p1.scheme = []) ↔ (p2.scheme = []) := by
      rw [← pyLower_eq_nil, ← @pyLower_eq_nil p2.scheme, hs]
    have hgn : (p1.netloc = []) ↔ (p2.netloc = []) := by
      rw [← pyLower_eq_nil, ← @pyLower_eq_nil p2.netloc, hn]
    have hgiff : ((decide (p1.scheme = []) || decide (p1.netloc = [])) = true) ↔
        ((decide (p2.scheme = []) || decide (p2.netloc = [])) = true) := by
      simp only [Bool.or_eq_true, decide_eq_true_eq]
      rw [hgs, hgn]
    by_cases hg : (decide (p1.scheme = []) || decide (p1.netloc = [])) = true
    · rw [if_pos hg, if_pos (hgiff.mp hg)]
    · rw [if_neg hg, if_neg (fun hh => hg (hgiff.mpr hh))]
      dsimp only
      rw [hs, hn, hp, hq]
  · decide

/-- Witness for `canon_equiv_classes`: a concrete pair differing by host
case, trailing slash and a tracking parameter canonicalizes identically. -/
theorem canon_equiv_classes_witness :
    canonicalize_url ("HTTPS://Example.COM/article".data) =
      canonicalize_url ("https://example.com/article/?utm_source=slack".data) :=
  canon_equiv_classes.1 ("HTTPS://Example.COM/article".data)
    ("https://example.com/article/?utm_source=slack".data)
    ⟨"https".data, "Example.COM".data, "/article".data, [], [], []⟩
    ⟨"https".data, "example.com".data, "/article/".data, [], "utm_source=slack".data, []⟩
    (by decide) (by decide) (by decide) (by decide) (by decide) (by decide)
    (by decide) (by decide)

/-- `SCHOLAR_HOSTS` from the source. -/
def SCHOLAR_HOSTS : List Str :=
  ["doi.org".data, "dx.doi.org".data, "doi.wiley.com".data,
   "biorxiv.org".data, "www.biorxiv.org".data, "www.medrxiv.org".data, "arxiv.org".data,
   "nature.com".data, "www.nature.com".data, "science.org".data, "www.science.org".data,
   "cell.com".data, "www.cell.com".data, "sciencedirect.com".data, "www.sciencedirect.com".data,
   "springer.com".data, "link.springer.com".data, "onlinelibrary.wiley.com".data,
   "academic.oup.com".data, "aacrjournals.org".data, "jamanetwork.com".data, "pnas.org".data,
   "www.pnas.org".data, "bmj.com".data, "www.bmj.com".data, "thelancet.com".data,
   "tandfonline.com".data, "www.tandfonline.com".data, "frontiersin.org".data,
   "www.frontiersin.org".data, "asm.org".data, "journals.asm.org".data, "asmscience.org".data,
   "mdpi.com".data, "www.mdpi.com".data, "royalsocietypublishing.org".data,
   "sciencemag.org".data, "www.sciencemag.org".data, "jci.org".data, "www.jci.org".data,
   "embopress.org".data, "www.embopress.org".data, "journals.sagepub.com".data,
   "plos.org".data, "journals.plos.org".data, "pmc.ncbi.nlm.nih.gov".data,
   "pubmed.ncbi.nlm.nih.gov".data]

/-- `NON_ARTICLE_EXTS` from the source. -/
def NON_ARTICLE_EXTS : List Str :=
  [".jpg".data, ".jpeg".data, ".png".data, ".gif".data, ".webp".data, ".svg".data,
   ".mp4".data, ".mov".data, ".avi".data, ".mkv".data, ".webm".data, ".mp3".data]

/-- `SKIP_HOSTS` from the source. -/
def SKIP_HOSTS : List Str :=
  ["x.com".data, "twitter.com".data, "www.twitter.com".data, "youtube.com".data,
   "www.youtube.com".data, "youtu.be".data, "facebook.com".data, "www.facebook.com".data,
   "instagram.com".data, "www.instagram.com".data, "reddit.com".data, "www.reddit.com".data]

/-- Character class `[-._;()/:A-Z0-9]` of `DOI_RE` with `re.I`: alphanumerics
and the listed punctuation. -/
def doiBodyChar (c : Char) : Bool :=
  isAsciiAlnum c || c ∈ ['-', '.', '_', ';', '(', ')', '/', ':']

/-- One match attempt of `DOI_RE` (`10\.\d{4,9}/[-._;()/:A-Z0-9]+`, `re.I`)
anchored at the start of `s`: `10.`, then 4–9 digits, then `/` and at least
one body character.  Because the digit run is maximal and `/` is not a
digit, exactly the full run of 4–9 digits can precede the slash. -/
def doiMatchHere (s : Str) : Bool :=
  match s with
  | '1' :: '0' :: '.' :: rest =>
    let k := (rest.takeWhile isAsciiDigit).length
    if 4 ≤ k && k ≤ 9 then
      match rest.drop k with
      | '/' :: c :: _ => doiBodyChar c
      | ['/'] => false
      | _ => false
    else false
  | _ => false

/-- `DOI_RE.search`: a match starting at some position. -/
def doiSearch : Str → Bool
  | [] => false
  | c :: rest => doiMatchHere (c :: rest) || doiSearch rest

/-- The article-indicating path segments tested by `is_scholarly_url`. -/
def ARTICLE_SEGS : List Str :=
  ["/doi/".data, "/article/".data, "/articles/".data, "/abs/".data,
   "/fulltext/".data, "/content/".data]

/-- `is_scholarly_url` from the source (lines 171–181). -/
def is_scholarly_url (url : Str) : Bool :=
  match pyUrlparse url with
  | none => false
  | some p =>
    let host := pyLower p.netloc
    let path := pyLower p.path
    if host ∈ SKIP_HOSTS || endsWithL ".slack.com".data host then false
    else if NON_ARTICLE_EXTS.any (fun e => endsWithL e path) then false
    else if doiSearch url then true
    else if host ∈ SCHOLAR_HOSTS then true
    else if ARTICLE_SEGS.any (fun seg => containsSub seg path) then true
    else false

/-- C9: a URL whose host ends in `.slack.com` is never scholarly, whatever
the rest of the URL contains. -/
theorem slack_hosts_never_scholarly (url : Str) (p : UrlParts)
    (h : pyUrlparse url = some p)
    (hh : endsWithL ".slack.com".data (pyLower p.netloc) = true) :
    is_scholarly_url url = false := by
  unfold is_scholarly_url
  rw [h]
  dsimp only
  rw [hh, Bool.or_true, if_pos rfl]

/-- Witness for `slack_hosts_never_scholarly`: a Slack-hosted URL containing
both a DOI-shaped substring and an article path segment is rejected. -/
theorem slack_hosts_never_scholarly_witness :
    is_scholarly_url ("https://myteam.slack.com/article/10.1234/abcd".data) = false :=
  slack_hosts_never_scholarly ("https://myteam.slack.com/article/10.1234/abcd".data)
    ⟨"https".data, "myteam.slack.com".data, "/article/10.1234/abcd".data, [], [], []⟩
    (by decide) (by decide)

/-- `re.match(r'^\d{4}\.\d{2}\.\d{2}', t)`: a date-stamp prefix. -/
def dateStampMatch (t : Str) : Bool :=
  match t with
  | a :: b :: c :: d :: p1 :: e :: f :: p2 :: g :: h :: _ =>
    isAsciiDigit a && isAsciiDigit b && isAsciiDigit c && isAsciiDigit d &&
    p1 = '.' && isAsciiDigit e && isAsciiDigit f && p2 = '.' &&
    isAsciiDigit g && isAsciiDigit h
  | _ => false

/-- `re.match(r'^[A-Z]{1,6}\d{2,}', t)`: 1–6 uppercase letters then at least
two digits.  The letter run is maximal (a shorter run would be followed by a
letter, not a digit), so the greedy quantifier matches exactly the run. -/
def shortcodeMatch (t : Str) : Bool :=
  let L := (t.takeWhile isAsciiUpper).length
  (1 ≤ L && L ≤ 6) && decide (((t.drop L).takeWhile isAsciiDigit).length ≥ 2)

/-- A Python call argument that is either a `str` or any non-string value
(`looks_numericish` tests `isinstance(s, str)`). -/
inductive PyVal where
  | str : Str → PyVal
  | nonstr : PyVal

/-- `looks_numericish` from the source (lines 356–363).  The float test
`digits/len(core) >= 0.6` is modelled exactly as `10*digits ≥ 6*len(core)`:
for the string lengths a title can have, the two real numbers compared are
far enough apart that double rounding never crosses the threshold. -/
def looks_numericish (v : PyVal) : Bool :=
  match v with
  | .nonstr => true
  | .str s =>
    let t := pyStrip s
    if t = [] then true
    else
      let core := t.filter isAsciiAlnum
      if core = [] then true
      else
        let digits := (core.filter isAsciiDigit).length
        decide (10 * digits ≥ 6 * core.length) || dateStampMatch t || shortcodeMatch t

/-- C10: `looks_numericish` is `true` on every non-string value and on every
string without an alphanumeric character (empty, whitespace-only or
punctuation-only strings included). -/
theorem numericish_accepts_degenerate :
    (∀ s : Str, (∀ c ∈ s, isAsciiAlnum c = false) →
      looks_numericish (PyVal.str s) = true) ∧
    looks_numericish PyVal.nonstr = true := by
  constructor
  · intro s hs
    unfold looks_numericish
    dsimp only
    by_cases ht : pyStrip s = []
    · rw [if_pos ht]
    · rw [if_neg ht]
      have hcore : (pyStrip s).filter isAsciiAlnum = [] := by
        apply List.filter_eq_nil_iff.mpr
        intro c hc
        have hcs : c ∈ s := by
          unfold pyStrip pyRstrip pyLstrip at hc
          rw [List.mem_reverse] at hc
          have h1 := (List.dropWhile_sublist _).subset hc
          rw [List.mem_reverse] at h1
          exact (List.dropWhile_sublist _).subset h1
        simp [hs c hcs]
      rw [if_pos hcore]
  · rfl

/-- Witness for `numericish_accepts_degenerate`: a punctuation-and-space
string is numeric-looking. -/
theorem numericish_accepts_degenerate_witness :
    looks_numericish (PyVal.str " ?!—… ".data) = true :=
  numericish_accepts_degenerate.1 (" ?!—… ".data) (by decide)

/-- Python `str.splitlines` terminators. -/
def pyLineBreak (c : Char) : Bool :=
  c.toNat = 10 || c.toNat = 13 || c.toNat = 11 || c.toNat = 12 ||
  (28 ≤ c.toNat && c.toNat ≤ 30) || c.toNat = 0x85 || c.toNat = 0x2028 || c.toNat = 0x2029

/-- Worker for `pySplitlines` (accumulates the current line reversed). -/
def pySplitlinesAux (acc : Str) : Str → List Str
  | [] => if acc = [] then [] else [acc.reverse]
  | '\r' :: '\n' :: rest => acc.reverse :: pySplitlinesAux [] rest
  | c :: rest =>
    if pyLineBreak c then acc.reverse :: pySplitlinesAux [] rest
    else pySplitlinesAux (c :: acc) rest

/-- Python `str.splitlines()` (no trailing empty line, `\r\n` is one break). -/
def pySplitlines (s : Str) : List Str := pySplitlinesAux [] s

/-- Worker for `pySplitWs`. -/
def pySplitWsAux (cur : Str) : Str → List Str
  | [] => if cur = [] then [] else [cur.reverse]
  | c :: rest =>
    if pyIsSpace c then
      if cur = [] then pySplitWsAux [] rest else cur.reverse :: pySplitWsAux [] rest
    else pySplitWsAux (c :: cur) rest

/-- Python `str.split()` with no argument: split on whitespace runs, no
empty chunks. -/
def pySplitWs (s : Str) : List Str := pySplitWsAux [] s

/-- `re.sub(r"\s+", " ", s).strip()`: collapse whitespace runs to single
spaces and trim. -/
def collapseWs (s : Str) : Str := joinSep [' '] (pySplitWs s)

/-- Regex `\w` restricted to ASCII. -/
def wordChar (c : Char) : Bool := isAsciiAlnum c || c = '_'

/-- Regex `.*$` applied to the remainder `r` of a line: `.` does not match a
newline, and `$` also matches just before a final newline. -/
def dotStarEnd (r : Str) : Bool :=
  !decide ('\n' ∈ r) || (decide (r.getLast? = some '\n') && !decide ('\n' ∈ r.dropLast))

/-- Words separated by `\s+` matched at the start of `t`. -/
def wsSeqHere : List Str → Str → Bool
  | [], _ => true
  | [w], t => beginsWithL w t
  | w :: w2 :: ws, t =>
    beginsWithL w t &&
    (let t2 := t.drop w.length
     let sp := t2.takeWhile pyIsSpace
     decide (sp.length ≥ 1) && wsSeqHere (w2 :: ws) (t2.drop sp.length))

/-- `re.search` of words separated by `\s+`. -/
def wsSeqSearch (ws : List Str) : Str → Bool
  | [] => wsSeqHere ws []
  | c :: rest => wsSeqHere ws (c :: rest) || wsSeqSearch ws rest

/-- Regex `\d{1,2}\s+\w+\s+\d{4}` at the start of `t` (day, month word,
year). -/
def dateAfter (t : Str) : Bool :=
  let d1 := t.takeWhile isAsciiDigit
  (d1.length = 1 || d1.length = 2) &&
  (let t2 := t.drop d1.length
   let sp1 := t2.takeWhile pyIsSpace
   decide (sp1.length ≥ 1) &&
   (let t3 := t2.drop sp1.length
    let w := t3.takeWhile wordChar
    decide (w.length ≥ 1) &&
    (let t4 := t3.drop w.length
     let sp2 := t4.takeWhile pyIsSpace
     decide (sp2.length ≥ 1) &&
     decide (((t4.drop sp2.length).takeWhile isAsciiDigit).length ≥ 4))))

/-- `re.search` of `word\s+\d{1,2}\s+\w+\s+\d{4}` (the received/accepted
date pattern). -/
def recvDateSearch (w : Str) : Str → Bool
  | [] => false
  | c :: rest =>
    (beginsWithL w (c :: rest) &&
     (let t := (c :: rest).drop w.length
      let sp := t.takeWhile pyIsSpace
      decide (sp.length ≥ 1) && dateAfter (t.drop sp.length)))
    || recvDateSearch w rest

/-- `re.search(".*email.*@.*")`: an `email` occurrence with a later `@`. -/
def emailAtSearch : Str → Bool
  | [] => false
  | c :: rest =>
    (beginsWithL "email".data (c :: rest) && decide ('@' ∈ (c :: rest).drop 5))
    || emailAtSearch rest

/-- Regex `^doi:\s*10\.[^ ]+.*` (anchored DOI line). -/
def boilerDoiLine (s : Str) : Bool :=
  beginsWithL "doi:".data s &&
  (let t := (s.drop 4).dropWhile pyIsSpace
   beginsWithL "10.".data t && decide (((t.drop 3).takeWhile (fun c => !decide (c = ' '))).length ≥ 1))

/-- Regex `^\d{1,3}\s*-\s*\d{1,3}$` (a bare page range). -/
def pageRangeMatch (s : Str) : Bool :=
  let d1 := s.takeWhile isAsciiDigit
  (1 ≤ d1.length && d1.length ≤ 3) &&
  (match (s.drop d1.length).dropWhile pyIsSpace with
   | '-' :: t2 =>
     let t3 := t2.dropWhile pyIsSpace
     let d2 := t3.takeWhile isAsciiDigit
     (1 ≤ d2.length && d2.length ≤ 3) &&
     (decide (t3.drop d2.length = []) || decide (t3.drop d2.length = ['\n']))
   | _ => false)

/-- Regex `^\s*(research|review|article|original article|open access)\b.*$`
on the lowercased line. -/
def boilerHead (sl : Str) : Bool :=
  let t := sl.dropWhile pyIsSpace
  ["research".data, "review".data, "article".data, "original article".data,
   "open access".data].any
    (fun w => beginsWithL w t &&
      (match t.drop w.length with
       | [] => true
       | c :: _ => !wordChar c) &&
      dotStarEnd (t.drop w.length))

/-- The eleven `BOILER_PATTERNS` of `extract_pdf_title_from_bytes`, searched
in the lowercased line (the source compiles them with `re.I`). -/
def boilerAny (sl : Str) : Bool :=
  boilerHead sl ||
  wsSeqSearch ["creative".data, "commons".data] sl ||
  containsSub "this article is licensed".data sl ||
  containsSub "the author(s)".data sl ||
  wsSeqSearch ["rights".data, "and".data, "permissions".data] sl ||
  (wsSeqSearch ["springer".data, "nature".data] sl || containsSub "elsevier".data sl ||
   containsSub "wiley".data sl ||
   wsSeqSearch ["oxford".data, "university".data, "press".data] sl) ||
  (recvDateSearch "received".data sl || recvDateSearch "accepted".data sl) ||
  (containsSub "corresponding author".data sl || containsSub "affiliation".data sl ||
   emailAtSearch sl) ||
  boilerDoiLine sl ||
  pageRangeMatch sl ||
  (beginsWithL "supplementary".data sl || beginsWithL "graphical abstract".data sl)

/-- `is_boiler` from `extract_pdf_title_from_bytes`. -/
def is_boiler (s : Str) : Bool :=
  let sl := pyLower s
  boilerAny sl || decide ('©' ∈ s) || containsSub "open access".data sl ||
  containsSub "license".data sl || decide (s.length < 8) || decide (s.length > 220)

/-- `re.match(r"^\s*abstract\s*$", ln, re.I)`. -/
def isAbstractLine (ln : Str) : Bool :=
  let t := (pyLower ln).dropWhile pyIsSpace
  beginsWithL "abstract".data t && (t.drop 8).all pyIsSpace

/-- `find_abstract_idx` from the source (lines 655–662). -/
def find_abstract_idx : List Str → Option Nat
  | [] => none
  | ln :: rest =>
    if isAbstractLine ln then some 0 else (find_abstract_idx rest).map (· + 1)

/-- An exact fraction with positive denominator, standing for the
floating-point scores of the source: for the magnitudes a PDF line can
produce, exact rational comparison agrees with the source's float
comparison. -/
structure QFrac where
  num : Int
  den : Int

/-- Strict order on score fractions by cross-multiplication. -/
def qlt (a b : QFrac) : Bool := decide (a.num * b.den < b.num * a.den)

/-- Letter count of `alpha_ratio` (its denominator is `max 1 (len s)`). -/
def alphaLetters (s : Str) : Nat := (s.filter isAsciiAlpha).length

/-- `looks_all_caps`: at least six letters, over 90 percent uppercase
(`u/n > 0.9` modelled exactly as `10u > 9n`). -/
def looks_all_caps (s : Str) : Bool :=
  let letters := s.filter isAsciiAlpha
  decide (letters.length ≥ 6) &&
  decide (10 * (letters.filter isAsciiUpper).length > 9 * letters.length)

/-- Python `str.islower` restricted to ASCII letters as the cased
characters. -/
def pyIslower (s : Str) : Bool := s.any isAsciiAlpha && !s.any isAsciiUpper

/-- `penalize_boiler` from `_pick_best_sentence`: the number of boilerplate
words found in the lowercased sentence (the source multiplies by 30.0). -/
def penalHits (s : Str) : Nat :=
  (["open access".data, "creative commons".data, "license".data,
    "copyright".data, "received".data, "accepted".data].filter
      (fun w => containsSub w (pyLower s))).length

/-- Sentence-splitting punctuation class `[\.!?]`. -/
def sentPunct (c : Char) : Bool := c = '.' || c = '!' || c = '?'

/-- Worker for `re.split(r"[\.!?]+", s)`: `skipping` is set inside a
punctuation run. -/
def sentSplitAux (skipping : Bool) (cur : Str) : Str → List Str
  | [] => [cur.reverse]
  | c :: rest =>
    if sentPunct c then
      if skipping then sentSplitAux true [] rest
      else cur.reverse :: sentSplitAux true [] rest
    else sentSplitAux false (c :: cur) rest

/-- `re.split(r"[\.!?]+", s)`. -/
def sentSplit (s : Str) : List Str := sentSplitAux false [] s

/-- Per-part cleanup of `_pick_best_sentence`: whitespace collapse then
`strip(" :;,-–— ")`. -/
def partClean (p : Str) : Str :=
  pyStripSet [' ', ':', ';', ',', '-', '–', '—', ' '] (collapseWs p)

/-- Sentence score of `_pick_best_sentence`:
`len + 60*alpha_ratio - 30*hits (+10 if not islower) - 2*commas`, as the
exact fraction over `max 1 (len s)`. -/
def sentScore (s : Str) : QFrac :=
  let den : Int := max 1 s.length
  let commas := (s.filter (fun c => decide (c = ','))).length
  let intpart : Int :=
    (s.length : Int) - 30 * (penalHits s : Int) + (if pyIslower s then 0 else 10) -
      2 * (commas : Int)
  ⟨intpart * den + 60 * (alphaLetters s : Int), den⟩

/-- Selection loop of `_pick_best_sentence` (strict improvement keeps the
earliest best). -/
def pickLoop : List Str → Str → QFrac → Str
  | [], best, _ => best
  | s :: rest, best, bs =>
    if decide (s.length < 10) || decide (s.length > 200) || looks_all_caps s then
      pickLoop rest best bs
    else
      let sc := sentScore s
      if qlt bs sc then pickLoop rest s sc else pickLoop rest best bs

/-- `_pick_best_sentence` from the source (lines 551–587). -/
def pick_best_sentence (candidate : Str) : Str :=
  let parts := ((sentSplit candidate).map partClean).filter (fun p => !decide (p = []))
  let best := pickLoop parts candidate ⟨-1, 1⟩
  pyStripSet [' ', '.', ',', ':', ';', '-', '–', '—'] (collapseWs best)

/-- A match of `DOI_RE` anchored at the start of `s`, returning the matched
string (`10.`, the full 4–9 digit run, `/`, then the maximal run of body
characters). -/
def doiMatchStrHere (s : Str) : Option Str :=
  match s with
  | '1' :: '0' :: '.' :: rest =>
    let k := (rest.takeWhile isAsciiDigit).length
    if 4 ≤ k && k ≤ 9 then
      match rest.drop k with
      | '/' :: tail =>
        let body := tail.takeWhile doiBodyChar
        if body = [] then none
        else some ('1' :: '0' :: '.' :: (rest.take k ++ '/' :: body))
      | _ => none
    else none
  | _ => none

/-- `DOI_RE.search(...).group(0)`: the leftmost match. -/
def doiSearchMatch : Str → Option Str
  | [] => none
  | c :: rest =>
    match doiMatchStrHere (c :: rest) with
    | some m => some m
    | none => doiSearchMatch rest

/-- Regex `\b[A-Z]\.\s*[A-Z]\.` at the start of `t`. -/
def initialsHere (t : Str) : Bool :=
  match t with
  | a :: '.' :: rest =>
    isAsciiUpper a &&
    (match rest.dropWhile pyIsSpace with
     | b :: '.' :: _ => isAsciiUpper b
     | _ => false)
  | _ => false

/-- Scan for `\b[A-Z]\.\s*[A-Z]\.` tracking the word boundary. -/
def initialsScan (prevWord : Bool) : Str → Bool
  | [] => false
  | c :: rest => ((!prevWord) && initialsHere (c :: rest)) || initialsScan (wordChar c) rest

/-- `re.search(r"\b[A-Z]\.\s*[A-Z]\.|,| and ", next_line)` (no `re.I`). -/
def authorishNext (t : Str) : Bool :=
  initialsScan false t || decide (',' ∈ t) || containsSub " and ".data t

/-- The normalized text block built from `span` candidate lines at `i`. -/
def blockAt (cand : List Str) (i span : Nat) : Str :=
  collapseWs (joinSep [' '] ((cand.drop i).take span))

/-- The filters a block must pass before scoring. -/
def blockOk (block : Str) : Bool :=
  !is_boiler block && decide (10 ≤ block.length) && decide (block.length ≤ 200) &&
  !looks_all_caps block

/-- The block score `len + 50*alpha_ratio (+10 author-line bonus)` as the
exact fraction over `max 1 (len block)`. -/
def blockScore (cand : List Str) (i span : Nat) : QFrac :=
  let block := blockAt cand i span
  let den : Int := max 1 block.length
  let bonus : Int := if authorishNext ((cand.drop (i + span)).headD []) then 10 else 0
  ⟨((block.length : Int) + bonus) * den + 50 * (alphaLetters block : Int), den⟩

/-- The `(i, span)` pairs visited by the block loop, in order. -/
def spanPairs (n : Nat) : List (Nat × Nat) :=
  (List.range n).flatMap
    (fun i => ([1, 2, 3] : List Nat).filterMap
      (fun sp => if i + sp ≤ n then some (i, sp) else none))

/-- The block-selection fold of `extract_pdf_title_from_bytes`. -/
def bestBlockFold (cand : List Str) : List (Nat × Nat) → QFrac → Option Str → Option Str
  | [], _, bb => bb
  | (i, sp) :: rest, bs, bb =>
    let block := blockAt cand i sp
    if blockOk block then
      let sc := blockScore cand i sp
      if qlt bs sc then bestBlockFold cand rest sc (some block)
      else bestBlockFold cand rest bs bb
    else bestBlockFold cand rest bs bb

/-- `best_block` of `extract_pdf_title_from_bytes`. -/
def best_block (cand : List Str) : Option Str :=
  bestBlockFold cand (spanPairs cand.length) ⟨-1, 1⟩ none

/-- The metadata junk flags of `extract_pdf_title_from_bytes`. -/
def junkFlags : List Str :=
  ["creative commons".data, "open access".data, "the author(s)".data,
   "this article is licensed".data]

/-- A parsed PDF as the source reads it: the metadata title (possibly a
non-string) and the extracted page texts. -/
structure PdfDoc where
  metaTitle : Option PyVal
  pages : List Str

/-- `extract_pdf_title_from_bytes` from the source (lines 589–705).  The
byte parsing is abstracted to `Option PdfDoc` (`none` is a `PdfReader`
failure) and the Crossref lookup `try_crossref_title` to an oracle. -/
def extract_pdf_title_from_bytes (crossref : Str → Option Str) (pdf : Option PdfDoc) :
    Option Str × Option Str :=
  match pdf with
  | none => (none, none)
  | some doc =>
    let metaRes : Option Str :=
      match doc.metaTitle with
      | some (PyVal.str t0) =>
        let t := collapseWs t0
        if !decide (t = []) && decide (10 ≤ t.length) && decide (t.length ≤ 220) &&
           !(junkFlags.any (fun f => containsSub f (pyLower t))) then some t else none
      | _ => none
    match metaRes with
    | some t => (some t, none)
    | none =>
      let texts := doc.pages.take 5
      let all_text := joinSep ['\n'] texts
      let doiRes : Option (Str × Str) :=
        match doiSearchMatch all_text with
        | some doi =>
          match crossref doi with
          | some cr => if cr = [] then none else some (cr, doi)
          | none => none
        | none => none
      match doiRes with
      | some (cr, doi) => (some cr, some doi)
      | none =>
        let page1 := texts.headD []
        if pyStrip page1 = [] then (none, none)
        else
          let lines := ((pySplitlines page1).map pyStrip).filter (fun ln => !decide (ln = []))
          let search_lines :=
            match find_abstract_idx lines with
            | some i => lines.take i
            | none => lines.take 40
          let cand_lines := search_lines.filter (fun ln => !is_boiler ln)
          let viaBlock : Option (Option Str × Option Str) :=
            match best_block cand_lines with
            | some bb =>
              if !decide (bb = []) && !looks_numericish (PyVal.str bb) then
                let refined := pick_best_sentence bb
                if !decide (refined = []) && !looks_numericish (PyVal.str refined) then
                  some (some refined, none)
                else some (some bb, none)
              else none
            | none => none
          match viaBlock with
          | some r => r
          | none =>
            match cand_lines.find? (fun ln => !looks_numericish (PyVal.str ln)) with
            | some ln => (some (pick_best_sentence ln), none)
            | none => (none, none)

/-- C7 (amended): on a PDF with no metadata title and no DOI, whose page-1
lines are the author line, the title line, a received-date line, and a final
`ABSTRACT` marker, the heuristic extractor returns exactly the title line
(not the author line, not the boilerplate).  (The claimed variant with
`ABSTRACT` as the first line is refuted by `pdf_abstract_first_no_title`:
there the title search window `lines[:abs_idx]` is empty.) -/
theorem pdf_heuristic_extracts_title :
    extract_pdf_title_from_bytes (fun _ => none)
      (some ⟨none,
        [("Smith J, Doe A.\nA Novel Method for Protein Folding Prediction\n" ++
          "Received 3 Jan 2023\nABSTRACT").data]⟩) =
      (some "A Novel Method for Protein Folding Prediction".data, none) := by
  decide

/-- C7 counterexample: with `ABSTRACT` as the first page-1 line (the
scenario as claimed), the extractor returns no title at all. -/
theorem pdf_abstract_first_no_title :
    extract_pdf_title_from_bytes (fun _ => none)
      (some ⟨none,
        [("ABSTRACT\nSmith J, Doe A.\nA Novel Method for Protein Folding Prediction\n" ++
          "Received 3 Jan 2023").data]⟩) =
      (none, none) := by
  decide

/-- `clean_text_strip_html` from the source (lines 344–349).  The
`BeautifulSoup(...).get_text(" ")` call on markup is abstracted to the
oracle `soup`. -/
def clean_text_strip_html (soup : Str → Str) (v : PyVal) : Str :=
  match v with
  | .nonstr => []
  | .str s =>
    let s1 := pyUnescape s
    let s2 := if decide ('<' ∈ s1) && decide ('>' ∈ s1) then soup s1 else s1
    collapseWs s2

/-- `normalize_title_for_key` from the source (lines 351–354). -/
def normalize_title_for_key (soup : Str → Str) (v : PyVal) : Str :=
  collapseWs (pyLower (clean_text_strip_html soup v))

/-- The dedupe key of the main loop:
`(doi or "") or normalize_title_for_key(title)`. -/
def dedupeKey (soup : Str → Str) (doi : Option Str) (title : Str) : Str :=
  match doi with
  | some d => if d = [] then normalize_title_for_key soup (PyVal.str title) else d
  | none => normalize_title_for_key soup (PyVal.str title)

/-- The three emission branches of `main` (the source tags them `LINK`,
`PDF` and `PDF(URL)` when printing). -/
inductive SrcKind where
  | htmlLink : SrcKind
  | pdfUpload : SrcKind
  | pdfDirect : SrcKind
deriving DecidableEq

/-- A record as the main loop persists it, together with the dedupe key and
branch under which it was emitted. -/
structure Emitted where
  kind : SrcKind
  url : Str
  title : Str
  key : Str
  doi : Option Str
deriving DecidableEq

/-- One URL of a message, with the oracle outcomes of
`resolve_best_title_and_doi_for_url` (branch 1) and, when the URL is a
direct PDF link, of `fetch_pdf_title_direct` (branch 3). -/
structure LinkEntry where
  url : Str
  rtitle : Option Str
  rdoi : Option Str
  isPdf : Bool
  ptitle : Option Str
  pdoi : Option Str

/-- An uploaded PDF of a message: the permalink, the file name and the
oracle outcome of `fetch_pdf_title_via_slack`. -/
structure PdfUpload where
  permalink : Option Str
  fn : Str
  better : Option Str
  doi : Option Str

/-- One Slack message as the main loop consumes it. -/
structure Message where
  links : List LinkEntry
  pdf : Option PdfUpload

/-- The netloc `urlparse(u).netloc` used for the branch-1 placeholder. -/
def hostOf (u : Str) : Str :=
  match pyUrlparse u with
  | some p => p.netloc
  | none => []

/-- The branch-1 title: the resolved title, or `Article on {host}` when the
resolved title is numeric-looking (a `None` title is non-string, hence
numeric-looking). -/
def branch1Title (u : Str) (rtitle : Option Str) : Str :=
  let numish :=
    match rtitle with
    | none => true
    | some t => looks_numericish (PyVal.str t)
  if numish then "Article on ".data ++ hostOf u else rtitle.getD []

/-- The branch-2 title before the numeric-looking check: cleaned file name
(falling back to `PDF`), replaced by the cleaned extracted title when one
exists. -/
def branch2TitlePre (soup : Str → Str) (fn : Str) (better : Option Str) : Str :=
  let base := clean_text_strip_html soup
    (PyVal.str (collapseWs (fn.map (fun c => if c = '_' || c = '-' then ' ' else c))))
  let t1 := if base = [] then "PDF".data else base
  match better with
  | some b => if b = [] then t1 else clean_text_strip_html soup (PyVal.str b)
  | none => t1

/-- The branch-2 title: `PDF Article` when numeric-looking. -/
def branch2Title (soup : Str → Str) (fn : Str) (better : Option Str) : Str :=
  let t := branch2TitlePre soup fn better
  if looks_numericish (PyVal.str t) then "PDF Article".data else t

/-- The branch-3 title: the fetched title or `PDF Article` when it is
missing or empty — there is no numeric-looking check in this branch. -/
def branch3Title (ptitle : Option Str) : Str :=
  match ptitle with
  | some t => if t = [] then "PDF Article".data else t
  | none => "PDF Article".data

/-- The run state: `seen_keys` and the records persisted so far. -/
abbrev RunSt := List Str × List Emitted

/-- One guarded emission: skip when the key was seen, otherwise record the
key and persist. -/
def emitStep (st : RunSt) (kind : SrcKind) (url title key : Str) (doi : Option Str) : RunSt :=
  if key ∈ st.1 then st else (key :: st.1, st.2 ++ [⟨kind, url, title, key, doi⟩])

/-- Branch 1 of the main loop for one URL. -/
def step1 (soup : Str → Str) (st : RunSt) (it : LinkEntry) : RunSt :=
  let title := branch1Title it.url it.rtitle
  emitStep st SrcKind.htmlLink it.url title (dedupeKey soup it.rdoi title) it.rdoi

/-- Branch 2 of the main loop for the message's uploaded PDF, if any. -/
def stepPdf (soup : Str → Str) (st : RunSt) : Option PdfUpload → RunSt
  | none => st
  | some p =>
    match p.permalink with
    | none => st
    | some pl =>
      let title := branch2Title soup p.fn p.better
      emitStep st SrcKind.pdfUpload pl title (dedupeKey soup p.doi title) p.doi

/-- Branch 3 of the main loop for one URL: the dedupe key uses the raw
title, the persisted record the cleaned one. -/
def step3 (soup : Str → Str) (st : RunSt) (it : LinkEntry) : RunSt :=
  if it.isPdf then
    let title := branch3Title it.ptitle
    emitStep st SrcKind.pdfDirect it.url (clean_text_strip_html soup (PyVal.str title))
      (dedupeKey soup it.pdoi title) it.pdoi
  else st

/-- One message: branch 1 over its URLs, branch 2 for an uploaded PDF,
branch 3 over its URLs. -/
def processMessage (soup : Str → Str) (st : RunSt) (m : Message) : RunSt :=
  let st1 := m.links.foldl (step1 soup) st
  let st2 := stepPdf soup st1 m.pdf
  m.links.foldl (step3 soup) st2

/-- The main loop over all messages, starting from an empty `seen_keys`. -/
def runMessages (soup : Str → Str) (msgs : List Message) : RunSt :=
  msgs.foldl (processMessage soup) ([], [])

/-- The dedupe key of a record with a non-empty DOI is that DOI. -/
theorem dedupeKey_some {soup : Str → Str} {title d : Str} (hd : d ≠ []) :
    dedupeKey soup (some d) title = d := by
  unfold dedupeKey
  dsimp only
  rw [if_neg hd]

/-- What the run guarantees of every persisted record: a record with a
non-empty DOI is keyed by it, and a numeric-looking title only leaves the
direct-PDF branch or is the branch-1 host placeholder. -/
def GoodRec (r : Emitted) : Prop :=
  (∀ d, r.doi = some d → d ≠ [] → r.key = d) ∧
  (looks_numericish (PyVal.str r.title) = true →
    r.kind = SrcKind.pdfDirect ∨
    (r.kind = SrcKind.htmlLink ∧ beginsWithL "Article on ".data r.title = true))

/-- The run invariant: pairwise-distinct keys, keys recorded in
`seen_keys`, and every record good. -/
def RunInv (st : RunSt) : Prop :=
  st.2.Pairwise (fun a b => a.key ≠ b.key) ∧
  (∀ r ∈ st.2, r.key ∈ st.1) ∧
  (∀ r ∈ st.2, GoodRec r)

/-- A guarded emission preserves the run invariant when the new record is
good. -/
theorem emitStep_inv {st : RunSt} {kind : SrcKind} {url title key : Str} {doi : Option Str}
    (hinv : RunInv st)
    (hkey : ∀ d, doi = some d → d ≠ [] → key = d)
    (hgood : looks_numericish (PyVal.str title) = true →
      kind = SrcKind.pdfDirect ∨
      (kind = SrcKind.htmlLink ∧ beginsWithL "Article on ".data title = true)) :
    RunInv (emitStep st kind url title key doi) := by
  obtain ⟨hpw, hks, hgd⟩ := hinv
  unfold emitStep
  by_cases hk : key ∈ st.1
  · rw [if_pos hk]
    exact ⟨hpw, hks, hgd⟩
  · rw [if_neg hk]
    refine ⟨?_, ?_, ?_⟩
    · rw [List.pairwise_append]
      refine ⟨hpw, List.pairwise_singleton _ _, ?_⟩
      intro a ha b hb
      simp only [List.mem_singleton] at hb
      subst hb
      intro he
      have he2 : a.key = key := he
      exact hk (he2 ▸ hks a ha)
    · intro r hr
      rcases List.mem_append.mp hr with hr | hr
      · exact List.mem_cons_of_mem _ (hks r hr)
      · simp only [List.mem_singleton] at hr
        subst hr
        exact List.mem_cons_self _ _
    · intro r hr
      rcases List.mem_append.mp hr with hr | hr
      · exact hgd r hr
      · simp only [List.mem_singleton] at hr
        subst hr
        exact ⟨hkey, hgood⟩

/-- Branch 1 preserves the run invariant. -/
theorem step1_inv (soup : Str → Str) (st : RunSt) (it : LinkEntry) (h : RunInv st) :
    RunInv (step1 soup st it) := by
  unfold step1
  apply emitStep_inv h
  · intro d hd hne
    rw [hd]
    exact dedupeKey_some hne
  · intro hnum
    right
    refine ⟨rfl, ?_⟩
    unfold branch1Title at hnum ⊢
    by_cases hni : (match it.rtitle with
      | none => true
      | some t => looks_numericish (PyVal.str t)) = true
    · rw [if_pos hni]
      simp [beginsWithL, List.take_left]
    · exfalso
      rw [if_neg hni] at hnum
      cases hrt : it.rtitle with
      | none =>
        rw [hrt] at hni
        exact hni rfl
      | some t =>
        rw [hrt] at hni hnum
        simp only [Option.getD_some] at hnum
        exact hni hnum

/-- The branch-2 title is never numeric-looking: a numeric-looking
candidate is replaced by `PDF Article`. -/
theorem branch2Title_not_numericish (soup : Str → Str) (fn : Str) (better : Option Str) :
    looks_numericish (PyVal.str (branch2Title soup fn better)) = false := by
  unfold branch2Title
  by_cases hn : looks_numericish (PyVal.str (branch2TitlePre soup fn better)) = true
  · rw [if_pos hn]
    decide
  · rw [if_neg hn]
    simpa using hn

/-- Branch 2 preserves the run invariant. -/
theorem stepPdf_inv (soup : Str → Str) (st : RunSt) (p : Option PdfUpload) (h : RunInv st) :
    RunInv (stepPdf soup st p) := by
  cases p with
  | none => exact h
  | some pu =>
    unfold stepPdf
    dsimp only
    cases hpl : pu.permalink with
    | none =>
      dsimp only
      exact h
    | some pl =>
      dsimp only
      apply emitStep_inv h
      · intro d hd hne
        rw [hd]
        exact dedupeKey_some hne
      · intro hnum
        rw [branch2Title_not_numericish soup pu.fn pu.better] at hnum
        exact absurd hnum (by simp)

/-- Branch 3 preserves the run invariant. -/
theorem step3_inv (soup : Str → Str) (st : RunSt) (it : LinkEntry) (h : RunInv st) :
    RunInv (step3 soup st it) := by
  unfold step3
  by_cases hp : it.isPdf = true
  · rw [if_pos hp]
    apply emitStep_inv h
    · intro d hd hne
      rw [hd]
      exact dedupeKey_some hne
    · intro _
      left
      rfl
  · rw [if_neg hp]
    exact h

/-- A left fold of invariant-preserving steps preserves the invariant. -/
theorem foldl_inv {α : Type} (f : RunSt → α → RunSt)
    (hf : ∀ st a, RunInv st → RunInv (f st a)) (l : List α) :
    ∀ st : RunSt, RunInv st → RunInv (l.foldl f st) := by
  induction l with
  | nil =>
    intro st h
    exact h
  | cons a rest ih =>
    intro st h
    exact ih (f st a) (hf st a h)

/-- Processing one message preserves the run invariant. -/
theorem processMessage_inv (soup : Str → Str) (st : RunSt) (m : Message) (h : RunInv st) :
    RunInv (processMessage soup st m) := by
  unfold processMessage
  apply foldl_inv _ (fun st it h => step3_inv soup st it h)
  apply stepPdf_inv
  exact foldl_inv _ (fun st it h => step1_inv soup st it h) m.links st h

/-- The full run satisfies the invariant. -/
theorem runMessages_inv (soup : Str → Str) (msgs : List Message) :
    RunInv (runMessages soup msgs) := by
  unfold runMessages
  apply foldl_inv _ (fun st m h => processMessage_inv soup st m h)
  refine ⟨List.Pairwise.nil, ?_, ?_⟩ <;> intro r hr <;> exact absurd hr (List.not_mem_nil r)

/-- C3: in a full run, the persisted records carry pairwise-distinct dedupe
keys, and every record with a non-empty DOI is keyed by exactly that DOI
(so two records sharing a non-null DOI share a key and at most the first is
persisted), across all three emission branches. -/
theorem dedupe_key_unique_per_run (soup : Str → Str) (msgs : List Message) :
    ((runMessages soup msgs).2.Pairwise (fun a b => a.key ≠ b.key)) ∧
    ∀ r ∈ (runMessages soup msgs).2, ∀ d, r.doi = some d → d ≠ [] → r.key = d := by
  have h := runMessages_inv soup msgs
  exact ⟨h.1, fun r hr => (h.2.2 r hr).1⟩

/-- Witness for `dedupe_key_unique_per_run`: two links resolving to the
same DOI — only the first is persisted and its key is the DOI. -/
theorem dedupe_key_unique_per_run_witness :
    ((runMessages (fun s => s)
      [⟨[⟨"https://a.com/x".data, some "Title One".data, some "10.1234/abc".data,
          false, none, none⟩,
         ⟨"https://b.com/y".data, some "Title Two".data, some "10.1234/abc".data,
          false, none, none⟩], none⟩]).2.Pairwise (fun a b => a.key ≠ b.key)) ∧
    ∀ r ∈ (runMessages (fun s => s)
      [⟨[⟨"https://a.com/x".data, some "Title One".data, some "10.1234/abc".data,
          false, none, none⟩,
         ⟨"https://b.com/y".data, some "Title Two".data, some "10.1234/abc".data,
          false, none, none⟩], none⟩]).2, ∀ d, r.doi = some d → d ≠ [] → r.key = d :=
  dedupe_key_unique_per_run (fun s => s)
    [⟨[⟨"https://a.com/x".data, some "Title One".data, some "10.1234/abc".data,
        false, none, none⟩,
       ⟨"https://b.com/y".data, some "Title Two".data, some "10.1234/abc".data,
        false, none, none⟩], none⟩]

/-- C6 (amended): a persisted record whose title is numeric-looking can
only come from the direct-PDF branch (which has no numeric-looking check)
or be the branch-1 `Article on {host}` placeholder; the uploaded-PDF branch
replaces a numeric-looking title by the fixed string `PDF Article`, not a
host-based placeholder.  (The unamended claim is refuted by
`numericish_title_reaches_store`.) -/
theorem numericish_replaced_per_branch (soup : Str → Str) (msgs : List Message) :
    ∀ r ∈ (runMessages soup msgs).2, looks_numericish (PyVal.str r.title) = true →
      r.kind = SrcKind.pdfDirect ∨
      (r.kind = SrcKind.htmlLink ∧ beginsWithL "Article on ".data r.title = true) := by
  have h := runMessages_inv soup msgs
  exact fun r hr hn => (h.2.2 r hr).2 hn

/-- C6 counterexample: a direct PDF link whose fetched title is the digit
string `1234567890` is persisted with that numeric-looking title — the
direct-PDF branch never replaces it. -/
theorem numericish_title_reaches_store :
    ∃ r ∈ (runMessages (fun s => s)
      [⟨[⟨"https://a.com/p.pdf".data, none, none, true, some "1234567890".data, none⟩],
        none⟩]).2,
      looks_numericish (PyVal.str r.title) = true := by
  decide

/-- Witness for `numericish_replaced_per_branch`: the numeric-looking
record of a concrete run is from the direct-PDF branch. -/
theorem numericish_replaced_per_branch_witness :
    (⟨SrcKind.pdfDirect, "https://b.com/q.pdf".data, "20230101".data, "20230101".data,
      none⟩ : Emitted).kind = SrcKind.pdfDirect ∨
    ((⟨SrcKind.pdfDirect, "https://b.com/q.pdf".data, "20230101".data, "20230101".data,
      none⟩ : Emitted).kind = SrcKind.htmlLink ∧
     beginsWithL "Article on ".data
       (⟨SrcKind.pdfDirect, "https://b.com/q.pdf".data, "20230101".data, "20230101".data,
        none⟩ : Emitted).title = true) :=
  numericish_replaced_per_branch (fun s => s)
    [⟨[⟨"https://b.com/q.pdf".data, some "A Fine Title".data, none, true,
        some "20230101".data, none⟩], none⟩]
    ⟨SrcKind.pdfDirect, "https://b.com/q.pdf".data, "20230101".data, "20230101".data, none⟩
    (by decide) (by decide)

/-- `CELL_JOURNAL_MAP` from the source. -/
def CELL_JOURNAL_MAP : List (Str × Str) :=
  [("cell".data, "Cell".data), ("cell-reports".data, "Cell Reports".data),
   ("cell-metabolism".data, "Cell Metabolism".data),
   ("cell-host-microbe".data, "Cell Host & Microbe".data),
   ("cell-systems".data, "Cell Systems".data), ("cancer-cell".data, "Cancer Cell".data),
   ("cell-chemical-biology".data, "Cell Chemical Biology".data),
   ("immunity".data, "Immunity".data)]

/-- `OUP_JOURNAL_MAP` from the source. -/
def OUP_JOURNAL_MAP : List (Str × Str) :=
  [("femsre".data, "FEMS Microbiology Reviews".data)]

/-- `OUP_JOURNAL_ABBREV` from the source. -/
def OUP_JOURNAL_ABBREV : List (Str × Str) :=
  [("femsre".data, "FEMS Microbiol Rev".data)]

/-- Python `dict.get`. -/
def mapLookup (m : List (Str × Str)) (k : Str) : Option Str :=
  (m.find? (fun p => decide (p.1 = k))).map (fun p => p.2)

/-- Python `list.index` as an `Option` (a `ValueError` is `none`). -/
def listIndex (x : Str) : List Str → Option Nat
  | [] => none
  | y :: rest => if y = x then some 0 else (listIndex x rest).map (· + 1)

/-- The path of a parsed URL (empty for the rare parse failure the source
leaves unguarded). -/
def pathOf (url : Str) : Str :=
  match pyUrlparse url with
  | some p => p.path
  | none => []

/-- The non-empty path segments `[seg for seg in p.path.split("/") if seg]`. -/
def pathSegs (url : Str) : List Str :=
  (pySplitSep '/' (pathOf url)).filter (fun s => !decide (s = []))

/-- Python `str.title()` restricted to ASCII letters. -/
def pyTitleAux (prevAlpha : Bool) : Str → Str
  | [] => []
  | c :: rest =>
    (if isAsciiAlpha c then (if prevAlpha then pyLowerChar c else pyUpperChar c) else c) ::
      pyTitleAux (isAsciiAlpha c) rest

/-- Python `str.title()`. -/
def pyTitle (s : Str) : Str := pyTitleAux false s

/-- First value of a key in `parse_qs(qs)` (no blank values kept). -/
def parse_qs_first (qs : Str) (key : Str) : Option Str :=
  (((parse_qsl qs).filter (fun kv => !decide (kv.2 = []))).find?
    (fun kv => decide (kv.1 = key))).map (fun kv => kv.2)

/-- A fetched, parsed HTML page as the cascade reads it: the response URL
and the `BeautifulSoup` lookups the source performs, each as recorded
data.  `metaName nm`/`metaProp nm` is the `content` attribute of a present
`<meta>` tag, `ldRaw` the raw JSON-LD headline `find_title_in_jsonld`
would find, `doiInSoup` the DOI `find_doi_in_soup` would find,
`titleString` the `<title>` string, `h1Text` the text of the first
`<h1>`, and `canonicalHref` the raw canonical link `href`. -/
structure Page where
  respUrl : Str
  canonicalHref : Option Str
  metaName : Str → Option Str
  metaProp : Str → Option Str
  ldRaw : Option Str
  doiInSoup : Option Str
  titleString : Option Str
  h1Text : Option Str

/-- The network and environment oracles of the resolution cascade: each
field stands for one effectful helper of the source, with `none`/`.error`
covering both missing data and a caught network failure. -/
structure Env where
  forceApi : Bool
  contentType : Str → Option Str
  pdfTitle : Str → Option Str × Option Str
  crossref : Str → Option Str
  biorxiv : Str → Option Str
  crossrefSearch : Str → Str → Option Str × Option Str
  crossrefContainer : Str → Str → Option Str × Option Str
  crossrefStruct : Str → Str → Str → Str → Option Str × Option Str
  pubmed : Str → Str → Str → Option Str
  fetchPage : Str → Except Unit Page
  soup : Str → Str


/-- `infer_from_url` from the source (lines 837–851). -/
def infer_from_url (soup : Str → Str) (url : Str) : Option Str :=
  match pyUrlparse url with
  | none => none
  | some p =>
    match (["title".data, "headline".data, "paper".data, "article".data,
            "name".data].filterMap (fun k => parse_qs_first p.query k)).head? with
    | some v => some (clean_text_strip_html soup (PyVal.str (pyUnquote v)))
    | none =>
      match ((pySplitSep '/' p.path).filter (fun s => !decide (s = []))).getLast? with
      | some leaf0 =>
        let leaf :=
          match strRfind '.' leaf0 with
          | some i => leaf0.take i
          | none => leaf0
        some (pyTitle (clean_text_strip_html soup (PyVal.str (pyUnquote
          (leaf.map (fun c => if c = '-' || c = '_' then ' ' else c))))))
      | none => some (p.netloc.takeWhile (fun c => !decide (c = ':')))

/-- The observable network calls of one `resolve` run, in order. -/
inductive Event where
  | ctProbe : Str → Event
  | pdfGet : Str → Event
  | crossrefDoi : Str → Event
  | biorxivDetails : Str → Event
  | crossrefQuery : Event
  | pubmedQuery : Event
  | pageGet : Str → Event
deriving DecidableEq

/-- A stage outcome: a returned `(title, doi)` pair or a fall-through, with
the network events the stage performed. -/
abbrev StageRes := Option (Str × Option Str) × List Event

/-- Sequence two stages: the second runs only when the first falls
through, and events accumulate. -/
def chainOr (a : StageRes) (b : Unit → StageRes) : StageRes :=
  match a.1 with
  | some r => (some r, a.2)
  | none =>
    let bb := b ()
    (bb.1, a.2 ++ bb.2)

/-- `is_direct_pdf_url` from the source (lines 235–237), with its
content-type probe event. -/
def is_direct_pdf_url (env : Env) (url : Str) : Bool × List Event :=
  (containsSub "application/pdf".data ((env.contentType url).getD []) ||
     endsWithL ".pdf".data (pyLower url),
   [Event.ctProbe url])

/-- `biorxiv_title_from_api(d) or try_crossref_title(d)`: the Crossref call
happens only when the bioRxiv API yields nothing. -/
def doiLookupBio (env : Env) (d : Str) : Option Str × List Event :=
  match env.biorxiv d with
  | some t => (some t, [Event.biorxivDetails d])
  | none => (env.crossref d, [Event.biorxivDetails d, Event.crossrefDoi d])

/-- `try_crossref_title` as a traced call. -/
def doiLookupCrossref (env : Env) (d : Str) : Option Str × List Event :=
  (env.crossref d, [Event.crossrefDoi d])

/-- `safe_meta` from the source (lines 365–370). -/
def safe_meta (env : Env) (page : Page) : List Str → Option Str
  | [] => none
  | nm :: rest =>
    match page.metaName nm with
    | some c =>
      if c ≠ [] then some (clean_text_strip_html env.soup (PyVal.str c))
      else safe_meta env page rest
    | none => safe_meta env page rest

/-- `find_title_in_jsonld` (lines 412–433): the located raw headline,
cleaned. -/
def find_title_in_jsonld (env : Env) (page : Page) : Option Str :=
  page.ldRaw.map (fun r => clean_text_strip_html env.soup (PyVal.str r))

/-- The DOI half of the bioRxiv/medRxiv publisher rule: page DOI first,
then a DOI in the URL, each resolved through the bioRxiv API with Crossref
fallback. -/
def pubBiorxivDoi (env : Env) (url : Str) (page : Page) : StageRes :=
  let s1 : StageRes :=
    match page.doiInSoup with
    | some d =>
      let td := doiLookupBio env d
      (match td.1 with
       | some t => some (clean_text_strip_html env.soup (PyVal.str t), some d)
       | none => none, td.2)
    | none => (none, [])
  chainOr s1 (fun _ =>
    match doiSearchMatch url with
    | some d =>
      let td := doiLookupBio env d
      (match td.1 with
       | some t => some (clean_text_strip_html env.soup (PyVal.str t), some d)
       | none => none, td.2)
    | none => (none, []))

/-- The bioRxiv/medRxiv publisher rule (source lines 472–487). -/
def pubBiorxiv (env : Env) (url : Str) (page : Page) : StageRes :=
  match page.metaName "citation_title".data with
  | some c =>
    if c ≠ [] then
      (some (clean_text_strip_html env.soup (PyVal.str c), page.doiInSoup), [])
    else pubBiorxivDoi env url page
  | none => pubBiorxivDoi env url page

/-- The Cell/Elsevier publisher rule (source lines 489–511). -/
def pubCell (env : Env) (url : Str) (page : Page) : StageRes :=
  let cl := fun (v : Str) => clean_text_strip_html env.soup (PyVal.str v)
  let sMeta : StageRes :=
    (match safe_meta env page ["citation_title".data, "dc.title".data, "DC.title".data,
        "prism.title".data] with
     | some t => if t ≠ [] then some (t, page.doiInSoup) else none
     | none => none, [])
  let sLd : StageRes :=
    (match find_title_in_jsonld env page with
     | some jl => if jl ≠ [] then some (cl jl, page.doiInSoup) else none
     | none => none, [])
  let sDoi : StageRes :=
    match page.doiInSoup with
    | some d =>
      let td := doiLookupCrossref env d
      (match td.1 with
       | some tt => some (cl tt, some d)
       | none => none, td.2)
    | none => (none, [])
  let sSearch : StageRes :=
    let parts := pathSegs url
    let container := mapLookup CELL_JOURNAL_MAP (parts.headD [])
    let leaf := (parts.getLast?).getD []
    let sA : StageRes :=
      match container with
      | some c =>
        if leaf ≠ [] then
          let td := env.crossrefContainer leaf c
          (match td.1 with
           | some t => some (cl t, td.2)
           | none => none, [Event.crossrefQuery])
        else (none, [])
      | none => (none, [])
    chainOr sA (fun _ =>
      let hint := if leaf ≠ [] then leaf else url
      let td1 := env.crossrefSearch hint "cell.com".data
      match td1.1 with
      | some t => (some (cl t, td1.2), [Event.crossrefQuery])
      | none =>
        let td2 := env.crossrefSearch hint "sciencedirect.com".data
        (match td2.1 with
         | some t => some (cl t, td2.2)
         | none => none, [Event.crossrefQuery, Event.crossrefQuery]))
  chainOr sMeta (fun _ => chainOr sLd (fun _ => chainOr sDoi (fun _ => sSearch)))

/-- The segment-indexed part of the Oxford Academic publisher rule (source
lines 523–545), after `parts.index("article")` has succeeded at `j`. -/
def pubOupSegs (env : Env) (page : Page) (jname : Option Str) (parts : List Str)
    (j : Nat) : StageRes :=
  let cl := fun (v : Str) => clean_text_strip_html env.soup (PyVal.str v)
  let slug := if 1 ≤ j then parts.getD (j - 1) [] else []
  let vol := parts.getD (j + 1) []
  let iss := parts.getD (j + 2) []
  let pg := parts.getD (j + 3) []
  let container :=
    match jname with
    | some jn => if jn ≠ [] then jn
        else (mapLookup OUP_JOURNAL_MAP slug).getD
          (slug.map (fun c => if c = '-' then ' ' else c))
    | none => (mapLookup OUP_JOURNAL_MAP slug).getD
        (slug.map (fun c => if c = '-' then ' ' else c))
  let sStruct : StageRes :=
    let td := env.crossrefStruct container vol iss pg
    (match td.1 with
     | some t => some (cl t, td.2)
     | none => none, [Event.crossrefQuery])
  let leaf := (parts.getLast?).getD []
  let sCont : StageRes :=
    if container ≠ [] && (vol ≠ [] || iss ≠ [] || pg ≠ []) then
      let qry := joinSep [' '] ([leaf, vol, iss, pg].filter (fun x => !decide (x = [])))
      let td := env.crossrefContainer (if qry ≠ [] then qry else leaf) container
      (match td.1 with
       | some t => some (cl t, td.2)
       | none => none, [Event.crossrefQuery])
    else (none, [])
  let sBib : StageRes :=
    let bib := joinSep [' '] ([container, vol, iss, pg].filter (fun x => !decide (x = [])))
    if bib ≠ [] then
      let td := env.crossrefSearch bib "academic.oup.com".data
      (match td.1 with
       | some t => some (cl t, td.2)
       | none => none, [Event.crossrefQuery])
    else (none, [])
  let sPubmed : StageRes :=
    match env.pubmed container vol pg with
    | some t2 => (some (cl t2, none), [Event.pubmedQuery])
    | none =>
      (match env.pubmed ((mapLookup OUP_JOURNAL_ABBREV slug).getD []) vol pg with
       | some t2 => some (cl t2, none)
       | none => none, [Event.pubmedQuery, Event.pubmedQuery])
  chainOr sStruct (fun _ => chainOr sCont (fun _ => chainOr sBib (fun _ => sPubmed)))

/-- The Oxford Academic publisher rule (source lines 513–546). -/
def pubOup (env : Env) (url : Str) (page : Page) : StageRes :=
  let sMeta : StageRes :=
    (match safe_meta env page ["citation_title".data, "dc.title".data, "DC.title".data,
        "prism.title".data] with
     | some t => if t ≠ [] then some (t, page.doiInSoup) else none
     | none => none, [])
  chainOr sMeta (fun _ =>
    let jname := safe_meta env page ["citation_journal_title".data]
    let parts := pathSegs url
    match listIndex "article".data parts with
    | none => (none, [])
    | some j => pubOupSegs env page jname parts j)

/-- `publisher_specific_title_and_doi` from the source (lines 469–548),
with `soup` always present as `resolve` calls it. -/
def publisher_specific_title_and_doi (env : Env) (url : Str) (page : Page) : StageRes :=
  let host := pyLower (hostOf url)
  chainOr
    (if containsSub "biorxiv.org".data host || containsSub "medrxiv.org".data host then
      pubBiorxiv env url page
    else (none, []))
    (fun _ => chainOr
      (if containsSub "cell.com".data host || containsSub "sciencedirect.com".data host ||
          containsSub "elsevier.com".data host then
        pubCell env url page
      else (none, []))
      (fun _ =>
        if containsSub "academic.oup.com".data host then pubOup env url page
        else (none, [])))

/-- The `SCHOLAR_META_CANDIDATES` lookups, in order (source lines 373–382). -/
def scholarMetaVals (page : Page) : List (Option Str) :=
  [page.metaName "citation_title".data, page.metaName "dc.title".data,
   page.metaName "DC.title".data, page.metaName "prism.title".data,
   page.metaProp "og:title".data, page.metaName "og:title".data,
   page.metaName "twitter:title".data, page.metaProp "twitter:title".data]

/-- The generic scholarly-meta loop of `resolve` (lines 815–819): the first
candidate whose cleaned content is non-empty. -/
def metaLoop (env : Env) : List (Option Str) → Option Str
  | [] => none
  | c :: rest =>
    match c with
    | some v =>
      if v ≠ [] then
        let tt := clean_text_strip_html env.soup (PyVal.str v)
        if tt ≠ [] then some tt else metaLoop env rest
      else metaLoop env rest
    | none => metaLoop env rest

/-- The fallback `clean_text_strip_html(infer_from_url(u) or u)` used by
all three no-result ends of `resolve`. -/
def inferFallback (env : Env) (u : Str) : Str :=
  clean_text_strip_html env.soup (PyVal.str (match infer_from_url env.soup u with
    | some t => if t = [] then u else t
    | none => u))

/-- The once-only canonical hop of `resolve` (lines 779–792): the page to
use, the current URL, and the events of the extra fetch. -/
def resolveHop (env : Env) (url : Str) (page0 : Page) : Page × (Str × List Event) :=
  match page0.canonicalHref with
  | some href0 =>
    let href := pyStrip href0
    if href ≠ [] && href ≠ page0.respUrl then
      match canonicalize_url href with
      | some canon =>
        if canon ≠ url then
          match env.fetchPage canon with
          | .ok page1 => (page1, (page1.respUrl, [Event.pageGet canon]))
          | .error _ => (page0, (page0.respUrl, [Event.pageGet canon]))
        else (page0, (page0.respUrl, []))
      | none => (page0, (page0.respUrl, []))
    else (page0, (page0.respUrl, []))
  | none => (page0, (page0.respUrl, []))

/-- The publisher stage of `resolve` (line 795): a publisher title, its DOI
defaulting to the page DOI. -/
def stagePub (env : Env) (current_url : Str) (page : Page) : StageRes :=
  let pr := publisher_specific_title_and_doi env current_url page
  (match pr.1 with
   | some (t, d) =>
     if t ≠ [] then
       some (t, match d with
         | some dd => if dd = [] then page.doiInSoup else some dd
         | none => page.doiInSoup)
     else none
   | none => none, pr.2)

/-- The generic scholarly-meta stage of `resolve` (lines 799–803). -/
def stageMeta (env : Env) (page : Page) : StageRes :=
  (match metaLoop env (scholarMetaVals page) with
   | some tt => some (tt, page.doiInSoup)
   | none => none, [])

/-- The JSON-LD stage of `resolve` (lines 805–809). -/
def stageLd (env : Env) (page : Page) : StageRes :=
  (match find_title_in_jsonld env page with
   | some jl =>
     if jl ≠ [] then
       (let jj := clean_text_strip_html env.soup (PyVal.str jl)
        if jj ≠ [] then some (jj, page.doiInSoup) else none)
     else none
   | none => none, [])

/-- The `<title>` stage of `resolve` (lines 811–813). -/
def stageTitle (env : Env) (page : Page) : StageRes :=
  (match page.titleString with
   | some ts =>
     if ts ≠ [] then
       (let tt := clean_text_strip_html env.soup (PyVal.str ts)
        if tt ≠ [] then some (tt, page.doiInSoup) else none)
     else none
   | none => none, [])

/-- The `<h1>` stage of `resolve` (lines 814–817). -/
def stageH1 (env : Env) (page : Page) : StageRes :=
  (match page.h1Text with
   | some h =>
     (let tt := clean_text_strip_html env.soup (PyVal.str h)
      if tt ≠ [] then some (tt, page.doiInSoup) else none)
   | none => none, [])

/-- The page-DOI-to-Crossref stage of `resolve` (lines 819–823). -/
def stagePageDoi (env : Env) (page : Page) : StageRes :=
  match page.doiInSoup with
  | some d =>
    (match env.crossref d with
     | some t2 => some (clean_text_strip_html env.soup (PyVal.str t2), some d)
     | none => none, [Event.crossrefDoi d])
  | none => (none, [])

/-- The Crossref free-form-search stage of `resolve` (lines 825–830). -/
def stageSearch (env : Env) (current_url : Str) : StageRes :=
  let leaf := ((pySplitSep '/' (pathOf current_url)).getLast?).getD []
  let hint := if leaf ≠ [] then leaf else current_url
  let td := env.crossrefSearch hint (pyLower (hostOf current_url))
  (match td.1 with
   | some t3 => some (clean_text_strip_html env.soup (PyVal.str t3), td.2)
   | none => none, [Event.crossrefQuery])

/-- The HTML stages of `resolve` after a successful page fetch: canonical
hop, publisher rule, scholarly meta, JSON-LD, `<title>`, `<h1>`, page DOI
through Crossref, Crossref free-form search, URL inference. -/
def resolveWithPage (env : Env) (url : Str) (page0 : Page) : (Str × Option Str) × List Event :=
  let hop := resolveHop env url page0
  let page := hop.1
  let current_url := hop.2.1
  let hopEv := hop.2.2
  let chain := chainOr (stagePub env current_url page) (fun _ =>
    chainOr (stageMeta env page) (fun _ => chainOr (stageLd env page) (fun _ =>
    chainOr (stageTitle env page) (fun _ => chainOr (stageH1 env page) (fun _ =>
    chainOr (stagePageDoi env page) (fun _ => stageSearch env current_url))))))
  match chain.1 with
  | some r => (r, hopEv ++ chain.2)
  | none => ((inferFallback env current_url, none), hopEv ++ chain.2)

/-- The Cell/Elsevier part of the `FORCE_API_TITLES` path (lines 745–752). -/
def forceCell (env : Env) (url : Str) : StageRes :=
  let host := pyLower (hostOf url)
  let parts := pathSegs url
  let cl := fun (v : Str) => clean_text_strip_html env.soup (PyVal.str v)
  if containsSub "cell.com".data host || containsSub "sciencedirect.com".data host ||
      containsSub "elsevier.com".data host then
    let container := mapLookup CELL_JOURNAL_MAP (parts.headD [])
    let leaf := (parts.getLast?).getD []
    let sA : StageRes :=
      match container with
      | some c =>
        if leaf ≠ [] then
          let td := env.crossrefContainer leaf c
          (match td.1 with
           | some t => some (cl t, td.2)
           | none => none, [Event.crossrefQuery])
        else (none, [])
      | none => (none, [])
    chainOr sA (fun _ =>
      let td := env.crossrefSearch (if leaf ≠ [] then leaf else url) host
      (match td.1 with
       | some t => some (cl t, td.2)
       | none => none, [Event.crossrefQuery]))
  else (none, [])

/-- The Oxford part of the `FORCE_API_TITLES` path (lines 754–767). -/
def forceOup (env : Env) (url : Str) : StageRes :=
  let host := pyLower (hostOf url)
  let parts := pathSegs url
  let cl := fun (v : Str) => clean_text_strip_html env.soup (PyVal.str v)
  if containsSub "academic.oup.com".data host then
    match listIndex "article".data parts with
    | none => (none, [])
    | some j =>
      let slug := if 1 ≤ j then parts.getD (j - 1) [] else []
      let vol := parts.getD (j + 1) []
      let iss := parts.getD (j + 2) []
      let pg := parts.getD (j + 3) []
      let container := (mapLookup OUP_JOURNAL_MAP slug).getD
        (slug.map (fun c => if c = '-' then ' ' else c))
      let td := env.crossrefStruct container vol iss pg
      match td.1 with
      | some t => (some (cl t, td.2), [Event.crossrefQuery])
      | none =>
        match env.pubmed container vol pg with
        | some t => (some (cl t, td.2), [Event.crossrefQuery, Event.pubmedQuery])
        | none =>
          (match env.pubmed ((mapLookup OUP_JOURNAL_ABBREV slug).getD []) vol pg with
           | some t => some (cl t, td.2)
           | none => none, [Event.crossrefQuery, Event.pubmedQuery, Event.pubmedQuery])
  else (none, [])

/-- The `FORCE_API_TITLES` path of `resolve` (lines 741–772): API-only
resolution with the URL-inference fallback. -/
def forceResolve (env : Env) (url : Str) : (Str × Option Str) × List Event :=
  let chain := chainOr (forceCell env url) (fun _ => forceOup env url)
  match chain.1 with
  | some r => (r, chain.2)
  | none => ((inferFallback env url, none), chain.2)

/-- The direct-PDF stage of `resolve` (lines 728–731). -/
def resolveStagePdf (env : Env) (url : Str) : StageRes :=
  let pdf := is_direct_pdf_url env url
  if pdf.1 then
    let td := env.pdfTitle url
    (match td.1 with
     | some t =>
       if t ≠ [] then some (clean_text_strip_html env.soup (PyVal.str t), td.2) else none
     | none => none, pdf.2 ++ [Event.pdfGet url])
  else (none, pdf.2)

/-- The DOI-in-URL stage of `resolve` (lines 733–739): the bioRxiv API for
bioRxiv hosts, Crossref otherwise. -/
def resolveStageDoi (env : Env) (url : Str) : StageRes :=
  match doiSearchMatch url with
  | some doi =>
    let td :=
      if containsSub "biorxiv.org".data (pyLower (hostOf url)) then doiLookupBio env doi
      else doiLookupCrossref env doi
    (match td.1 with
     | some t => some (clean_text_strip_html env.soup (PyVal.str t), some doi)
     | none => none, td.2)
  | none => (none, [])

/-- `resolve_best_title_and_doi_for_url` from the source (lines 726–835),
returning the `(title, doi)` pair and the trace of network calls. -/
def resolve_best_title_and_doi_for_url (env : Env) (url : Str) :
    (Str × Option Str) × List Event :=
  let c1 := chainOr (resolveStagePdf env url) (fun _ => resolveStageDoi env url)
  match c1.1 with
  | some r => (r, c1.2)
  | none =>
    if env.forceApi then
      let f := forceResolve env url
      (f.1, c1.2 ++ f.2)
    else
      match env.fetchPage url with
      | .error _ => ((inferFallback env url, none), c1.2 ++ [Event.pageGet url])
      | .ok page0 =>
        let r := resolveWithPage env url page0
        (r.1, c1.2 ++ Event.pageGet url :: r.2)

/-- `chainOr` when the first stage falls through. -/
theorem chainOr_none {a : StageRes} {b : Unit → StageRes} (h : a.1 = none) :
    chainOr a b = ((b ()).1, a.2 ++ (b ()).2) := by
  unfold chainOr
  rw [h]

/-- `chainOr` when the first stage returns. -/
theorem chainOr_some {a : StageRes} {b : Unit → StageRes} {r : Str × Option Str}
    (h : a.1 = some r) : chainOr a b = (some r, a.2) := by
  unfold chainOr
  rw [h]

/-- The direct-PDF stage performs no HTML page fetch. -/
theorem resolveStagePdf_no_pageGet (env : Env) (url u : Str) :
    Event.pageGet u ∉ (resolveStagePdf env url).2 := by
  unfold resolveStagePdf is_direct_pdf_url
  dsimp only
  by_cases hp : (containsSub "application/pdf".data ((env.contentType url).getD []) ||
      endsWithL ".pdf".data (pyLower url)) = true
  · rw [if_pos hp]
    intro hm
    simp at hm
  · rw [if_neg hp]
    intro hm
    simp at hm

/-- The DOI-in-URL stage performs no HTML page fetch. -/
theorem resolveStageDoi_no_pageGet (env : Env) (url u : Str) :
    Event.pageGet u ∉ (resolveStageDoi env url).2 := by
  unfold resolveStageDoi
  cases hd : doiSearchMatch url with
  | none =>
    intro hm
    simp at hm
  | some d =>
    dsimp only
    by_cases hb : containsSub "biorxiv.org".data (pyLower (hostOf url)) = true
    · rw [if_pos hb]
      unfold doiLookupBio
      cases hbio : env.biorxiv d with
      | some t =>
        intro hm
        simp at hm
      | none =>
        intro hm
        simp at hm
    · rw [if_neg hb]
      unfold doiLookupCrossref
      intro hm
      simp at hm

/-- With a DOI-shaped substring in the URL, the DOI stage performs a
DOI-based bibliographic lookup (Crossref, or the bioRxiv API first for
bioRxiv hosts). -/
theorem resolveStageDoi_lookup (env : Env) (url : Str) {d : Str}
    (hd : doiSearchMatch url = some d) :
    Event.crossrefDoi d ∈ (resolveStageDoi env url).2 ∨
    Event.biorxivDetails d ∈ (resolveStageDoi env url).2 := by
  unfold resolveStageDoi
  rw [hd]
  dsimp only
  by_cases hb : containsSub "biorxiv.org".data (pyLower (hostOf url)) = true
  · rw [if_pos hb]
    unfold doiLookupBio
    cases hbio : env.biorxiv d with
    | some t =>
      right
      simp
    | none =>
      right
      simp
  · rw [if_neg hb]
    unfold doiLookupCrossref
    left
    simp

/-- If `e` does not occur in `A`, any decomposition of `A ++ B` at an
occurrence of `e` keeps all of `A` inside the prefix. -/
theorem mem_pre_of_append_eq {α : Type} {A B pre post : List α} {e x : α}
    (h : A ++ B = pre ++ e :: post) (he : e ∉ A) (hx : x ∈ A) : x ∈ pre := by
  induction A generalizing pre with
  | nil => exact absurd hx (List.not_mem_nil x)
  | cons a A2 ih =>
    cases pre with
    | nil =>
      rw [List.cons_append, List.nil_append] at h
      injection h with h1 h2
      exact absurd (h1 ▸ List.mem_cons_self a A2) he
    | cons p pre2 =>
      rw [List.cons_append, List.cons_append] at h
      injection h with h1 h2
      rcases List.mem_cons.mp hx with hx | hx
      · rw [hx, h1]
        exact List.mem_cons_self p pre2
      · exact List.mem_cons_of_mem p
          (ih h2 (fun hm => he (List.mem_cons_of_mem a hm)) hx)

/-- C8: for every URL containing a DOI-shaped substring, every HTML page
fetch in the resolution trace is preceded by a DOI-based bibliographic
lookup (a Crossref works-by-DOI call or a bioRxiv details call). -/
theorem doi_lookup_before_page_fetch (env : Env) (url : Str) (d : Str)
    (hd : doiSearchMatch url = some d) :
    ∀ pre post u,
      (resolve_best_title_and_doi_for_url env url).2 = pre ++ Event.pageGet u :: post →
      ∃ dd, Event.crossrefDoi dd ∈ pre ∨ Event.biorxivDetails dd ∈ pre := by
  intro pre post u htr
  unfold resolve_best_title_and_doi_for_url at htr
  dsimp only at htr
  cases hc1 : (resolveStagePdf env url).1 with
  | some r =>
    rw [chainOr_some hc1] at htr
    dsimp only at htr
    exfalso
    have hm : Event.pageGet u ∈ (resolveStagePdf env url).2 := by
      rw [htr]
      simp
    exact resolveStagePdf_no_pageGet env url u hm
  | none =>
    rw [chainOr_none hc1] at htr
    dsimp only at htr
    cases hc2 : (resolveStageDoi env url).1 with
    | some r2 =>
      rw [hc2] at htr
      dsimp only at htr
      exfalso
      have hm : Event.pageGet u ∈
          (resolveStagePdf env url).2 ++ (resolveStageDoi env url).2 := by
        rw [htr]
        simp
      rcases List.mem_append.mp hm with h | h
      · exact resolveStagePdf_no_pageGet env url u h
      · exact resolveStageDoi_no_pageGet env url u h
    | none =>
      rw [hc2] at htr
      dsimp only at htr
      have step : ∀ B : List Event,
          ((resolveStagePdf env url).2 ++ (resolveStageDoi env url).2) ++ B =
            pre ++ Event.pageGet u :: post →
          ∃ dd, Event.crossrefDoi dd ∈ pre ∨ Event.biorxivDetails dd ∈ pre := by
        intro B hB
        have hno : Event.pageGet u ∉
            (resolveStagePdf env url).2 ++ (resolveStageDoi env url).2 := by
          intro hm
          rcases List.mem_append.mp hm with h | h
          · exact resolveStagePdf_no_pageGet env url u h
          · exact resolveStageDoi_no_pageGet env url u h
        rcases resolveStageDoi_lookup env url hd with h | h
        · exact ⟨d, Or.inl (mem_pre_of_append_eq hB hno (List.mem_append_right _ h))⟩
        · exact ⟨d, Or.inr (mem_pre_of_append_eq hB hno (List.mem_append_right _ h))⟩
      by_cases hf : env.forceApi = true
      · rw [if_pos hf] at htr
        dsimp only at htr
        exact step _ htr
      · rw [if_neg hf] at htr
        cases hfp : env.fetchPage url with
        | error e =>
          rw [hfp] at htr
          dsimp only at htr
          exact step _ htr
        | ok page0 =>
          rw [hfp] at htr
          dsimp only at htr
          exact step _ htr

/-- An environment in which every network operation fails. -/
def envAllFail : Env :=
  ⟨false, fun _ => none, fun _ => (none, none), fun _ => none, fun _ => none,
   fun _ _ => (none, none), fun _ _ => (none, none), fun _ _ _ _ => (none, none),
   fun _ _ _ => none, fun _ => .error (), fun _ => []⟩

/-- Witness for `doi_lookup_before_page_fetch`: in a failing environment
the trace is content-type probe, Crossref DOI lookup, then the page fetch,
and the lookup indeed precedes the fetch. -/
theorem doi_lookup_before_page_fetch_witness :
    ∃ dd, Event.crossrefDoi dd ∈
        [Event.ctProbe "https://example.com/10.1234/abcd".data,
         Event.crossrefDoi "10.1234/abcd".data] ∨
      Event.biorxivDetails dd ∈
        [Event.ctProbe "https://example.com/10.1234/abcd".data,
         Event.crossrefDoi "10.1234/abcd".data] :=
  doi_lookup_before_page_fetch envAllFail "https://example.com/10.1234/abcd".data
    "10.1234/abcd".data (by decide)
    [Event.ctProbe "https://example.com/10.1234/abcd".data,
     Event.crossrefDoi "10.1234/abcd".data] []
    "https://example.com/10.1234/abcd".data (by decide)

/-- C4 (amended): when every network operation fails — the page fetch
raises, every API lookup yields nothing — `resolve` still returns a value
(the model is a total function: no exception escapes) and that value is the
cleaned URL-inferred fallback title with no DOI.  (The claimed non-empty
title is refuted by `resolve_returns_empty_title`.) -/
theorem resolve_network_failure_falls_back (env : Env) (url : Str)
    (hforce : env.forceApi = false)
    (hfetch : ∀ u, env.fetchPage u = Except.error ())
    (hcr : ∀ dd, env.crossref dd = none)
    (hbio : ∀ dd, env.biorxiv dd = none)
    (hpdf : ∀ u, (env.pdfTitle u).1 = none) :
    (resolve_best_title_and_doi_for_url env url).1 = (inferFallback env url, none) := by
  have h1 : (resolveStagePdf env url).1 = none := by
    unfold resolveStagePdf
    dsimp only
    by_cases hp : (is_direct_pdf_url env url).1 = true
    · rw [if_pos hp, hpdf url]
    · rw [if_neg hp]
  have h2 : (resolveStageDoi env url).1 = none := by
    unfold resolveStageDoi
    cases hd : doiSearchMatch url with
    | none => rfl
    | some dd =>
      dsimp only
      by_cases hb : containsSub "biorxiv.org".data (pyLower (hostOf url)) = true
      · rw [if_pos hb]
        unfold doiLookupBio
        rw [hbio dd, hcr dd]
      · rw [if_neg hb]
        unfold doiLookupCrossref
        rw [hcr dd]
  unfold resolve_best_title_and_doi_for_url
  dsimp only
  rw [chainOr_none h1]
  dsimp only
  rw [h2]
  dsimp only
  rw [hforce, if_neg Bool.false_ne_true, hfetch url]

/-- C4 counterexample: a URL carrying a DOI whose Crossref title is pure
markup (`<i></i>`) resolves to the empty title — `resolve` can return an
empty string. -/
theorem resolve_returns_empty_title :
    (resolve_best_title_and_doi_for_url
      ⟨false, fun _ => none, fun _ => (none, none), fun _ => some "<i></i>".data,
       fun _ => none, fun _ _ => (none, none), fun _ _ => (none, none),
       fun _ _ _ _ => (none, none), fun _ _ _ => none, fun _ => .error (), fun _ => []⟩
      "https://example.com/10.1234/abcd".data).1 =
      ([], some "10.1234/abcd".data) := by
  decide

/-- Witness for `resolve_network_failure_falls_back` at a concrete URL in
the all-failing environment. -/
theorem resolve_network_failure_falls_back_witness :
    (resolve_best_title_and_doi_for_url envAllFail
      "https://example.com/some-paper".data).1 =
      (inferFallback envAllFail "https://example.com/some-paper".data, none) :=
  resolve_network_failure_falls_back envAllFail "https://example.com/some-paper".data
    rfl (fun _ => rfl) (fun _ => rfl) (fun _ => rfl) (fun _ => rfl)

/-- Chunks produced by the whitespace splitter are non-empty and
whitespace-free. -/
theorem pySplitWsAux_facts :
    ∀ (s cur : Str), (∀ c ∈ cur, pyIsSpace c = false) →
      ∀ chunk ∈ pySplitWsAux cur s, chunk ≠ [] ∧ ∀ c ∈ chunk, pyIsSpace c = false := by
  intro s
  induction s with
  | nil =>
    intro cur hcur chunk hchunk
    unfold pySplitWsAux at hchunk
    by_cases hc : cur = []
    · rw [if_pos hc] at hchunk
      exact absurd hchunk (List.not_mem_nil chunk)
    · rw [if_neg hc] at hchunk
      simp only [List.mem_singleton] at hchunk
      subst hchunk
      constructor
      · simp [hc]
      · intro c hcm
        exact hcur c (List.mem_reverse.mp hcm)
  | cons x rest ih =>
    intro cur hcur chunk hchunk
    unfold pySplitWsAux at hchunk
    by_cases hx : pyIsSpace x = true
    · rw [if_pos hx] at hchunk
      by_cases hc : cur = []
      · rw [if_pos hc] at hchunk
        exact ih [] (by intro c hcm; exact absurd hcm (List.not_mem_nil c)) chunk hchunk
      · rw [if_neg hc] at hchunk
        rcases List.mem_cons.mp hchunk with hchunk | hchunk
        · subst hchunk
          constructor
          · simp [hc]
          · intro c hcm
            exact hcur c (List.mem_reverse.mp hcm)
        · exact ih [] (by intro c hcm; exact absurd hcm (List.not_mem_nil c)) chunk hchunk
    · rw [if_neg hx] at hchunk
      refine ih (x :: cur) ?_ chunk hchunk
      intro c hcm
      rcases List.mem_cons.mp hcm with hcm | hcm
      · subst hcm
        simpa using hx
      · exact hcur c hcm

/-- Unfolding equation of the whitespace splitter on a cons. -/
theorem pySplitWsAux_cons (cur : Str) (c : Char) (rest : Str) :
    pySplitWsAux cur (c :: rest) =
      if pyIsSpace c then
        (if cur = [] then pySplitWsAux [] rest else cur.reverse :: pySplitWsAux [] rest)
      else pySplitWsAux (c :: cur) rest := rfl

/-- The splitter consumes a whitespace-free block into the accumulator. -/
theorem pySplitWsAux_chunk (w : Str) (hw : ∀ c ∈ w, pyIsSpace c = false) :
    ∀ (acc t : Str), pySplitWsAux acc (w ++ t) = pySplitWsAux (w.reverse ++ acc) t := by
  induction w with
  | nil =>
    intro acc t
    simp
  | cons c w2 ih =>
    intro acc t
    rw [List.cons_append, pySplitWsAux_cons,
      if_neg (by simp [hw c (List.mem_cons_self c w2)])]
    rw [ih (fun d hd => hw d (List.mem_cons_of_mem c hd)) (c :: acc) t]
    congr 1
    simp

/-- The splitter emits the accumulator at a space. -/
theorem pySplitWsAux_sep {acc : Str} (hacc : acc ≠ []) (t : Str) :
    pySplitWsAux acc (' ' :: t) = acc.reverse :: pySplitWsAux [] t := by
  rw [pySplitWsAux_cons, if_pos (by decide), if_neg hacc]

/-- The whitespace split inverts the single-space join on non-empty,
whitespace-free chunks. -/
theorem pySplitWs_joinSep :
    ∀ chunks : List Str,
      (∀ ch ∈ chunks, ch ≠ [] ∧ ∀ c ∈ ch, pyIsSpace c = false) →
      pySplitWs (joinSep [' '] chunks) = chunks := by
  intro chunks
  induction chunks with
  | nil =>
    intro h
    rfl
  | cons w rest ih =>
    intro h
    obtain ⟨hne, hsp⟩ := h w (List.mem_cons_self w rest)
    cases rest with
    | nil =>
      show pySplitWsAux [] (joinSep [' '] [w]) = [w]
      have hj : joinSep [' '] [w] = w ++ [] := by simp [joinSep]
      rw [hj, pySplitWsAux_chunk w hsp [] []]
      unfold pySplitWsAux
      rw [if_neg (by simp [hne])]
      simp
    | cons w2 rest2 =>
      show pySplitWsAux [] (joinSep [' '] (w :: w2 :: rest2)) = w :: w2 :: rest2
      have hj : joinSep [' '] (w :: w2 :: rest2) = w ++ (' ' :: joinSep [' '] (w2 :: rest2)) := by
        show w ++ [' '] ++ joinSep [' '] (w2 :: rest2) = _
        simp
      rw [hj, pySplitWsAux_chunk w hsp [] _]
      rw [pySplitWsAux_sep (by simp [hne]) _]
      rw [List.append_nil, List.reverse_reverse]
      have := ih (fun ch hch => h ch (List.mem_cons_of_mem w hch))
      unfold pySplitWs at this
      rw [this]

/-- Whitespace collapsing is idempotent. -/
theorem collapseWs_idem (s : Str) : collapseWs (collapseWs s) = collapseWs s := by
  unfold collapseWs
  rw [pySplitWs_joinSep (pySplitWs s)
    (fun ch hch => pySplitWsAux_facts s []
      (fun c hc => absurd hc (List.not_mem_nil c)) ch hch)]

/-- Every cleaned text is whitespace-collapsed. -/
theorem clean_collapsed (soup : Str → Str) (v : PyVal) :
    collapseWs (clean_text_strip_html soup v) = clean_text_strip_html soup v := by
  unfold clean_text_strip_html
  cases v with
  | nonstr => rfl
  | str s =>
    dsimp only
    exact collapseWs_idem _

/-- A title equal to a cleaned text is whitespace-collapsed. -/
theorem collapsed_of_clean {env : Env} {t v : Str}
    (h : t = clean_text_strip_html env.soup (PyVal.str v)) : collapseWs t = t := by
  rw [h]
  exact clean_collapsed _ _

/-- Chaining preserves collapsed titles. -/
theorem chainOr_titled {a : StageRes} {b : Unit → StageRes}
    (ha : ∀ t dd, a.1 = some (t, dd) → collapseWs t = t)
    (hb : ∀ t dd, (b ()).1 = some (t, dd) → collapseWs t = t) :
    ∀ t dd, (chainOr a b).1 = some (t, dd) → collapseWs t = t := by
  intro t dd h
  unfold chainOr at h
  cases hc : a.1 with
  | some r =>
    rw [hc] at h
    dsimp only at h
    exact ha t dd (hc.trans h)
  | none =>
    rw [hc] at h
    dsimp only at h
    exact hb t dd h

/-- `safe_meta` returns cleaned, collapsed titles. -/
theorem safe_meta_titled (env : Env) (page : Page) :
    ∀ (names : List Str) (t : Str), safe_meta env page names = some t →
      collapseWs t = t := by
  intro names
  induction names with
  | nil =>
    intro t h
    exact absurd h (by simp [safe_meta])
  | cons nm rest ih =>
    intro t h
    unfold safe_meta at h
    cases hc : page.metaName nm with
    | some c =>
      rw [hc] at h
      dsimp only at h
      by_cases hne : c ≠ []
      · rw [if_pos hne] at h
        injection h with h1
        exact collapsed_of_clean h1.symm
      · rw [if_neg hne] at h
        exact ih t h
    | none =>
      rw [hc] at h
      exact ih t h

/-- The scholarly-meta loop returns cleaned, collapsed titles. -/
theorem metaLoop_titled (env : Env) :
    ∀ (cands : List (Option Str)) (t : Str), metaLoop env cands = some t →
      collapseWs t = t := by
  intro cands
  induction cands with
  | nil =>
    intro t h
    exact absurd h (by simp [metaLoop])
  | cons c rest ih =>
    intro t h
    unfold metaLoop at h
    cases hc : c with
    | some v =>
      rw [hc] at h
      dsimp only at h
      by_cases hne : v ≠ []
      · rw [if_pos hne] at h
        by_cases htt : clean_text_strip_html env.soup (PyVal.str v) ≠ []
        · rw [if_pos htt] at h
          injection h with h1
          exact collapsed_of_clean h1.symm
        · rw [if_neg htt] at h
          exact ih t h
      · rw [if_neg hne] at h
        exact ih t h
    | none =>
      rw [hc] at h
      exact ih t h

/-- The bioRxiv DOI sub-rule returns collapsed titles. -/
theorem pubBiorxivDoi_titled (env : Env) (url : Str) (page : Page) :
    ∀ t dd, (pubBiorxivDoi env url page).1 = some (t, dd) → collapseWs t = t := by
  unfold pubBiorxivDoi
  apply chainOr_titled
  · intro t dd h
    cases hd : page.doiInSoup with
    | some d =>
      rw [hd] at h
      dsimp only at h
      cases ht : (doiLookupBio env d).1 with
      | some tt =>
        rw [ht] at h
        dsimp only at h
        injection h with h1
        exact collapsed_of_clean (congrArg Prod.fst h1).symm
      | none =>
        rw [ht] at h
        exact absurd h (by simp)
    | none =>
      rw [hd] at h
      exact absurd h (by simp)
  · intro t dd h
    dsimp only at h
    cases hm : doiSearchMatch url with
    | some d =>
      rw [hm] at h
      dsimp only at h
      cases ht : (doiLookupBio env d).1 with
      | some tt =>
        rw [ht] at h
        dsimp only at h
        injection h with h1
        exact collapsed_of_clean (congrArg Prod.fst h1).symm
      | none =>
        rw [ht] at h
        exact absurd h (by simp)
    | none =>
      rw [hm] at h
      exact absurd h (by simp)

/-- The bioRxiv publisher rule returns collapsed titles. -/
theorem pubBiorxiv_titled (env : Env) (url : Str) (page : Page) :
    ∀ t dd, (pubBiorxiv env url page).1 = some (t, dd) → collapseWs t = t := by
  intro t dd h
  unfold pubBiorxiv at h
  cases hc : page.metaName "citation_title".data with
  | some c =>
    rw [hc] at h
    dsimp only at h
    by_cases hne : c ≠ []
    · rw [if_pos hne] at h
      dsimp only at h
      injection h with h1
      exact collapsed_of_clean (congrArg Prod.fst h1).symm
    · rw [if_neg hne] at h
      exact pubBiorxivDoi_titled env url page t dd h
  | none =>
    rw [hc] at h
    exact pubBiorxivDoi_titled env url page t dd h

/-- The Cell/Elsevier publisher rule returns collapsed titles. -/
theorem pubCell_titled (env : Env) (url : Str) (page : Page) :
    ∀ t dd, (pubCell env url page).1 = some (t, dd) → collapseWs t = t := by
  dsimp only [pubCell]
  apply chainOr_titled
  · intro t dd h
    try dsimp only at h
    repeat' split at h
    all_goals try exact Option.noConfusion h
    all_goals
      (injection h with h1
       injection h1 with h2 h3
       subst h2
       first
       | exact clean_collapsed _ _
       | exact safe_meta_titled env page _ _ (by assumption))
  · try dsimp only
    apply chainOr_titled
    · intro t dd h
      try dsimp only at h
      repeat' split at h
      all_goals try exact Option.noConfusion h
      all_goals
        (injection h with h1
         injection h1 with h2 h3
         subst h2
         exact clean_collapsed _ _)
    · try dsimp only
      apply chainOr_titled
      · intro t dd h
        try dsimp only at h
        repeat' split at h
        all_goals try exact Option.noConfusion h
        all_goals
          (injection h with h1
           injection h1 with h2 h3
           subst h2
           exact clean_collapsed _ _)
      · try dsimp only
        apply chainOr_titled
        · intro t dd h
          try dsimp only at h
          repeat' split at h
          all_goals try exact Option.noConfusion h
          all_goals
            (injection h with h1
             injection h1 with h2 h3
             subst h2
             exact clean_collapsed _ _)
        · intro t dd h
          try dsimp only at h
          repeat' split at h
          all_goals try exact Option.noConfusion h
          all_goals
            (injection h with h1
             injection h1 with h2 h3
             subst h2
             exact clean_collapsed _ _)

/-- The segment-indexed Oxford rule returns collapsed titles. -/
theorem pubOupSegs_titled (env : Env) (page : Page) (jname : Option Str)
    (parts : List Str) (j : Nat) :
    ∀ t dd, (pubOupSegs env page jname parts j).1 = some (t, dd) → collapseWs t = t := by
  dsimp only [pubOupSegs]
  apply chainOr_titled
  · intro t dd h
    try dsimp only at h
    repeat' split at h
    all_goals try exact Option.noConfusion h
    all_goals
      (injection h with h1
       injection h1 with h2 h3
       subst h2
       exact clean_collapsed _ _)
  · try dsimp only
    apply chainOr_titled
    · intro t dd h
      try dsimp only at h
      repeat' split at h
      all_goals try exact Option.noConfusion h
      all_goals
        (injection h with h1
         injection h1 with h2 h3
         subst h2
         exact clean_collapsed _ _)
    · try dsimp only
      apply chainOr_titled
      · intro t dd h
        try dsimp only at h
        repeat' split at h
        all_goals try exact Option.noConfusion h
        all_goals
          (injection h with h1
           injection h1 with h2 h3
           subst h2
           exact clean_collapsed _ _)
      · intro t dd h
        try dsimp only at h
        repeat' split at h
        all_goals try exact Option.noConfusion h
        all_goals
          (injection h with h1
           injection h1 with h2 h3
           subst h2
           exact clean_collapsed _ _)

/-- The Oxford Academic publisher rule returns collapsed titles. -/
theorem pubOup_titled (env : Env) (url : Str) (page : Page) :
    ∀ t dd, (pubOup env url page).1 = some (t, dd) → collapseWs t = t := by
  dsimp only [pubOup]
  apply chainOr_titled
  · intro t dd h
    try dsimp only at h
    repeat' split at h
    all_goals try exact Option.noConfusion h
    all_goals
      (injection h with h1
       injection h1 with h2 h3
       subst h2
       exact safe_meta_titled env page _ _ (by assumption))
  · try dsimp only
    intro t dd h
    try dsimp only at h
    cases hj : listIndex "article".data (pathSegs url) with
    | none =>
      rw [hj] at h
      exact Option.noConfusion h
    | some j =>
      rw [hj] at h
      exact pubOupSegs_titled env page _ (pathSegs url) j t dd h

/-- The publisher dispatcher returns collapsed titles. -/
theorem publisher_titled (env : Env) (url : Str) (page : Page) :
    ∀ t dd, (publisher_specific_title_and_doi env url page).1 = some (t, dd) →
      collapseWs t = t := by
  dsimp only [publisher_specific_title_and_doi]
  apply chainOr_titled
  · intro t dd h
    split at h
    · exact pubBiorxiv_titled env url page t dd h
    · exact Option.noConfusion h
  · try dsimp only
    apply chainOr_titled
    · intro t dd h
      split at h
      · exact pubCell_titled env url page t dd h
      · exact Option.noConfusion h
    · try dsimp only
      intro t dd h
      split at h
      · exact pubOup_titled env url page t dd h
      · exact Option.noConfusion h

/-- The publisher stage of `resolve` returns collapsed titles. -/
theorem stagePub_titled (env : Env) (current_url : Str) (page : Page) :
    ∀ t dd, (stagePub env current_url page).1 = some (t, dd) → collapseWs t = t := by
  intro t dd h
  dsimp only [stagePub] at h
  repeat' split at h
  all_goals try exact Option.noConfusion h
  all_goals
    (injection h with h1
     injection h1 with h2 h3
     subst h2
     exact publisher_titled env current_url page _ _ (by assumption))

/-- The scholarly-meta stage returns collapsed titles. -/
theorem stageMeta_titled (env : Env) (page : Page) :
    ∀ t dd, (stageMeta env page).1 = some (t, dd) → collapseWs t = t := by
  intro t dd h
  dsimp only [stageMeta] at h
  repeat' split at h
  all_goals try exact Option.noConfusion h
  all_goals
    (injection h with h1
     injection h1 with h2 h3
     subst h2
     exact metaLoop_titled env _ _ (by assumption))

/-- The JSON-LD stage returns collapsed titles. -/
theorem stageLd_titled (env : Env) (page : Page) :
    ∀ t dd, (stageLd env page).1 = some (t, dd) → collapseWs t = t := by
  intro t dd h
  dsimp only [stageLd] at h
  repeat' split at h
  all_goals try exact Option.noConfusion h
  all_goals
    (injection h with h1
     injection h1 with h2 h3
     subst h2
     exact clean_collapsed _ _)

/-- The `<title>` stage returns collapsed titles. -/
theorem stageTitle_titled (env : Env) (page : Page) :
    ∀ t dd, (stageTitle env page).1 = some (t, dd) → collapseWs t = t := by
  intro t dd h
  dsimp only [stageTitle] at h
  repeat' split at h
  all_goals try exact Option.noConfusion h
  all_goals
    (injection h with h1
     injection h1 with h2 h3
     subst h2
     exact clean_collapsed _ _)

/-- The `<h1>` stage returns collapsed titles. -/
theorem stageH1_titled (env : Env) (page : Page) :
    ∀ t dd, (stageH1 env page).1 = some (t, dd) → collapseWs t = t := by
  intro t dd h
  dsimp only [stageH1] at h
  repeat' split at h
  all_goals try exact Option.noConfusion h
  all_goals
    (injection h with h1
     injection h1 with h2 h3
     subst h2
     exact clean_collapsed _ _)

/-- The page-DOI stage returns collapsed titles. -/
theorem stagePageDoi_titled (env : Env) (page : Page) :
    ∀ t dd, (stagePageDoi env page).1 = some (t, dd) → collapseWs t = t := by
  intro t dd h
  dsimp only [stagePageDoi] at h
  repeat' split at h
  all_goals try exact Option.noConfusion h
  all_goals
    (injection h with h1
     injection h1 with h2 h3
     subst h2
     exact clean_collapsed _ _)

/-- The free-form-search stage returns collapsed titles. -/
theorem stageSearch_titled (env : Env) (current_url : Str) :
    ∀ t dd, (stageSearch env current_url).1 = some (t, dd) → collapseWs t = t := by
  intro t dd h
  dsimp only [stageSearch] at h
  repeat' split at h
  all_goals try exact Option.noConfusion h
  all_goals
    (injection h with h1
     injection h1 with h2 h3
     subst h2
     exact clean_collapsed _ _)

/-- The fallback title is collapsed. -/
theorem inferFallback_collapsed (env : Env) (u : Str) :
    collapseWs (inferFallback env u) = inferFallback env u := by
  unfold inferFallback
  exact clean_collapsed _ _

/-- The HTML half of `resolve` returns collapsed titles. -/
theorem resolveWithPage_titled (env : Env) (url : Str) (page0 : Page) :
    collapseWs (resolveWithPage env url page0).1.1 = (resolveWithPage env url page0).1.1 := by
  unfold resolveWithPage
  dsimp only
  set hop := resolveHop env url page0 with hhop
  have h6 : ∀ t dd, (chainOr (stagePageDoi env hop.1)
      (fun _ => stageSearch env hop.2.1)).1 = some (t, dd) → collapseWs t = t :=
    chainOr_titled (stagePageDoi_titled env hop.1)
      (fun t dd h => stageSearch_titled env hop.2.1 t dd h)
  have h5 : ∀ t dd, (chainOr (stageH1 env hop.1) (fun _ => chainOr (stagePageDoi env hop.1)
      (fun _ => stageSearch env hop.2.1))).1 = some (t, dd) → collapseWs t = t :=
    chainOr_titled (stageH1_titled env hop.1) (fun t dd h => h6 t dd h)
  have h4 : ∀ t dd, (chainOr (stageTitle env hop.1) (fun _ => chainOr (stageH1 env hop.1)
      (fun _ => chainOr (stagePageDoi env hop.1)
      (fun _ => stageSearch env hop.2.1)))).1 = some (t, dd) → collapseWs t = t :=
    chainOr_titled (stageTitle_titled env hop.1) (fun t dd h => h5 t dd h)
  have h3 : ∀ t dd, (chainOr (stageLd env hop.1) (fun _ => chainOr (stageTitle env hop.1)
      (fun _ => chainOr (stageH1 env hop.1) (fun _ => chainOr (stagePageDoi env hop.1)
      (fun _ => stageSearch env hop.2.1))))).1 = some (t, dd) → collapseWs t = t :=
    chainOr_titled (stageLd_titled env hop.1) (fun t dd h => h4 t dd h)
  have h2 : ∀ t dd, (chainOr (stageMeta env hop.1) (fun _ => chainOr (stageLd env hop.1)
      (fun _ => chainOr (stageTitle env hop.1) (fun _ => chainOr (stageH1 env hop.1)
      (fun _ => chainOr (stagePageDoi env hop.1)
      (fun _ => stageSearch env hop.2.1)))))).1 = some (t, dd) → collapseWs t = t :=
    chainOr_titled (stageMeta_titled env hop.1) (fun t dd h => h3 t dd h)
  have hchain : ∀ t dd, (chainOr (stagePub env hop.2.1 hop.1)
      (fun _ => chainOr (stageMeta env hop.1) (fun _ => chainOr (stageLd env hop.1)
      (fun _ => chainOr (stageTitle env hop.1) (fun _ => chainOr (stageH1 env hop.1)
      (fun _ => chainOr (stagePageDoi env hop.1)
      (fun _ => stageSearch env hop.2.1))))))).1 = some (t, dd) → collapseWs t = t :=
    chainOr_titled (stagePub_titled env hop.2.1 hop.1) (fun t dd h => h2 t dd h)
  split
  next r heq =>
    dsimp only
    exact hchain r.1 r.2 heq
  next heq =>
    dsimp only
    exact inferFallback_collapsed env hop.2.1

/-- The forced Cell rule returns collapsed titles. -/
theorem forceCell_titled (env : Env) (url : Str) :
    ∀ t dd, (forceCell env url).1 = some (t, dd) → collapseWs t = t := by
  dsimp only [forceCell]
  split
  · apply chainOr_titled
    · intro t dd h
      try dsimp only at h
      repeat' split at h
      all_goals try exact Option.noConfusion h
      all_goals
        (injection h with h1
         injection h1 with h2 h3
         subst h2
         exact clean_collapsed _ _)
    · intro t dd h
      try dsimp only at h
      repeat' split at h
      all_goals try exact Option.noConfusion h
      all_goals
        (injection h with h1
         injection h1 with h2 h3
         subst h2
         exact clean_collapsed _ _)
  · intro t dd h
    exact Option.noConfusion h

/-- The forced Oxford rule returns collapsed titles. -/
theorem forceOup_titled (env : Env) (url : Str) :
    ∀ t dd, (forceOup env url).1 = some (t, dd) → collapseWs t = t := by
  intro t dd h
  dsimp only [forceOup] at h
  repeat' split at h
  all_goals try exact Option.noConfusion h
  all_goals
    (injection h with h1
     injection h1 with h2 h3
     subst h2
     exact clean_collapsed _ _)

/-- The forced path returns collapsed titles. -/
theorem forceResolve_titled (env : Env) (url : Str) :
    collapseWs (forceResolve env url).1.1 = (forceResolve env url).1.1 := by
  unfold forceResolve
  dsimp only
  have hchain : ∀ t dd, (chainOr (forceCell env url) (fun _ => forceOup env url)).1 =
      some (t, dd) → collapseWs t = t :=
    chainOr_titled (forceCell_titled env url) (fun t dd h => forceOup_titled env url t dd h)
  split
  next r heq =>
    dsimp only
    exact hchain r.1 r.2 heq
  next heq =>
    dsimp only
    exact inferFallback_collapsed env url

/-- The direct-PDF stage returns collapsed titles. -/
theorem resolveStagePdf_titled (env : Env) (url : Str) :
    ∀ t dd, (resolveStagePdf env url).1 = some (t, dd) → collapseWs t = t := by
  intro t dd h
  dsimp only [resolveStagePdf] at h
  repeat' split at h
  all_goals try exact Option.noConfusion h
  all_goals
    (injection h with h1
     injection h1 with h2 h3
     subst h2
     exact clean_collapsed _ _)

/-- The DOI-in-URL stage returns collapsed titles. -/
theorem resolveStageDoi_titled (env : Env) (url : Str) :
    ∀ t dd, (resolveStageDoi env url).1 = some (t, dd) → collapseWs t = t := by
  intro t dd h
  dsimp only [resolveStageDoi] at h
  repeat' split at h
  all_goals try exact Option.noConfusion h
  all_goals
    (injection h with h1
     injection h1 with h2 h3
     subst h2
     exact clean_collapsed _ _)

/-- C5 (amended): every title the cascade returns — from any stage,
publisher rule to URL inference — is whitespace-collapsed, being the output
of `clean_text_strip_html` (HTML-unescaped and space-joined).  (The claimed
300-character cap is refuted by `resolve_title_over_300`: only the
bibliographic-API helpers truncate.) -/
theorem resolve_title_whitespace_collapsed (env : Env) (url : Str) :
    collapseWs (resolve_best_title_and_doi_for_url env url).1.1 =
      (resolve_best_title_and_doi_for_url env url).1.1 := by
  unfold resolve_best_title_and_doi_for_url
  dsimp only
  have hchain : ∀ t dd, (chainOr (resolveStagePdf env url)
      (fun _ => resolveStageDoi env url)).1 = some (t, dd) → collapseWs t = t :=
    chainOr_titled (resolveStagePdf_titled env url)
      (fun t dd h => resolveStageDoi_titled env url t dd h)
  split
  next r heq =>
    try dsimp only
    exact hchain r.1 r.2 heq
  next heq =>
    try dsimp only
    split
    · exact forceResolve_titled env url
    · split
      next e heq2 =>
        try dsimp only
        exact inferFallback_collapsed env url
      next page0 heq2 =>
        try dsimp only
        exact resolveWithPage_titled env url page0

/-- C5 counterexample: a page whose `<title>` is 301 characters long
resolves to a 301-character title — the scraping stages never truncate to
300 characters. -/
theorem resolve_title_over_300 :
    ((resolve_best_title_and_doi_for_url
      ⟨false, fun _ => none, fun _ => (none, none), fun _ => none, fun _ => none,
       fun _ _ => (none, none), fun _ _ => (none, none), fun _ _ _ _ => (none, none),
       fun _ _ _ => none,
       fun u => .ok ⟨u, none, fun _ => none, fun _ => none, none, none,
         some (List.replicate 301 'a'), none⟩,
       fun _ => []⟩
      "https://example.com/x".data).1.1).length = 301 := by
  set_option maxRecDepth 10000 in decide
